import Mathlib

/-!
Magic Keyboard: the trie engine of `mk.c`.

A shallow embedding of the trie of `mk.c` (insert, remove, autocorrect and the
three autocomplete strategies) and theorems about it.

Modelling conventions.

* A value of `trie_node_t` stands for a `trie_node_t *` of the source: it is
  either `NULL` or the node the pointer owns.  The trie is a tree (every node
  has one owner), so a node value stands for the whole subtrie below it.
* `children` is the array of `ALPHABET_SIZE = 26` pointers, indexed by `Fin 26`.
* C `int`s that can hold `-1` or come from the user are `Int`; counters that
  start at `0` and only grow are `Nat`.  The increment of `end_of_word`, which
  the input can repeat without bound, wraps at `INT_MAX` as on the 32-bit `int`
  of the compiled program (`int_incr`).
* A word is the list of characters of a C string before its terminator.  The
  autocorrect query alone is passed as the whole buffer, because the source
  reads it at and after the terminator.
* Character buffers `char x[MAX_WORD_LENGTH]` are lists of 50 characters; a
  write outside the array (undefined in C) is dropped by `List.set`.
* Printing is modelled by returning the list of printed lines.
* The file read by `load_file` is a stream: the characters not read yet and the
  end-of-file indicator; `fscanf` and `feof` behave as the C standard says.
-/

namespace MK

/-- The constant `ALPHABET_SIZE` of the source. -/
abbrev ALPHABET_SIZE : Nat := 26

/-- The constant `MAX_WORD_LENGTH` of the source. -/
abbrev MAX_WORD_LENGTH : Nat := 50

/-- What a `trie_node_t *` points to: nothing (`NULL`) or a node with the four
fields of `struct trie_node_t`. -/
inductive trie_node_t where
  | NULL : trie_node_t
  | node (letter : Char) (end_of_word : Int) (children : Fin 26 → trie_node_t)
      (n_children : Int) : trie_node_t

/-- The struct `trie_t`: the pointer to the root node. -/
structure trie_t where
  root : trie_node_t

namespace trie_node_t

/-- Test `!node` of the source. -/
def is_null : trie_node_t → Bool
  | NULL => true
  | node _ _ _ _ => false

/-- Field `node->letter` (the value at `NULL` is never read by the source). -/
def letter : trie_node_t → Char
  | NULL => '\x00'
  | node l _ _ _ => l

/-- Field `node->end_of_word`; `0` stands for a missing node. -/
def end_of_word : trie_node_t → Int
  | NULL => 0
  | node _ e _ _ => e

/-- Field `node->n_children`. -/
def n_children : trie_node_t → Int
  | NULL => 0
  | node _ _ _ n => n

/-- Field `node->children`. -/
def children : trie_node_t → Fin 26 → trie_node_t
  | NULL => fun _ => NULL
  | node _ _ ch _ => ch

end trie_node_t

open trie_node_t

/-- The array index `word[i] - 'a'` computed by the source. -/
def idx (c : Char) : Int := (c.toNat : Int) - ('a'.toNat : Int)

/-- Read `children[i]` for an `int` index; an index outside the array
(undefined in C) reads as `NULL`. -/
def child (ch : Fin 26 → trie_node_t) (i : Int) : trie_node_t :=
  if h : 0 ≤ i ∧ i < 26 then ch ⟨i.toNat, by omega⟩ else NULL

/-- Write `children[i] = v` for an `int` index; an index outside the array
(undefined in C) writes nothing. -/
def set_child (ch : Fin 26 → trie_node_t) (i : Int) (v : trie_node_t) :
    Fin 26 → trie_node_t :=
  fun j => if (j.val : Int) = i then v else ch j

/-- Function `create_node`: a node with the given letter, no word end and
26 `NULL` children. -/
def create_node (letter : Char) : trie_node_t :=
  node letter 0 (fun _ => NULL) 0

/-- Function `create_trie`: a trie whose root is `create_node('\0')`. -/
def create_trie : trie_t :=
  { root := create_node '\x00' }

/-- The largest value of a C `int` of 32 bits. -/
abbrev INT_MAX : Int := 2147483647

/-- The smallest value of a C `int` of 32 bits. -/
abbrev INT_MIN : Int := -2147483648

/-- The increment `x++` of a C `int` as the compiled program performs it (32
bits, two's complement): one more, and `INT_MAX` wraps to `INT_MIN`. -/
def int_incr (x : Int) : Int := if x = INT_MAX then INT_MIN else x + 1

/-- The loop and the final increment of `insert_word`, started at `curr`: the
result is the subtrie owned by `curr` after the insertion of the remaining
letters. -/
def insert_loop : trie_node_t → List Char → trie_node_t
  | NULL, _ => NULL
  | node l e ch n, [] => node l (int_incr e) ch n
  | node l e ch n, c :: cs =>
    if (child ch (idx c)).is_null then
      node l e (set_child ch (idx c) (insert_loop (create_node c) cs)) (n + 1)
    else
      node l e (set_child ch (idx c) (insert_loop (child ch (idx c)) cs)) n

/-- Function `insert_word`. -/
def insert_word (trie : trie_t) (word : List Char) : trie_t :=
  { root := insert_loop trie.root word }

/-- The `for` loop of `recursive_subtrie_deletion` over the indices still to
visit: `n` is the current `node->n_children`, `r i` the nodes freed by the
recursive call on child `i`.  The loop stops as soon as `n` is `0`. -/
def deletion_loop (ch : Fin 26 → trie_node_t) (r : Fin 26 → List trie_node_t) :
    List (Fin 26) → Int → List trie_node_t
  | [], _ => []
  | i :: is, n =>
    if n = 0 then []
    else if (ch i).is_null then deletion_loop ch r is n
    else r i ++ deletion_loop ch r is (n - 1)

/-- Function `recursive_subtrie_deletion`: the list of the nodes passed to
`free`, in the order of the calls (each node as it was when the function was
entered). -/
def recursive_subtrie_deletion : trie_node_t → List trie_node_t
  | NULL => []
  | node l e ch n =>
    deletion_loop ch (fun i => recursive_subtrie_deletion (ch i)) (List.finRange 26) n
      ++ [node l e ch n]

/-- The walk from `curr` that consumes the letters of a word, one edge per
letter (the loop of `prepare_autocomplete`); `NULL` when an edge is missing. -/
def walk : trie_node_t → List Char → trie_node_t
  | NULL, _ => NULL
  | node l e ch n, [] => node l e ch n
  | node _ _ ch _, c :: cs => walk (child ch (idx c)) cs

/-- Apply `f` in place to the node reached from `curr` by the given path
(nothing happens when the path is missing). -/
def modify_at (f : trie_node_t → trie_node_t) : trie_node_t → List Char → trie_node_t
  | NULL, _ => NULL
  | node l e ch n, [] => f (node l e ch n)
  | node l e ch n, c :: cs =>
    node l e (set_child ch (idx c) (modify_at f (child ch (idx c)) cs)) n

/-- The assignment `curr->end_of_word = 0`. -/
def clear_end_of_word : trie_node_t → trie_node_t
  | NULL => NULL
  | node l _ ch n => node l 0 ch n

/-- The two assignments `p->children[i] = NULL; p->n_children--`. -/
def detach_child (i : Int) : trie_node_t → trie_node_t
  | NULL => NULL
  | node l e ch n => node l e (set_child ch i NULL) (n - 1)

/-- The `for` loop of `remove_word`.  `i` is the loop counter (the depth of
`curr`), `lsp` the depth of the node `last_special_parent` points to and
`parent_idx` the variable of that name.  The result is `none` when an edge is
missing (the early `return`), otherwise the final `last_special_parent`,
`parent_idx` and `curr`. -/
def remove_loop : trie_node_t → List Char → Nat → Nat → Int →
    Option (Nat × Int × trie_node_t)
  | curr, [], _, lsp, parent_idx => some (lsp, parent_idx, curr)
  | curr, c :: cs, i, lsp, parent_idx =>
    if (child curr.children (idx c)).is_null then none
    else if curr.n_children = 0 ∧ curr.end_of_word = 0 then
      remove_loop (child curr.children (idx c)) cs (i + 1) lsp parent_idx
    else
      remove_loop (child curr.children (idx c)) cs (i + 1) i (idx c)

/-- Function `remove_word`: the trie after the call and the list of the nodes
it freed.  `last_special_parent` is a pointer to a node of the walk; it is
represented by the depth of that node, so the node is the one reached by the
first `lsp` letters of the word. -/
def remove_word (trie : trie_t) (word : List Char) : trie_t × List trie_node_t :=
  match remove_loop trie.root word 0 0 (idx (word.headD '\x00')) with
  | none => (trie, [])
  | some (lsp, parent_idx, curr) =>
    let root1 := modify_at clear_end_of_word trie.root word
    if curr.n_children > 0 then ({ root := root1 }, [])
    else
      let freed := recursive_subtrie_deletion
        (child (walk root1 (word.take lsp)).children parent_idx)
      ({ root := modify_at (detach_child parent_idx) root1 (word.take lsp) }, freed)


/-- A character of the alphabet of the trie: `'a'` to `'z'`. -/
def is_letter (c : Char) : Prop := 'a'.toNat ≤ c.toNat ∧ c.toNat ≤ 'z'.toNat

instance (c : Char) : Decidable (is_letter c) := by
  unfold is_letter; infer_instance

/-- A word made of lowercase letters only. -/
def lowercase (w : List Char) : Prop := ∀ c ∈ w, is_letter c

instance (w : List Char) : Decidable (lowercase w) := by
  unfold lowercase; infer_instance

/-- The end-of-word count of a word in a trie: the field of the node the walk
reaches, `0` when the path is missing. -/
def count (trie : trie_t) (w : List Char) : Int := (walk trie.root w).end_of_word

/-- The number of non-`NULL` entries of a `children` array. -/
def live_children (ch : Fin 26 → trie_node_t) : Nat :=
  ((List.finRange 26).filter (fun i => !(ch i).is_null)).length

/-- The children-count invariant: in every node of the subtrie `n_children` is
the number of non-`NULL` child edges. -/
def count_ok : trie_node_t → Bool
  | NULL => true
  | node _ _ ch n =>
    decide (n = (live_children ch : Int)) && (List.finRange 26).all (fun i => count_ok (ch i))

/-- The scalar fields of a node: `none` for `NULL`, otherwise the letter, the
end-of-word count and the children count. -/
def fields : trie_node_t → Option (Char × Int × Int)
  | NULL => none
  | node l e _ n => some (l, e, n)

/-- The line `No words found` of the source. -/
def not_found : List Char := "No words found".toList

/-- The terminator of C strings. -/
abbrev NUL : Char := '\x00'

/-- The C string held by a buffer: the characters before the first terminator
(what `printf("%s")` prints). -/
def cstr (buf : List Char) : List Char := buf.takeWhile (fun c => c ≠ NUL)

/-- The function `strlen` on a buffer. -/
def strlen (buf : List Char) : Nat := (cstr buf).length

/-- Read `buf[i]`; a read outside the list gives the terminator. -/
def buf_read (buf : List Char) (i : Nat) : Char := buf.getD i NUL

/-- Write `buf[i] = c` for an `int` index (a negative index writes nothing). -/
def buf_write (buf : List Char) (i : Int) (c : Char) : List Char :=
  if 0 ≤ i then buf.set i.toNat c else buf

/-- The loop `for (i = 0; i < n; i++) dst[i] = src[i]`. -/
def copy_chars (dst src : List Char) (n : Nat) : List Char :=
  (List.range n).foldl (fun d i => d.set i (buf_read src i)) dst

/-- A buffer `char x[MAX_WORD_LENGTH] = {0}`. -/
def zero_buffer : List Char := List.replicate MAX_WORD_LENGTH NUL

/-- The variables `autocorrect` updates through its pointer arguments, and the
lines it has printed. -/
structure autocorrect_state where
  new_word : List Char
  printed : Int
  out : List (List Char)

/-- Function `autocorrect`.  `word` is the query buffer; `is_root` stands for
the test `node == trie->root`, which holds at the first call only since the
root is no node's child. -/
def autocorrect (k : Int) (word : List Char) :
    trie_node_t → Bool → Int → Nat → autocorrect_state → autocorrect_state
  | NULL, _, _, _, st => st
  | node l e ch _, is_root, diff, letter_idx, st =>
    if !is_root && decide (diff > k) then st
    else
      let st1 : autocorrect_state :=
        if is_root then st else { st with new_word := st.new_word.set (letter_idx - 1) l }
      if !is_root && decide (letter_idx = strlen word) && decide (e > 0) then
        { st1 with printed := 1
                   out := st1.out ++ [st1.new_word.take (strlen word)] }
      else
        (List.finRange 26).foldl (fun s i =>
          if (ch i).is_null then s
          else if (ch i).letter ≠ buf_read word letter_idx then
            autocorrect k word (ch i) false (diff + 1) (letter_idx + 1) s
          else
            autocorrect k word (ch i) false diff (letter_idx + 1) s) st1

/-- The call of `autocorrect` made by `prepare_autocorrect`. -/
def run_autocorrect (trie : trie_t) (k : Int) (word : List Char) : autocorrect_state :=
  autocorrect k word trie.root true 0 0 { new_word := zero_buffer, printed := 0, out := [] }

/-- Function `prepare_autocorrect`: the printed lines. -/
def prepare_autocorrect (trie : trie_t) (k : Int) (word : List Char) : List (List Char) :=
  let st := run_autocorrect trie k word
  if st.printed = 0 then st.out ++ [not_found] else st.out

/-- The variables `autocomplete_first_lexico` updates through its pointer
arguments, and the lines it has printed. -/
structure lexico_state where
  first_lexico_word : List Char
  printed : Int
  out : List (List Char)

/-- Function `autocomplete_first_lexico`; `pfx_length` is the parameter
`prefix_length` and `is_root` stands for the test `node == subtrie_root`. -/
def autocomplete_first_lexico :
    trie_node_t → Bool → Int → lexico_state → lexico_state
  | NULL, _, _, st => st
  | node l e ch _, is_root, pfx_length, st =>
    let buf : List Char :=
      buf_write (buf_write st.first_lexico_word pfx_length l) (pfx_length + 1) NUL
    let st1 : lexico_state := if is_root then st else { st with first_lexico_word := buf }
    if !is_root && decide (e > 0) && decide (st1.printed ≠ 1) then
      { st1 with printed := 1
                 out := st1.out ++ [st1.first_lexico_word.take (pfx_length + 1).toNat] }
    else
      (List.finRange 26).foldl (fun s i =>
        if (ch i).is_null then s
        else autocomplete_first_lexico (ch i) false (pfx_length + 1) s) st1

/-- The variables `autocomplete_shortest` updates through its pointer
arguments. -/
structure shortest_state where
  min_word : List Char
  min_length : Int
  new_word : List Char

/-- The re-initialisation of `new_word` done at the subtrie root: 50 zeroes,
then the characters of the prefix, then a terminator. -/
def reset_new_word (new_word pfx : List Char) : List Char :=
  (copy_chars (new_word.map (fun _ => NUL)) pfx pfx.length).set pfx.length NUL

/-- The two writes `new_word[strlen(prefix) + cnt - 1] = node->letter;
new_word[strlen(prefix) + cnt] = '\0'`. -/
def push_letter (new_word pfx : List Char) (cnt : Nat) (l : Char) : List Char :=
  (new_word.set (pfx.length + cnt - 1) l).set (pfx.length + cnt) NUL

/-- The copy of the first `n` characters of `new_word` into a result buffer,
followed by a terminator. -/
def save_word (dst new_word : List Char) (n : Nat) : List Char :=
  (copy_chars dst new_word n).set n NUL

/-- Function `autocomplete_shortest`; `pfx` is the prefix string and `is_root`
stands for the test `node == subtrie_root`.  The comparison with `*min_length`
is the one of the source on the values that occur (`-1` or a length). -/
def autocomplete_shortest (pfx : List Char) :
    trie_node_t → Bool → Nat → shortest_state → shortest_state
  | NULL, _, _, st => st
  | node l e ch _, is_root, cnt, st =>
    if is_root then
      (List.finRange 26).foldl (fun s i =>
        if (ch i).is_null then s
        else autocomplete_shortest pfx (ch i) false (0 + 1) s)
        { st with new_word := reset_new_word st.new_word pfx }
    else
      let st1 : shortest_state := { st with new_word := push_letter st.new_word pfx cnt l }
      if e > 0 then
        if ((cnt + pfx.length : Nat) : Int) < st1.min_length ∨ st1.min_length = -1 then
          { st1 with min_length := ((cnt + pfx.length : Nat) : Int)
                     min_word := save_word st1.min_word st1.new_word (cnt + pfx.length) }
        else st1
      else
        (List.finRange 26).foldl (fun s i =>
          if (ch i).is_null then s
          else autocomplete_shortest pfx (ch i) false (cnt + 1) s) st1

/-- The variables `autocomplete_most_frequent` updates through its pointer
arguments. -/
structure most_frequent_state where
  most_freq_word : List Char
  max_freq : Int
  new_word : List Char

/-- Function `autocomplete_most_frequent`; `pfx` is the prefix string and
`is_root` stands for the test `node == subtrie_root`. -/
def autocomplete_most_frequent (pfx : List Char) :
    trie_node_t → Bool → Nat → most_frequent_state → most_frequent_state
  | NULL, _, _, st => st
  | node l e ch _, is_root, cnt, st =>
    let cnt1 : Nat := if is_root then 0 else cnt
    let st1 : most_frequent_state :=
      if is_root then { st with new_word := reset_new_word st.new_word pfx }
      else { st with new_word := push_letter st.new_word pfx cnt l }
    let st2 : most_frequent_state :=
      if e > 0 ∧ (e > st1.max_freq ∨ st1.max_freq = -1) then
        { st1 with max_freq := e
                   most_freq_word := save_word st1.most_freq_word st1.new_word (cnt1 + pfx.length) }
      else st1
    (List.finRange 26).foldl (fun s i =>
      if (ch i).is_null then s
      else autocomplete_most_frequent pfx (ch i) false (cnt1 + 1) s) st2

/-- Function `prepare_autocomplete_1`: the printed lines. -/
def prepare_autocomplete_1 (pfx : List Char) (curr : trie_node_t) : List (List Char) :=
  if curr.end_of_word > 0 then [pfx]
  else
    let st := autocomplete_first_lexico curr true ((pfx.length : Int) - 1)
      { first_lexico_word := copy_chars zero_buffer pfx pfx.length, printed := 0, out := [] }
    if st.printed = 0 then st.out ++ [not_found] else st.out

/-- Function `prepare_autocomplete_2`: the printed lines.  The array `new_word`
is not initialised by the source; every entry is written at the subtrie root
before it is read. -/
def prepare_autocomplete_2 (pfx : List Char) (curr : trie_node_t) : List (List Char) :=
  if curr.end_of_word > 0 then [pfx]
  else
    let st := autocomplete_shortest pfx curr true 0
      { min_word := zero_buffer, min_length := -1, new_word := zero_buffer }
    if st.min_length = -1 then [not_found] else [cstr st.min_word]

/-- Function `prepare_autocomplete_3`: the printed lines. -/
def prepare_autocomplete_3 (pfx : List Char) (curr : trie_node_t) : List (List Char) :=
  let st := autocomplete_most_frequent pfx curr true 0
    { most_freq_word := zero_buffer, max_freq := -1, new_word := zero_buffer }
  if st.max_freq = -1 then [not_found] else [cstr st.most_freq_word]

/-- Function `prepare_autocomplete`: the printed lines.  The loop that looks
for the prefix is `walk`; `prefix_not_found` is set when it meets a missing
edge. -/
def prepare_autocomplete (pfx : List Char) (crit_number : Int) (trie : trie_t) :
    List (List Char) :=
  let curr := walk trie.root pfx
  if curr.is_null then [not_found]
  else if crit_number = 1 then prepare_autocomplete_1 pfx curr
  else if crit_number = 2 then prepare_autocomplete_2 pfx curr
  else if crit_number = 3 then prepare_autocomplete_3 pfx curr
  else prepare_autocomplete_1 pfx curr ++ prepare_autocomplete_2 pfx curr
    ++ prepare_autocomplete_3 pfx curr

/-- Insert a list of words, first to last, into a new trie. -/
def trie_of (ws : List String) : trie_t :=
  ws.foldl (fun t w => insert_word t w.toList) create_trie

/-- The trie that holds the one word `a` with end-of-word count `n`: what the
program holds after `n` insertions of `a` (for `n` from 1 to `INT_MAX`). -/
def count_trie (n : Int) : trie_t :=
  { root := node '\x00' 0 (set_child (fun _ => NULL) 0 (node 'a' n (fun _ => NULL) 0)) 1 }

/-- The letter of the alphabet with index `i`: `'a' + i`. -/
def letter_of (i : Fin 26) : Char := Char.ofNat ('a'.toNat + i.val)

/-- The letter invariant: below `nd`, the node stored in `children[i]` holds
the letter `'a' + i` (what `create_node(word[i])` stores at index
`word[i] - 'a'`). -/
def letters_ok : trie_node_t → Bool
  | NULL => true
  | node _ _ ch _ =>
    (List.finRange 26).all (fun i =>
      ((ch i).is_null || decide ((ch i).letter = letter_of i)) && letters_ok (ch i))

/-- Bound on the height: every node below `nd` is at most `h` edges away from
it. -/
def height_le : Nat → trie_node_t → Bool
  | _, NULL => true
  | h, node _ _ ch _ =>
    (List.finRange 26).all (fun i =>
      (ch i).is_null || (decide (0 < h) && height_le (h - 1) (ch i)))

/-- The nodes of the subtrie of `nd` in depth-first order, children in
ascending order of their index: each with the letters of its path from `nd` and
its end-of-word count. -/
def sub_entries : trie_node_t → List (List Char × Int)
  | NULL => []
  | node _ e ch _ =>
    ([], e) :: (List.finRange 26).flatMap (fun i =>
      (sub_entries (ch i)).map (fun x => (letter_of i :: x.1, x.2)))

/-- A word is stored in the trie: its end-of-word count is positive. -/
def stored (trie : trie_t) (w : List Char) : Prop := 0 < count trie w

instance (trie : trie_t) (w : List Char) : Decidable (stored trie w) := by
  unfold stored; infer_instance

/-- The lexicographic (dictionary) order on words. -/
def lex_lt (a b : List Char) : Prop := List.Lex (fun x y : Char => x < y) a b

/-- The number of positions at which two words differ (the words are compared
up to the end of the shorter one). -/
def hamming : List Char → List Char → Nat
  | a :: as, b :: bs => (if a ≠ b then 1 else 0) + hamming as bs
  | _, _ => 0

/-- What the result of `autocomplete_most_frequent` shows to its caller: the
value of `max_freq` and the string held by `most_freq_word`. -/
def mf_abs (st : most_frequent_state) : Int × List Char :=
  (st.max_freq, cstr st.most_freq_word)

/-- The update of `autocomplete_most_frequent` at one node, on the pair of
`mf_abs`: the word `x.1` with end-of-word count `x.2` replaces the current
result when its count is positive and larger (or nothing was found yet). -/
def mf_step (a : Int × List Char) (x : List Char × Int) : Int × List Char :=
  if x.2 > 0 ∧ (x.2 > a.1 ∨ a.1 = -1) then (x.2, x.1) else a

/-- The effect of a call of `autocomplete_most_frequent` on a node other than
the subtrie root, for buffers of `MAX_WORD_LENGTH` characters and a subtrie
that fits into them: the buffers keep their length, `new_word` is unchanged
before the position of the letter of the node, and the result (`mf_abs`) is
updated by `mf_step` with the nodes of the subtrie in depth-first order, each
spelled as the content of `new_word` followed by its letters. -/
def mf_spec (pfx : List Char) (nd : trie_node_t) : Prop :=
  ∀ (h cnt : Nat) (st : most_frequent_state),
    letters_ok nd = true → height_le h nd = true → 1 ≤ cnt →
    pfx.length + cnt + h < MAX_WORD_LENGTH →
    st.new_word.length = MAX_WORD_LENGTH → st.most_freq_word.length = MAX_WORD_LENGTH →
    NUL ∉ st.new_word.take (pfx.length + cnt - 1) → nd.letter ≠ NUL →
    (autocomplete_most_frequent pfx nd false cnt st).new_word.length = MAX_WORD_LENGTH ∧
    (autocomplete_most_frequent pfx nd false cnt st).most_freq_word.length = MAX_WORD_LENGTH ∧
    (autocomplete_most_frequent pfx nd false cnt st).new_word.take (pfx.length + cnt - 1)
      = st.new_word.take (pfx.length + cnt - 1) ∧
    mf_abs (autocomplete_most_frequent pfx nd false cnt st)
      = ((sub_entries nd).map (fun x =>
          (st.new_word.take (pfx.length + cnt - 1) ++ nd.letter :: x.1, x.2))).foldl
          mf_step (mf_abs st)

/-- What the result of `autocomplete_shortest` shows to its caller: the value
of `min_length` and the string held by `min_word`. -/
def sh_abs (st : shortest_state) : Int × List Char :=
  (st.min_length, cstr st.min_word)

/-- The update of `autocomplete_shortest` at one node, on the pair of `sh_abs`:
the word `x.1` with end-of-word count `x.2` replaces the current result when
its count is positive and it is shorter (or nothing was found yet). -/
def sh_step (a : Int × List Char) (x : List Char × Int) : Int × List Char :=
  if x.2 > 0 ∧ ((x.1.length : Int) < a.1 ∨ a.1 = -1) then ((x.1.length : Int), x.1) else a

/-- The effect of a call of `autocomplete_shortest` on a node other than the
subtrie root, for buffers of `MAX_WORD_LENGTH` characters and a subtrie that
fits into them: the buffers keep their length, `new_word` is unchanged before
the position of the letter of the node, and the result (`sh_abs`) is updated by
`sh_step` with the nodes of the subtrie in depth-first order, each spelled as
the content of `new_word` followed by its letters. -/
def sh_spec (pfx : List Char) (nd : trie_node_t) : Prop :=
  ∀ (h cnt : Nat) (st : shortest_state),
    letters_ok nd = true → height_le h nd = true → 1 ≤ cnt →
    pfx.length + cnt + h < MAX_WORD_LENGTH →
    st.new_word.length = MAX_WORD_LENGTH → st.min_word.length = MAX_WORD_LENGTH →
    NUL ∉ st.new_word.take (pfx.length + cnt - 1) → nd.letter ≠ NUL →
    (autocomplete_shortest pfx nd false cnt st).new_word.length = MAX_WORD_LENGTH ∧
    (autocomplete_shortest pfx nd false cnt st).min_word.length = MAX_WORD_LENGTH ∧
    (autocomplete_shortest pfx nd false cnt st).new_word.take (pfx.length + cnt - 1)
      = st.new_word.take (pfx.length + cnt - 1) ∧
    sh_abs (autocomplete_shortest pfx nd false cnt st)
      = ((sub_entries nd).map (fun x =>
          (st.new_word.take (pfx.length + cnt - 1) ++ nd.letter :: x.1, x.2))).foldl
          sh_step (sh_abs st)

/-- What the result of `autocomplete_first_lexico` shows to its caller: the
flag `printed` and the lines printed so far. -/
def lx_abs (st : lexico_state) : Int × List (List Char) :=
  (st.printed, st.out)

/-- The update of `autocomplete_first_lexico` at one node, on the pair of
`lx_abs`: the word `x.1` with end-of-word count `x.2` is printed when its count
is positive and nothing was printed before. -/
def lx_step (a : Int × List (List Char)) (x : List Char × Int) : Int × List (List Char) :=
  if x.2 > 0 ∧ a.1 ≠ 1 then (1, a.2 ++ [x.1]) else a

/-- The effect of a call of `autocomplete_first_lexico` on a node other than
the subtrie root, for a buffer of `MAX_WORD_LENGTH` characters and a subtrie
that fits into it: the buffer keeps its length and is unchanged before the
position of the letter of the node, and the result (`lx_abs`) is updated by
`lx_step` with the nodes of the subtrie in depth-first order, each spelled as
the content of the buffer followed by its letters. -/
def lx_spec (nd : trie_node_t) : Prop :=
  ∀ (h : Nat) (pl : Int) (st : lexico_state),
    letters_ok nd = true → height_le h nd = true → 0 ≤ pl →
    pl.toNat + 1 + h < MAX_WORD_LENGTH →
    st.first_lexico_word.length = MAX_WORD_LENGTH →
    (autocomplete_first_lexico nd false pl st).first_lexico_word.length = MAX_WORD_LENGTH ∧
    (autocomplete_first_lexico nd false pl st).first_lexico_word.take pl.toNat
      = st.first_lexico_word.take pl.toNat ∧
    lx_abs (autocomplete_first_lexico nd false pl st)
      = ((sub_entries nd).map (fun x =>
          (st.first_lexico_word.take pl.toNat ++ nd.letter :: x.1, x.2))).foldl
          lx_step (lx_abs st)

/-- What the result of `autocorrect` shows to its caller: the flag `printed`
and the lines printed so far. -/
def ac_abs (st : autocorrect_state) : Int × List (List Char) :=
  (st.printed, st.out)

/-- The effect of printing one word in `autocorrect`, on the pair of `ac_abs`. -/
def ac_step (a : Int × List (List Char)) (s : List Char) : Int × List (List Char) :=
  (1, a.2 ++ [s])

/-- The test that decides whether `autocorrect`, at a node of depth `d` reached
with `diff` mismatches, prints the node found below by the letters `x.1` with
end-of-word count `x.2`: the node is a word end at the depth of the length of
the query `w`, and the mismatches of `x.1` with the rest of the query bring the
total to at most `k`. -/
def ac_qual (w : List Char) (k : Int) (d : Nat) (diff : Int) (x : List Char × Int) : Bool :=
  decide (0 < x.2) && decide (d + x.1.length = w.length) &&
    decide (diff + (hamming x.1 (w.drop d) : Int) ≤ k)

/-- The effect of a call of `autocorrect` on a node other than the root, at
depth `d`, for a buffer `new_word` that can hold the query: the buffer keeps
its length and is unchanged before the position of the letter of the node, and
the nodes of the subtrie that pass `ac_qual` are printed in depth-first order,
each spelled as the content of the buffer followed by its letters. -/
def ac_spec (k : Int) (word : List Char) (nd : trie_node_t) : Prop :=
  ∀ (d : Nat) (diff : Int) (st : autocorrect_state),
    letters_ok nd = true → 1 ≤ d → strlen word ≤ st.new_word.length →
    (autocorrect k word nd false diff d st).new_word.length = st.new_word.length ∧
    (autocorrect k word nd false diff d st).new_word.take (d - 1)
      = st.new_word.take (d - 1) ∧
    ac_abs (autocorrect k word nd false diff d st)
      = (((sub_entries nd).filter (ac_qual (cstr word) k d diff)).map (fun x =>
          st.new_word.take (d - 1) ++ nd.letter :: x.1)).foldl ac_step (ac_abs st)

/-- The no-prunable-node invariant: no node below `nd` (`nd` itself, the root,
is not looked at) has both `n_children == 0` and `end_of_word == 0`. -/
def no_prunable : trie_node_t → Bool
  | NULL => true
  | node _ _ ch _ =>
    (List.finRange 26).all (fun i =>
      ((ch i).is_null ||
        !(decide ((ch i).n_children = 0) && decide ((ch i).end_of_word = 0)))
      && no_prunable (ch i))

/-- The tries the program can build: the new trie, and the results of
`insert_word` and `remove_word` on words read by `scanf("%s")` into a buffer of
`MAX_WORD_LENGTH` characters, that is non-empty lowercase words shorter than
`MAX_WORD_LENGTH`. -/
inductive reachable : trie_t → Prop
  | create : reachable create_trie
  | insert (t : trie_t) (w : List Char) : reachable t → lowercase w → w ≠ [] →
      w.length < MAX_WORD_LENGTH → reachable (insert_word t w)
  | remove (t : trie_t) (w : List Char) : reachable t → lowercase w → w ≠ [] →
      w.length < MAX_WORD_LENGTH → reachable (remove_word t w).1

/-- What `prepare_autocomplete` does once the walk along the prefix is over:
it prints the not-found line itself, or it calls one of the functions
`prepare_autocomplete_1`, `prepare_autocomplete_2`, `prepare_autocomplete_3`. -/
inductive dispatch_step where
  | report_not_found : dispatch_step
  | strategy_1 : dispatch_step
  | strategy_2 : dispatch_step
  | strategy_3 : dispatch_step
  deriving DecidableEq

/-- Function `prepare_autocomplete`, as the list of the steps it takes instead
of the lines they print. -/
def prepare_autocomplete_steps (pfx : List Char) (crit_number : Int) (trie : trie_t) :
    List dispatch_step :=
  let curr := walk trie.root pfx
  if curr.is_null then [dispatch_step.report_not_found]
  else if crit_number = 1 then [dispatch_step.strategy_1]
  else if crit_number = 2 then [dispatch_step.strategy_2]
  else if crit_number = 3 then [dispatch_step.strategy_3]
  else [dispatch_step.strategy_1, dispatch_step.strategy_2, dispatch_step.strategy_3]

/-- The lines printed by one step of `prepare_autocomplete`, for the prefix
`pfx` and the node `curr` its walk has reached. -/
def run_step (pfx : List Char) (curr : trie_node_t) : dispatch_step → List (List Char)
  | dispatch_step.report_not_found => [not_found]
  | dispatch_step.strategy_1 => prepare_autocomplete_1 pfx curr
  | dispatch_step.strategy_2 => prepare_autocomplete_2 pfx curr
  | dispatch_step.strategy_3 => prepare_autocomplete_3 pfx curr

/-- The link between the flag `printed` and the lines printed by
`autocomplete_first_lexico`: nothing yet and the flag is `0`, or one line and
the flag is `1`. -/
def lx_one (st : lexico_state) : Prop :=
  (st.printed = 0 ∧ st.out = []) ∨ (st.printed = 1 ∧ st.out.length = 1)

/-- The test `isspace` of the C library (in the C locale): the characters the
conversion `%s` skips and stops at. -/
def is_space (c : Char) : Bool :=
  c = ' ' || c = '\t' || c = '\n' || c = '\x0b' || c = '\x0c' || c = '\r'

/-- An input stream of the C library, open for reading: the characters not
read yet and the end-of-file indicator that `feof` tests. -/
structure FILE where
  rest : List Char
  eof : Bool

/-- The call `fscanf(f, "%s", word)` of the C library (`word` is the string held
by the array).  White space is skipped; then the characters up to the next
white space or to the end of the file are stored in `word`.  When the end of
the file comes before any such character, nothing is stored and `word` keeps
its content.  The end-of-file indicator is set when a read meets the end of the
file: while skipping, or while looking for the end of the token. -/
def fscanf_s (f : FILE) (word : List Char) : FILE × List Char :=
  let r1 := f.rest.dropWhile is_space
  if r1.isEmpty then ({ rest := [], eof := true }, word)
  else
    let r2 := r1.dropWhile (fun c => !is_space c)
    ({ rest := r2, eof := f.eof || r2.isEmpty }, r1.takeWhile (fun c => !is_space c))

/-- The loop `while (!feof(f)) { fscanf(f, "%s", word); insert_word(trie, word); }`
of `load_file`, for at most `fuel` iterations: `none` when the iterations
run out before the loop ends. -/
def load_loop : Nat → FILE → List Char → trie_t → Option trie_t
  | 0, f, _, trie => if f.eof then some trie else none
  | fuel + 1, f, word, trie =>
    if f.eof then some trie
    else
      let r := fscanf_s f word
      load_loop fuel r.1 r.2 (insert_word trie r.2)

/-- Function `load_file`.  `file` is the content of the file `fopen` opens,
`none` when it cannot be opened; `word` is what the array `word`, which the
source does not initialise, holds at the start.  Every iteration of the loop
reads a character or sets the end-of-file indicator, so one more iteration than
the file has characters is enough. -/
def load_file (trie : trie_t) (file : Option (List Char)) (word : List Char) :
    Option trie_t :=
  match file with
  | none => some trie
  | some contents => load_loop (contents.length + 1) { rest := contents, eof := false } word trie

/-- The tries built from the new trie by `insert_word` and `remove_word` on
non-empty lowercase words (of any length). -/
inductive built : trie_t → Prop
  | create : built create_trie
  | insert (t : trie_t) (w : List Char) : built t → lowercase w → w ≠ [] →
      built (insert_word t w)
  | remove (t : trie_t) (w : List Char) : built t → lowercase w → w ≠ [] →
      built (remove_word t w).1

/-- The end-of-word counts below `nd` (and at `nd`) are not negative, as the
counts of insertions they are. -/
def eow_nonneg : trie_node_t → Bool
  | NULL => true
  | node _ e ch _ => decide (0 ≤ e) && (List.finRange 26).all (fun i => eow_nonneg (ch i))

/-- Two states of `autocorrect` show the same to the caller and agree on the
first `n` characters of `new_word`: the same printed lines, the same flag
`printed`. -/
def ac_agree (n : Nat) (s1 s2 : autocorrect_state) : Prop :=
  s1.out = s2.out ∧ s1.printed = s2.printed ∧ s1.new_word.take n = s2.new_word.take n

-- ===== theorems =====

theorem idx_inj {c d : Char} (h : idx c = idx d) : c = d := by
  unfold idx at h
  have h1 : c.toNat = d.toNat := by omega
  apply Char.ext
  exact UInt32.toNat.inj h1

theorem idx_range {c : Char} (h : is_letter c) : 0 ≤ idx c ∧ idx c < 26 := by
  unfold is_letter at h
  unfold idx
  have ha : 'a'.toNat = 97 := by decide
  have hz : 'z'.toNat = 122 := by decide
  omega

theorem child_set_child_same (ch : Fin 26 → trie_node_t) (i : Int) (v : trie_node_t)
    (h : 0 ≤ i ∧ i < 26) : child (set_child ch i v) i = v := by
  unfold child set_child
  rw [dif_pos h]
  have : ((Int.toNat i : Nat) : Int) = i := Int.toNat_of_nonneg h.1
  simp [this]

theorem child_set_child_ne (ch : Fin 26 → trie_node_t) (i j : Int) (v : trie_node_t)
    (h : j ≠ i) : child (set_child ch i v) j = child ch j := by
  unfold child set_child
  by_cases hj : 0 ≤ j ∧ j < 26
  · rw [dif_pos hj, dif_pos hj]
    have : ((Int.toNat j : Nat) : Int) = j := Int.toNat_of_nonneg hj.1
    simp [this, h]
  · rw [dif_neg hj, dif_neg hj]

theorem child_out_of_range (ch : Fin 26 → trie_node_t) (i : Int)
    (h : ¬ (0 ≤ i ∧ i < 26)) : child ch i = NULL := by
  unfold child
  rw [dif_neg h]

theorem set_child_out_of_range (ch : Fin 26 → trie_node_t) (i : Int) (v : trie_node_t)
    (h : ¬ (0 ≤ i ∧ i < 26)) : set_child ch i v = ch := by
  funext j
  unfold set_child
  have := j.isLt
  rw [if_neg]
  omega

theorem walk_NULL (w : List Char) : walk NULL w = NULL := by
  cases w <;> rfl

theorem walk_create_node (c : Char) (w : List Char) :
    (walk (create_node c) w).end_of_word = 0 := by
  cases w with
  | nil => rfl
  | cons d ds =>
    simp [create_node, walk, child, walk_NULL, end_of_word]

theorem is_null_iff (nd : trie_node_t) : nd.is_null = true ↔ nd = NULL := by
  cases nd <;> simp [is_null]

theorem ne_null_of_is_null {nd : trie_node_t} (h : nd.is_null = false) : nd ≠ NULL := by
  intro h0
  rw [h0] at h
  exact Bool.noConfusion h

theorem eq_null_of_is_null {nd : trie_node_t} (h : nd.is_null = true) : nd = NULL :=
  (is_null_iff nd).1 h

theorem insert_loop_ne_null (nd : trie_node_t) (w : List Char) (h : nd ≠ NULL) :
    insert_loop nd w ≠ NULL := by
  cases nd with
  | NULL => exact absurd rfl h
  | node l e ch n =>
    cases w with
    | nil => simp [insert_loop]
    | cons c cs =>
      unfold insert_loop
      split <;> simp

theorem walk_insert_loop_same (w : List Char) (hw : lowercase w) :
    ∀ nd : trie_node_t, nd ≠ NULL →
      walk (insert_loop nd w) w ≠ NULL ∧
      (walk (insert_loop nd w) w).end_of_word = int_incr (walk nd w).end_of_word := by
  induction w with
  | nil =>
    intro nd h
    cases nd with
    | NULL => exact absurd rfl h
    | node l e ch n => simp [insert_loop, walk, end_of_word]
  | cons c cs ih =>
    intro nd h
    have hc : is_letter c := hw c (List.mem_cons_self _ _)
    have hcs : lowercase cs := fun d hd => hw d (List.mem_cons_of_mem _ hd)
    have hr := idx_range hc
    cases nd with
    | NULL => exact absurd rfl h
    | node l e ch n =>
      unfold insert_loop
      split
      · rename_i hnull
        have hn : child ch (idx c) = NULL := (is_null_iff _).1 hnull
        simp only [walk, child_set_child_same ch (idx c) _ hr, hn, walk_NULL]
        have := ih hcs (create_node c) (by simp [create_node])
        rw [walk_create_node] at this
        simpa [end_of_word] using this
      · rename_i hnull
        have hn : child ch (idx c) ≠ NULL := fun h0 => hnull ((is_null_iff _).2 h0)
        simp only [walk, child_set_child_same ch (idx c) _ hr]
        exact ih hcs _ hn

theorem walk_insert_loop_other (w : List Char) :
    ∀ (nd : trie_node_t) (v : List Char), v ≠ w →
      (walk (insert_loop nd w) v).end_of_word = (walk nd v).end_of_word := by
  induction w with
  | nil =>
    intro nd v hv
    cases nd with
    | NULL => rfl
    | node l e ch n =>
      cases v with
      | nil => exact absurd rfl hv
      | cons d ds => simp [insert_loop, walk]
  | cons c cs ih =>
    intro nd v hv
    cases nd with
    | NULL => rfl
    | node l e ch n =>
      cases v with
      | nil =>
        unfold insert_loop
        split <;> simp [walk, end_of_word]
      | cons d ds =>
        by_cases hr : 0 ≤ idx c ∧ idx c < 26
        · by_cases hd : d = c
          · subst hd
            have hds : ds ≠ cs := fun h0 => hv (by rw [h0])
            unfold insert_loop
            split
            · rename_i hnull
              have hn : child ch (idx d) = NULL := (is_null_iff _).1 hnull
              simp only [walk, child_set_child_same ch (idx d) _ hr, hn, walk_NULL]
              rw [ih _ _ hds, walk_create_node]
              rfl
            · simp only [walk, child_set_child_same ch (idx d) _ hr]
              exact ih _ _ hds
          · have hi : idx d ≠ idx c := fun h0 => hd (idx_inj h0)
            unfold insert_loop
            split <;> simp only [walk, child_set_child_ne ch _ _ _ hi]
        · unfold insert_loop
          split <;> simp only [walk, set_child_out_of_range ch _ _ hr]

theorem int_incr_of_lt {x : Int} (h : x < INT_MAX) : int_incr x = x + 1 := by
  unfold int_incr
  rw [if_neg (by omega)]

theorem int_incr_zero : int_incr 0 = 1 := by decide

/-- One more insertion of `a` into the trie that holds `a` with count `n`. -/
theorem insert_word_count_trie (n : Int) :
    insert_word (count_trie n) ['a'] = count_trie (int_incr n) := by
  have h0 : idx 'a' = 0 := by decide
  have hr : (0 : Int) ≤ 0 ∧ (0 : Int) < 26 := by decide
  simp only [insert_word, count_trie, insert_loop, h0, child_set_child_same _ _ _ hr,
    is_null, Bool.false_eq_true, if_false]
  congr 2
  funext j
  unfold set_child
  split <;> rfl

/-- The trie that holds `a` with count `n` is what `n` insertions of `a` build,
for every `n` from 1 to `INT_MAX`. -/
theorem reachable_count_trie (n : Nat) (h1 : 1 ≤ n) (h2 : (n : Int) ≤ INT_MAX) :
    reachable (count_trie (n : Int)) := by
  induction n with
  | zero => omega
  | succ m ih =>
    by_cases hm : m = 0
    · subst hm
      have h : insert_word create_trie ['a'] = count_trie ((0 + 1 : Nat) : Int) := by
        have h0 : idx 'a' = 0 := by decide
        simp only [insert_word, create_trie, create_node, count_trie, insert_loop, h0]
        have hc : (child (fun _ => NULL) (0 : Int)).is_null = true := by decide
        simp only [hc, if_true]
        rfl
      rw [← h]
      exact reachable.insert _ _ reachable.create (by decide) (by decide) (by decide)
    · have hm2 : ((m : Nat) : Int) < INT_MAX := by
        simp only [Nat.cast_add, Nat.cast_one] at h2
        omega
      have h := insert_word_count_trie (m : Int)
      rw [int_incr_of_lt hm2] at h
      have hcast : ((m + 1 : Nat) : Int) = (m : Int) + 1 := by simp
      rw [hcast, ← h]
      exact reachable.insert _ _ (ih (by omega) (by omega)) (by decide) (by decide)
        (by decide)

/-- C1, as stated, fails: in the trie built by `INT_MAX` insertions of the word
`a`, the count of `a` is `INT_MAX`; one more `insert_word` of `a` makes it
`INT_MIN`, which is not one more than before and not at least 1. -/
theorem insert_word_count_counterexample :
    reachable (count_trie INT_MAX) ∧
    count (count_trie INT_MAX) ['a'] = 2147483647 ∧
    count (insert_word (count_trie INT_MAX) ['a']) ['a'] = -2147483648 ∧
    count (insert_word (count_trie INT_MAX) ['a']) ['a']
      ≠ count (count_trie INT_MAX) ['a'] + 1 ∧
    ¬ 1 ≤ count (insert_word (count_trie INT_MAX) ['a']) ['a'] :=
  ⟨reachable_count_trie 2147483647 (by decide) (by decide), by decide, by decide, by decide,
    by decide⟩

/-- C1, amended. For every trie (with a root node) and every word `w` of
lowercase letters whose end-of-word count is below `INT_MAX`, after
`insert_word` the walk along `w` reaches a node whose end-of-word count is one
more than the count of `w` before (`0` for a missing path), hence at least 1
when the old count is not negative, and the count of every other word is
unchanged. -/
theorem insert_word_count (t : trie_t) (w : List Char) (hroot : t.root ≠ NULL)
    (hw : lowercase w) (hmax : count t w < INT_MAX) :
    walk (insert_word t w).root w ≠ NULL ∧
    count (insert_word t w) w = count t w + 1 ∧
    (0 ≤ count t w → 1 ≤ count (insert_word t w) w) ∧
    ∀ v : List Char, v ≠ w → count (insert_word t w) v = count t v := by
  have h := walk_insert_loop_same w hw t.root hroot
  have hc : count (insert_word t w) w = count t w + 1 := by
    have h2 : count (insert_word t w) w = int_incr (count t w) := h.2
    rw [h2, int_incr_of_lt hmax]
  refine ⟨h.1, hc, ?_, ?_⟩
  · intro h0
    omega
  · intro v hv
    exact walk_insert_loop_other w t.root v hv

theorem insert_word_count_witness :
    lowercase "dog".toList ∧ count create_trie "dog".toList < INT_MAX ∧
    count (insert_word create_trie "dog".toList) "dog".toList = 1 :=
  ⟨by decide, by decide, by
    have h := insert_word_count create_trie "dog".toList (by simp [create_trie, create_node])
      (by decide) (by decide)
    rw [h.2.1]; decide⟩


theorem count_ok_child {l : Char} {e n : Int} {ch : Fin 26 → trie_node_t}
    (h : count_ok (node l e ch n) = true) (i : Fin 26) : count_ok (ch i) = true := by
  simp only [count_ok, Bool.and_eq_true, List.all_eq_true] at h
  exact h.2 i (List.mem_finRange i)

theorem count_ok_n {l : Char} {e n : Int} {ch : Fin 26 → trie_node_t}
    (h : count_ok (node l e ch n) = true) : n = (live_children ch : Int) := by
  simp only [count_ok, Bool.and_eq_true, decide_eq_true_eq] at h
  exact h.1

theorem live_children_pos {ch : Fin 26 → trie_node_t} {i : Fin 26} (h : ch i ≠ NULL) :
    0 < live_children ch := by
  unfold live_children
  apply List.length_pos_of_mem (a := i)
  rw [List.mem_filter]
  refine ⟨List.mem_finRange i, ?_⟩
  cases hc : ch i with
  | NULL => exact absurd hc h
  | node _ _ _ _ => simp [is_null]

theorem live_children_zero {ch : Fin 26 → trie_node_t} (h : live_children ch = 0)
    (i : Fin 26) : ch i = NULL := by
  by_contra hne
  have := live_children_pos hne
  omega

theorem child_eq_of_ne_null {ch : Fin 26 → trie_node_t} {i : Int} (h : child ch i ≠ NULL) :
    ∃ j : Fin 26, (j.val : Int) = i ∧ child ch i = ch j := by
  unfold child at h ⊢
  by_cases hr : 0 ≤ i ∧ i < 26
  · rw [dif_pos hr]
    exact ⟨⟨i.toNat, by omega⟩, Int.toNat_of_nonneg hr.1, rfl⟩
  · rw [dif_neg hr] at h
    exact absurd rfl h

theorem child_range {ch : Fin 26 → trie_node_t} {i : Int} (h : child ch i ≠ NULL) :
    0 ≤ i ∧ i < 26 := by
  by_contra hr
  exact h (child_out_of_range ch i hr)

theorem count_ok_child_int {l : Char} {e n : Int} {ch : Fin 26 → trie_node_t}
    (h : count_ok (node l e ch n) = true) (i : Int) : count_ok (child ch i) = true := by
  unfold child
  split
  · exact count_ok_child h _
  · rfl

theorem count_ok_walk (w : List Char) :
    ∀ nd : trie_node_t, count_ok nd = true → count_ok (walk nd w) = true := by
  induction w with
  | nil => intro nd h; cases nd <;> simpa [walk] using h
  | cons c cs ih =>
    intro nd h
    cases nd with
    | NULL => rfl
    | node l e ch n => exact ih _ (count_ok_child_int h _)

theorem walk_append (p x : List Char) :
    ∀ nd : trie_node_t, walk nd (p ++ x) = walk (walk nd p) x := by
  induction p with
  | nil => intro nd; cases nd <;> simp [walk, walk_NULL]
  | cons c cs ih =>
    intro nd
    cases nd with
    | NULL => simp [walk_NULL]
    | node l e ch n => simpa [walk] using ih _

theorem walk_modify_at_append (f : trie_node_t → trie_node_t) (p x : List Char) :
    ∀ nd : trie_node_t, walk nd p ≠ NULL →
      walk (modify_at f nd p) (p ++ x) = walk (f (walk nd p)) x := by
  induction p with
  | nil =>
    intro nd h
    cases nd with
    | NULL => exact absurd rfl h
    | node l e ch n => simp [modify_at, walk]
  | cons c cs ih =>
    intro nd h
    cases nd with
    | NULL => exact absurd rfl h
    | node l e ch n =>
      simp only [walk] at h
      have hc : child ch (idx c) ≠ NULL := by
        intro h0
        rw [h0, walk_NULL] at h
        exact h rfl
      have hr := child_range hc
      simp only [modify_at, List.cons_append, walk, child_set_child_same ch _ _ hr]
      exact ih _ h

theorem fields_modify_at_cons (f : trie_node_t → trie_node_t) (nd : trie_node_t)
    (c : Char) (cs : List Char) : fields (modify_at f nd (c :: cs)) = fields nd := by
  cases nd <;> rfl

theorem fields_walk_modify_at (f : trie_node_t → trie_node_t) (p : List Char) :
    ∀ (nd : trie_node_t) (v : List Char), ¬ p <+: v →
      fields (walk (modify_at f nd p) v) = fields (walk nd v) := by
  induction p with
  | nil => intro nd v h; exact absurd (List.nil_prefix) h
  | cons c cs ih =>
    intro nd v h
    cases nd with
    | NULL => rfl
    | node l e ch n =>
      cases v with
      | nil => rfl
      | cons d ds =>
        simp only [modify_at, walk]
        by_cases hd : d = c
        · subst hd
          have hds : ¬ cs <+: ds := by
            intro h0
            exact h ((List.prefix_cons_inj d).2 h0)
          by_cases hr : 0 ≤ idx d ∧ idx d < 26
          · rw [child_set_child_same ch _ _ hr]
            exact ih _ _ hds
          · rw [set_child_out_of_range ch _ _ hr]
        · have hi : idx d ≠ idx c := fun h0 => hd (idx_inj h0)
          rw [child_set_child_ne ch _ _ _ hi]

theorem end_of_word_eq_of_fields {a b : trie_node_t} (h : fields a = fields b) :
    a.end_of_word = b.end_of_word := by
  cases a <;> cases b <;> simp_all [fields, end_of_word]

theorem n_children_eq_of_fields {a b : trie_node_t} (h : fields a = fields b) :
    a.n_children = b.n_children := by
  cases a <;> cases b <;> simp_all [fields, n_children]

theorem letter_eq_of_fields {a b : trie_node_t} (h : fields a = fields b) :
    a.letter = b.letter := by
  cases a <;> cases b <;> simp_all [fields, letter]

theorem null_iff_of_fields {a b : trie_node_t} (h : fields a = fields b) :
    a = NULL ↔ b = NULL := by
  cases a <;> cases b <;> simp_all [fields]

theorem remove_loop_none (w : List Char) :
    ∀ (curr : trie_node_t) (i lsp : Nat) (p : Int), walk curr w = NULL → curr ≠ NULL →
      remove_loop curr w i lsp p = none := by
  induction w with
  | nil =>
    intro curr i lsp p h hc
    cases curr with
    | NULL => exact absurd rfl hc
    | node l e ch n => simp [walk] at h
  | cons c cs ih =>
    intro curr i lsp p h hc
    cases curr with
    | NULL => exact absurd rfl hc
    | node l e ch n =>
      simp only [walk] at h
      unfold remove_loop
      simp only [children]
      by_cases hn : child ch (idx c) = NULL
      · simp [hn, is_null]
      · have hnn : (child ch (idx c)).is_null = false := by
          cases hx : child ch (idx c) with
          | NULL => exact absurd hx hn
          | node _ _ _ _ => rfl
        simp only [hnn, Bool.false_eq_true, if_false]
        split
        · exact ih _ _ _ _ h hn
        · exact ih _ _ _ _ h hn

theorem remove_loop_some (w : List Char) :
    ∀ (curr : trie_node_t) (i lsp : Nat) (p : Int), walk curr w ≠ NULL →
      ∃ a b, remove_loop curr w i lsp p = some (a, b, walk curr w) := by
  induction w with
  | nil =>
    intro curr i lsp p h
    cases curr with
    | NULL => exact absurd rfl h
    | node l e ch n => exact ⟨lsp, p, rfl⟩
  | cons c cs ih =>
    intro curr i lsp p h
    cases curr with
    | NULL => exact absurd rfl h
    | node l e ch n =>
      simp only [walk] at h
      have hn : child ch (idx c) ≠ NULL := by
        intro h0
        rw [h0, walk_NULL] at h
        exact h rfl
      have hnn : (child ch (idx c)).is_null = false := by
        cases hx : child ch (idx c) with
        | NULL => exact absurd hx hn
        | node _ _ _ _ => rfl
      unfold remove_loop
      simp only [children, hnn, Bool.false_eq_true, if_false, walk]
      split
      · exact ih _ _ _ _ h
      · exact ih _ _ _ _ h

theorem remove_loop_count_ok (w : List Char) :
    ∀ (curr : trie_node_t) (i lsp : Nat) (p : Int), walk curr w ≠ NULL →
      count_ok curr = true →
      remove_loop curr w i lsp p = some
        (match w.getLast? with
          | none => (lsp, p, walk curr w)
          | some c => (i + w.length - 1, idx c, walk curr w)) := by
  induction w with
  | nil =>
    intro curr i lsp p h _
    cases curr with
    | NULL => exact absurd rfl h
    | node l e ch n => simp [remove_loop, walk]
  | cons c cs ih =>
    intro curr i lsp p h hok
    cases curr with
    | NULL => exact absurd rfl h
    | node l e ch n =>
      simp only [walk] at h
      have hn : child ch (idx c) ≠ NULL := by
        intro h0
        rw [h0, walk_NULL] at h
        exact h rfl
      have hnn : (child ch (idx c)).is_null = false := by
        cases hx : child ch (idx c) with
        | NULL => exact absurd hx hn
        | node _ _ _ _ => rfl
      obtain ⟨j, _, hj⟩ := child_eq_of_ne_null hn
      have hpos : 0 < live_children ch := live_children_pos (i := j) (by rw [← hj]; exact hn)
      have hnz : ¬ (n = 0 ∧ e = 0) := by
        have := count_ok_n hok
        omega
      unfold remove_loop
      simp only [children, hnn, Bool.false_eq_true, if_false, n_children, end_of_word,
        if_neg hnz, walk]
      rw [ih _ _ _ _ h (count_ok_child_int hok _)]
      cases cs with
      | nil => simp
      | cons d ds =>
        simp only [List.getLast?_cons_cons, List.length_cons]
        cases hl : (d :: ds).getLast? with
        | none => simp at hl
        | some x => simp; omega

theorem walk_clear_end_of_word (nd : trie_node_t) (d : Char) (ds : List Char) :
    walk (clear_end_of_word nd) (d :: ds) = walk nd (d :: ds) := by
  cases nd <;> rfl

theorem walk_detach_child_ne (nd : trie_node_t) (c d : Char) (ds : List Char) (h : d ≠ c) :
    walk (detach_child (idx c) nd) (d :: ds) = walk nd (d :: ds) := by
  cases nd with
  | NULL => rfl
  | node l e ch n =>
    have hi : idx d ≠ idx c := fun h0 => h (idx_inj h0)
    simp only [detach_child, walk, child_set_child_ne ch _ _ _ hi]

theorem walk_detach_child_same (nd : trie_node_t) (c : Char) (ds : List Char) :
    walk (detach_child (idx c) nd) (c :: ds) = NULL := by
  cases nd with
  | NULL => rfl
  | node l e ch n =>
    simp only [detach_child, walk]
    by_cases hr : 0 ≤ idx c ∧ idx c < 26
    · rw [child_set_child_same ch _ _ hr, walk_NULL]
    · rw [child_out_of_range _ _ hr, walk_NULL]

theorem walk_prefix_ne_null {nd : trie_node_t} {p x : List Char}
    (h : walk nd (p ++ x) ≠ NULL) : walk nd p ≠ NULL := by
  intro h0
  rw [walk_append, h0, walk_NULL] at h
  exact h rfl

theorem fields_clear_end_of_word (nd : trie_node_t) :
    fields (clear_end_of_word nd) = (fields nd).map (fun x => (x.1, 0, x.2.2)) := by
  cases nd <;> rfl

/-- The scalar fields along any path after `end_of_word` was cleared at the
end of the path `w`. -/
theorem fields_walk_clear (nd : trie_node_t) (w v : List Char) (h : walk nd w ≠ NULL) :
    fields (walk (modify_at clear_end_of_word nd w) v) =
      if v = w then (fields (walk nd w)).map (fun x => (x.1, 0, x.2.2))
      else fields (walk nd v) := by
  by_cases hp : w <+: v
  · obtain ⟨x, rfl⟩ := hp
    rw [walk_modify_at_append _ _ _ _ h]
    cases x with
    | nil =>
      simp only [List.append_nil, if_true]
      have : walk (clear_end_of_word (walk nd w)) [] = clear_end_of_word (walk nd w) := by
        cases walk nd w <;> rfl
      rw [this, fields_clear_end_of_word]
    | cons d ds =>
      have hne : w ++ d :: ds ≠ w := by
        intro h0
        have := congrArg List.length h0
        simp at this
      rw [if_neg hne, walk_clear_end_of_word, walk_append]
  · have hne : v ≠ w := by
      intro h0
      exact hp (h0 ▸ List.prefix_refl _)
    rw [if_neg hne]
    exact fields_walk_modify_at _ _ _ _ hp

theorem remove_word_of_children (t : trie_t) (w : List Char) (h : walk t.root w ≠ NULL)
    (hch : 0 < (walk t.root w).n_children) :
    remove_word t w = ({ root := modify_at clear_end_of_word t.root w }, []) := by
  obtain ⟨a, b, hab⟩ := remove_loop_some w t.root 0 0 (idx (w.headD '\x00')) h
  unfold remove_word
  rw [hab]
  simp only [gt_iff_lt, if_pos hch]

theorem remove_word_of_count_ok (t : trie_t) (p : List Char) (c : Char)
    (h : walk t.root (p ++ [c]) ≠ NULL) (hok : count_ok t.root = true) :
    remove_word t (p ++ [c]) =
      if 0 < (walk t.root (p ++ [c])).n_children then
        ({ root := modify_at clear_end_of_word t.root (p ++ [c]) }, [])
      else
        ({ root := modify_at (detach_child (idx c))
            (modify_at clear_end_of_word t.root (p ++ [c])) p },
          recursive_subtrie_deletion
            (child (walk (modify_at clear_end_of_word t.root (p ++ [c])) p).children (idx c))) := by
  have hl := remove_loop_count_ok (p ++ [c]) t.root 0 0 (idx ((p ++ [c]).headD '\x00')) h hok
  unfold remove_word
  rw [hl]
  simp

theorem walk_leaf (nd : trie_node_t) (hok : count_ok nd = true)
    (hn : ¬ 0 < nd.n_children) (d : Char) (ds : List Char) : walk nd (d :: ds) = NULL := by
  cases nd with
  | NULL => rfl
  | node l e ch n =>
    have h1 := count_ok_n hok
    simp only [n_children] at hn
    have h0 : live_children ch = 0 := by omega
    simp only [walk]
    by_cases hc : child ch (idx d) = NULL
    · rw [hc, walk_NULL]
    · obtain ⟨j, _, hj⟩ := child_eq_of_ne_null hc
      rw [hj, live_children_zero h0 j] at hc
      exact absurd rfl hc

/-- The end-of-word counts after `remove_word` of a word whose path exists, in a
trie that satisfies the children-count invariant. -/
theorem end_of_word_walk_remove_word (t : trie_t) (p : List Char) (c : Char)
    (h : walk t.root (p ++ [c]) ≠ NULL) (hok : count_ok t.root = true) (v : List Char) :
    (walk (remove_word t (p ++ [c])).1.root v).end_of_word =
      if v = p ++ [c] then 0 else (walk t.root v).end_of_word := by
  rw [remove_word_of_count_ok t p c h hok]
  have hclear := fields_walk_clear t.root (p ++ [c]) v h
  by_cases hch : 0 < (walk t.root (p ++ [c])).n_children
  · rw [if_pos hch]
    simp only
    by_cases hv : v = p ++ [c]
    · rw [if_pos hv] at hclear ⊢
      cases hw : walk t.root (p ++ [c]) with
      | NULL => exact absurd hw h
      | node l e ch n =>
        rw [hw] at hclear
        cases hx : walk (modify_at clear_end_of_word t.root (p ++ [c])) v with
        | NULL => rfl
        | node l2 e2 ch2 n2 =>
          rw [hx] at hclear
          have := congrArg (fun o => o.map (fun x => x.2.1)) hclear
          simpa [fields, end_of_word] using this
    · rw [if_neg hv] at hclear ⊢
      exact end_of_word_eq_of_fields hclear
  · rw [if_neg hch]
    simp only
    have hp1 : walk (modify_at clear_end_of_word t.root (p ++ [c])) p ≠ NULL := by
      have h1 := fields_walk_clear t.root (p ++ [c]) p h
      have hne : p ≠ p ++ [c] := by
        intro h0
        have := congrArg List.length h0
        simp at this
      rw [if_neg hne] at h1
      intro h0
      exact walk_prefix_ne_null h ((null_iff_of_fields h1).1 h0)
    by_cases hpv : p <+: v
    · obtain ⟨y, rfl⟩ := hpv
      rw [walk_modify_at_append _ _ _ _ hp1]
      cases y with
      | nil =>
        have hne : p ++ [] ≠ p ++ [c] := by simp
        rw [if_neg hne]
        rw [if_neg hne] at hclear
        rw [← end_of_word_eq_of_fields hclear]
        simp only [List.append_nil]
        cases walk (modify_at clear_end_of_word t.root (p ++ [c])) p <;> rfl
      | cons d ds =>
        by_cases hd : d = c
        · subst hd
          rw [walk_detach_child_same]
          cases ds with
          | nil => simp [end_of_word]
          | cons e es =>
            have hne : p ++ d :: e :: es ≠ p ++ [d] := by simp
            rw [if_neg hne]
            have : p ++ d :: e :: es = (p ++ [d]) ++ e :: es := by simp
            rw [this, walk_append, walk_leaf _ (count_ok_walk _ _ hok) hch]
        · have hne : p ++ d :: ds ≠ p ++ [c] := by simp [hd]
          rw [if_neg hne]
          rw [if_neg hne] at hclear
          rw [walk_detach_child_ne _ _ _ _ hd, ← walk_append]
          exact end_of_word_eq_of_fields hclear
    · have hne : v ≠ p ++ [c] := by
        intro h0
        exact hpv (h0 ▸ List.prefix_append p [c])
      rw [if_neg hne]
      rw [if_neg hne] at hclear
      rw [end_of_word_eq_of_fields (fields_walk_modify_at _ _ _ _ hpv)]
      exact end_of_word_eq_of_fields hclear

theorem exists_append_singleton {w : List Char} (h : w ≠ []) :
    ∃ p c, w = p ++ [c] :=
  ⟨w.dropLast, w.getLast h, (List.dropLast_append_getLast h).symm⟩

/-- C2. For every trie that satisfies the children-count invariant and every
non-empty word `w` whose path exists, after `remove_word` the word is no longer
stored: its path is missing or its terminal node has end-of-word count 0,
whatever the count was before; the count of every other word is unchanged. -/
theorem remove_word_clears_count (t : trie_t) (w : List Char) (hne : w ≠ [])
    (hpath : walk t.root w ≠ NULL) (hok : count_ok t.root = true) :
    (walk (remove_word t w).1.root w = NULL ∨
      (walk (remove_word t w).1.root w).end_of_word = 0) ∧
    count (remove_word t w).1 w = 0 ∧
    ∀ v : List Char, v ≠ w → count (remove_word t w).1 v = count t v := by
  obtain ⟨p, c, rfl⟩ := exists_append_singleton hne
  have h := end_of_word_walk_remove_word t p c hpath hok
  have hw := h (p ++ [c])
  rw [if_pos rfl] at hw
  refine ⟨Or.inr hw, hw, ?_⟩
  intro v hv
  have h1 := h v
  rw [if_neg hv] at h1
  exact h1

theorem remove_word_clears_count_witness :
    count (insert_word (insert_word create_trie "dog".toList) "dog".toList) "dog".toList = 2 ∧
    count (remove_word (insert_word (insert_word create_trie "dog".toList) "dog".toList)
      "dog".toList).1 "dog".toList = 0 :=
  ⟨by decide,
    (remove_word_clears_count
      (insert_word (insert_word create_trie "dog".toList) "dog".toList) "dog".toList
      (by decide) (ne_null_of_is_null (by decide)) (by decide)).2.1⟩

/-- C10. For every trie and every non-empty lowercase word `w` with a missing
edge on its walk from the root, `remove_word` changes nothing: the trie it
returns is the trie it was given and no node is freed. -/
theorem remove_word_missing_edge (t : trie_t) (w : List Char) (hroot : t.root ≠ NULL)
    (_hne : w ≠ []) (_hw : lowercase w) (hmiss : walk t.root w = NULL) :
    remove_word t w = (t, []) := by
  unfold remove_word
  rw [remove_loop_none w t.root 0 0 _ hmiss hroot]

theorem remove_word_missing_edge_witness :
    (walk (insert_word create_trie "car".toList).root "cat".toList).is_null = true ∧
    remove_word (insert_word create_trie "car".toList) "cat".toList
      = (insert_word create_trie "car".toList, []) :=
  ⟨by decide, remove_word_missing_edge (insert_word create_trie "car".toList) "cat".toList
    (ne_null_of_is_null (by decide)) (by decide) (by decide)
    (eq_null_of_is_null (by decide))⟩

theorem idx_letter_of : ∀ i : Fin 26, idx (letter_of i) = (i.val : Int) := by decide

theorem letter_of_ne_NUL : ∀ i : Fin 26, letter_of i ≠ NUL := by decide

theorem letter_of_lt : ∀ i j : Fin 26, i < j → letter_of i < letter_of j := by decide

theorem letter_of_idx {c : Char} (h : 0 ≤ idx c ∧ idx c < 26) :
    c = letter_of ⟨(idx c).toNat, by omega⟩ := by
  apply idx_inj
  rw [idx_letter_of]
  simp only
  omega

theorem child_letter_of (ch : Fin 26 → trie_node_t) (i : Fin 26) :
    child ch (idx (letter_of i)) = ch i := by
  unfold child
  rw [idx_letter_of]
  have h : 0 ≤ (i.val : Int) ∧ (i.val : Int) < 26 := by
    have := i.isLt
    omega
  rw [dif_pos h]
  congr

theorem letters_ok_child {l : Char} {e n : Int} {ch : Fin 26 → trie_node_t}
    (h : letters_ok (node l e ch n) = true) (i : Fin 26) :
    letters_ok (ch i) = true ∧ ((ch i) ≠ NULL → (ch i).letter = letter_of i) := by
  simp only [letters_ok, List.all_eq_true, Bool.and_eq_true, Bool.or_eq_true,
    decide_eq_true_eq] at h
  have hi := h i (List.mem_finRange i)
  refine ⟨hi.2, fun hne => ?_⟩
  rcases hi.1 with h1 | h1
  · exact absurd ((is_null_iff _).1 h1) hne
  · exact h1

theorem height_le_child {l : Char} {e n : Int} {ch : Fin 26 → trie_node_t} {h : Nat}
    (hh : height_le h (node l e ch n) = true) (i : Fin 26) (hne : ch i ≠ NULL) :
    0 < h ∧ height_le (h - 1) (ch i) = true := by
  simp only [height_le, List.all_eq_true, Bool.and_eq_true, Bool.or_eq_true,
    decide_eq_true_eq] at hh
  rcases hh i (List.mem_finRange i) with h1 | h1
  · exact absurd ((is_null_iff _).1 h1) hne
  · exact h1

theorem mem_sub_entries (nd : trie_node_t) :
    ∀ (s : List Char) (e : Int),
      (s, e) ∈ sub_entries nd ↔ walk nd s ≠ NULL ∧ (walk nd s).end_of_word = e := by
  induction nd with
  | NULL => intro s e; simp [sub_entries, walk_NULL]
  | node l e0 ch n ih =>
    intro s e
    simp only [sub_entries, List.mem_cons, List.mem_flatMap, List.mem_map, Prod.mk.injEq,
      List.mem_finRange, true_and, Prod.exists]
    constructor
    · rintro (⟨rfl, rfl⟩ | ⟨i, x, e1, hx, rfl, rfl⟩)
      · simp [walk, end_of_word]
      · have := (ih i x e1).1 hx
        simpa [walk, child_letter_of] using this
    · rintro ⟨h1, h2⟩
      cases s with
      | nil =>
        left
        simpa [walk, end_of_word] using h2.symm
      | cons c cs =>
        right
        simp only [walk] at h1 h2
        have hc : child ch (idx c) ≠ NULL := by
          intro h0
          rw [h0, walk_NULL] at h1
          exact h1 rfl
        have hr := child_range hc
        obtain ⟨j, hj⟩ : ∃ j : Fin 26, c = letter_of j := ⟨_, letter_of_idx hr⟩
        subst hj
        refine ⟨j, cs, e, ?_, rfl, rfl⟩
        rw [ih]
        rw [child_letter_of] at h1 h2
        exact ⟨h1, h2⟩

theorem lex_lt_append_left (b : List Char) {x y : List Char} (h : lex_lt x y) :
    lex_lt (b ++ x) (b ++ y) := by
  induction b with
  | nil => exact h
  | cons c cs ih => exact List.Lex.cons ih

theorem sub_entries_sorted (nd : trie_node_t) :
    (sub_entries nd).Pairwise (fun a b => lex_lt a.1 b.1) := by
  induction nd with
  | NULL => simp [sub_entries]
  | node l e0 ch n ih =>
    simp only [sub_entries, List.pairwise_cons]
    constructor
    · intro b hb
      simp only [List.mem_flatMap, List.mem_map] at hb
      obtain ⟨i, _, x, _, rfl⟩ := hb
      exact List.Lex.nil
    · rw [List.pairwise_flatMap]
      constructor
      · intro i _
        rw [List.pairwise_map]
        exact (ih i).imp (fun h => List.Lex.cons h)
      · refine (List.pairwise_lt_finRange 26).imp ?_
        intro i j hij x hx y hy
        simp only [List.mem_map] at hx hy
        obtain ⟨x1, _, rfl⟩ := hx
        obtain ⟨y1, _, rfl⟩ := hy
        exact List.Lex.rel (letter_of_lt i j hij)

theorem foldl_refine {σ ι A : Type} (f : σ → ι → σ) (g : A → ι → A) (abs : σ → A)
    (Inv : σ → Prop) :
    ∀ (is : List ι) (s : σ), Inv s →
      (∀ s i, i ∈ is → Inv s → Inv (f s i) ∧ abs (f s i) = g (abs s) i) →
      Inv (is.foldl f s) ∧ abs (is.foldl f s) = is.foldl g (abs s) := by
  intro is
  induction is with
  | nil => intro s hs _; exact ⟨hs, rfl⟩
  | cons i is ih =>
    intro s hs hstep
    have h1 := hstep s i (List.mem_cons_self _ _) hs
    have h2 := ih (f s i) h1.1 (fun s j hj => hstep s j (List.mem_cons_of_mem _ hj))
    simp only [List.foldl_cons]
    rw [← h1.2]
    exact h2

theorem foldl_flatMap_eq {ι A B : Type} (step : A → B → A) (L : ι → List B) :
    ∀ (is : List ι) (a : A),
      (is.flatMap L).foldl step a = is.foldl (fun a i => (L i).foldl step a) a := by
  intro is
  induction is with
  | nil => intro a; rfl
  | cons i is ih =>
    intro a
    simp only [List.flatMap_cons, List.foldl_append, List.foldl_cons]
    exact ih _

theorem take_set_of_le (l : List Char) (a : Char) {n m : Nat} (h : m ≤ n) :
    (l.set n a).take m = l.take m := by
  apply List.ext_getElem?
  intro i
  rw [List.getElem?_take, List.getElem?_take]
  split
  · rw [List.getElem?_set_ne (by omega)]
  · rfl

theorem take_succ_set (l : List Char) (a : Char) (n : Nat) (h : n < l.length) :
    (l.set n a).take (n + 1) = l.take n ++ [a] := by
  rw [List.take_succ, take_set_of_le l a (le_refl n)]
  simp [List.getElem?_set, h]

theorem copy_chars_succ (dst src : List Char) (n : Nat) :
    copy_chars dst src (n + 1) = (copy_chars dst src n).set n (buf_read src n) := by
  simp [copy_chars, List.range_succ, List.foldl_append]

theorem length_copy_chars (dst src : List Char) (n : Nat) :
    (copy_chars dst src n).length = dst.length := by
  induction n with
  | zero => rfl
  | succ n ih => rw [copy_chars_succ, List.length_set, ih]

theorem copy_chars_eq (dst src : List Char) (n : Nat) (h1 : n ≤ dst.length)
    (h2 : n ≤ src.length) : copy_chars dst src n = src.take n ++ dst.drop n := by
  induction n with
  | zero => simp [copy_chars]
  | succ n ih =>
    rw [copy_chars_succ, ih (by omega) (by omega)]
    have hl : (src.take n).length = n := by simp; omega
    rw [List.set_append_right _ _ (by omega), hl, Nat.sub_self]
    have hd : dst.drop n = dst[n] :: dst.drop (n + 1) := by
      rw [List.drop_eq_getElem_cons]
    rw [hd, List.set_cons_zero]
    have hs : src.take (n + 1) = src.take n ++ [src[n]] := by
      rw [List.take_succ]; simp [List.getElem?_eq_getElem (show n < src.length by omega)]
    have hb : buf_read src n = src[n] := by
      simp [buf_read, List.getD_eq_getElem?_getD,
        List.getElem?_eq_getElem (show n < src.length by omega)]
    rw [hs, hb, List.append_assoc]
    rfl

theorem length_save_word (dst nw : List Char) (n : Nat) :
    (save_word dst nw n).length = dst.length := by
  simp [save_word, length_copy_chars]

theorem save_word_eq (dst nw : List Char) (n : Nat) (h1 : n < dst.length)
    (h2 : n ≤ nw.length) : save_word dst nw n = nw.take n ++ NUL :: dst.drop (n + 1) := by
  unfold save_word
  rw [copy_chars_eq dst nw n (by omega) h2]
  have hl : (nw.take n).length = n := by simp; omega
  rw [List.set_append_right _ _ (by omega), hl, Nat.sub_self]
  have hd : dst.drop n = dst[n] :: dst.drop (n + 1) := by
    rw [List.drop_eq_getElem_cons]
  rw [hd, List.set_cons_zero]

theorem cstr_append_NUL (a b : List Char) (h : NUL ∉ a) : cstr (a ++ NUL :: b) = a := by
  unfold cstr
  rw [List.takeWhile_append_of_pos]
  · simp
  · intro c hc
    simp only [ne_eq, decide_eq_true_eq]
    intro h0
    exact h (h0 ▸ hc)

theorem cstr_save_word (dst nw : List Char) (n : Nat) (h1 : n < dst.length)
    (h2 : n ≤ nw.length) (h3 : NUL ∉ nw.take n) : cstr (save_word dst nw n) = nw.take n := by
  rw [save_word_eq dst nw n h1 h2, cstr_append_NUL _ _ h3]

theorem length_push_letter (nw pfx : List Char) (cnt : Nat) (l : Char) :
    (push_letter nw pfx cnt l).length = nw.length := by
  simp [push_letter]

theorem take_push_letter (nw pfx : List Char) (cnt : Nat) (l : Char) (h1 : 1 ≤ cnt)
    (h2 : pfx.length + cnt ≤ nw.length) :
    (push_letter nw pfx cnt l).take (pfx.length + cnt)
      = nw.take (pfx.length + cnt - 1) ++ [l] := by
  unfold push_letter
  rw [take_set_of_le _ _ (le_refl _)]
  obtain ⟨m, hm⟩ : ∃ m, pfx.length + cnt = m + 1 := ⟨pfx.length + cnt - 1, by omega⟩
  rw [hm, Nat.add_sub_cancel, take_succ_set _ _ _ (by omega)]

theorem length_reset_new_word (nw pfx : List Char) :
    (reset_new_word nw pfx).length = nw.length := by
  simp [reset_new_word, length_copy_chars]

theorem take_reset_new_word (nw pfx : List Char) (h : pfx.length ≤ nw.length) :
    (reset_new_word nw pfx).take pfx.length = pfx := by
  unfold reset_new_word
  rw [take_set_of_le _ _ (le_refl _)]
  rw [copy_chars_eq _ _ _ (by simpa using h) (le_refl _)]
  simp

theorem sub_entries_of_is_null {nd : trie_node_t} (h : nd.is_null = true) :
    sub_entries nd = [] := by
  rw [eq_null_of_is_null h]; rfl

theorem mf_loop (pfx : List Char) (l : Char) (e n : Int) (ch : Fin 26 → trie_node_t)
    (hrec : ∀ i, mf_spec pfx (ch i)) (h cnt : Nat) (st : most_frequent_state)
    (hl : letters_ok (node l e ch n) = true) (hh : height_le h (node l e ch n) = true)
    (hc : 1 ≤ cnt) (hb : pfx.length + cnt + h ≤ MAX_WORD_LENGTH)
    (h1 : st.new_word.length = MAX_WORD_LENGTH)
    (h2 : st.most_freq_word.length = MAX_WORD_LENGTH)
    (h3 : NUL ∉ st.new_word.take (pfx.length + cnt - 1)) :
    ((List.finRange 26).foldl (fun s i =>
      if (ch i).is_null then s
      else autocomplete_most_frequent pfx (ch i) false cnt s) st).new_word.length
        = MAX_WORD_LENGTH ∧
    ((List.finRange 26).foldl (fun s i =>
      if (ch i).is_null then s
      else autocomplete_most_frequent pfx (ch i) false cnt s) st).most_freq_word.length
        = MAX_WORD_LENGTH ∧
    ((List.finRange 26).foldl (fun s i =>
      if (ch i).is_null then s
      else autocomplete_most_frequent pfx (ch i) false cnt s) st).new_word.take
        (pfx.length + cnt - 1) = st.new_word.take (pfx.length + cnt - 1) ∧
    mf_abs ((List.finRange 26).foldl (fun s i =>
      if (ch i).is_null then s
      else autocomplete_most_frequent pfx (ch i) false cnt s) st)
      = ((List.finRange 26).flatMap (fun i => (sub_entries (ch i)).map (fun x =>
          (st.new_word.take (pfx.length + cnt - 1) ++ letter_of i :: x.1, x.2)))).foldl
          mf_step (mf_abs st) := by
  have key := foldl_refine
    (fun s i => if (ch i).is_null then s
      else autocomplete_most_frequent pfx (ch i) false cnt s)
    (fun a i => ((sub_entries (ch i)).map (fun x =>
      (st.new_word.take (pfx.length + cnt - 1) ++ letter_of i :: x.1, x.2))).foldl mf_step a)
    mf_abs
    (fun s => s.new_word.length = MAX_WORD_LENGTH ∧
      s.most_freq_word.length = MAX_WORD_LENGTH ∧
      s.new_word.take (pfx.length + cnt - 1) = st.new_word.take (pfx.length + cnt - 1))
    (List.finRange 26) st ⟨h1, h2, rfl⟩
    (by
      intro s i _ hs
      obtain ⟨hs1, hs2, hs3⟩ := hs
      by_cases hn : (ch i).is_null = true
      · simp only [hn, if_true, sub_entries_of_is_null hn, List.map_nil, List.foldl_nil,
          and_true]
        exact ⟨hs1, hs2, hs3⟩
      · have hne : ch i ≠ NULL := fun h0 => hn ((is_null_iff _).2 h0)
        obtain ⟨hli, hlet⟩ := letters_ok_child hl i
        obtain ⟨hpos, hhi⟩ := height_le_child hh i hne
        have hlett := hlet hne
        have r := hrec i (h - 1) cnt s hli hhi hc (by omega) hs1 hs2 (by rw [hs3]; exact h3)
          (by rw [hlett]; exact letter_of_ne_NUL i)
        simp only [hn, Bool.false_eq_true, if_false]
        refine ⟨⟨r.1, r.2.1, ?_⟩, ?_⟩
        · rw [r.2.2.1, hs3]
        · rw [r.2.2.2, hs3, hlett])
  refine ⟨key.1.1, key.1.2.1, key.1.2.2, ?_⟩
  rw [key.2, foldl_flatMap_eq]

theorem mf_node (pfx : List Char) (nd : trie_node_t) : mf_spec pfx nd := by
  induction nd with
  | NULL =>
    intro h cnt st _ _ _ _ h1 h2 _ _
    simp [autocomplete_most_frequent, sub_entries, h1, h2]
  | node l e ch n ih =>
    intro h cnt st hl hh hc hb h1 h2 h3 h4
    simp only [letter] at h4
    have hlen1 : (push_letter st.new_word pfx cnt l).length = MAX_WORD_LENGTH := by
      rw [length_push_letter, h1]
    have htake : (push_letter st.new_word pfx cnt l).take (pfx.length + cnt)
        = st.new_word.take (pfx.length + cnt - 1) ++ [l] :=
      take_push_letter _ _ _ _ hc (by omega)
    have hnul : NUL ∉ (push_letter st.new_word pfx cnt l).take (pfx.length + cnt) := by
      rw [htake]
      simp only [List.mem_append, List.mem_singleton, not_or]
      exact ⟨h3, fun h0 => h4 h0.symm⟩
    have hord : cnt + pfx.length = pfx.length + cnt := Nat.add_comm _ _
    -- the state after the update at this node
    obtain ⟨st2, hst2, hst2a, hst2b, hst2c⟩ : ∃ st2 : most_frequent_state,
        autocomplete_most_frequent pfx (node l e ch n) false cnt st =
          (List.finRange 26).foldl (fun s i =>
            if (ch i).is_null then s
            else autocomplete_most_frequent pfx (ch i) false (cnt + 1) s) st2 ∧
        st2.new_word = push_letter st.new_word pfx cnt l ∧
        st2.most_freq_word.length = MAX_WORD_LENGTH ∧
        mf_abs st2 = mf_step (mf_abs st)
          (st.new_word.take (pfx.length + cnt - 1) ++ [l], e) := by
      by_cases hcond : e > 0 ∧ (e > st.max_freq ∨ st.max_freq = -1)
      · refine ⟨{ new_word := push_letter st.new_word pfx cnt l, max_freq := e,
                  most_freq_word := save_word st.most_freq_word
                    (push_letter st.new_word pfx cnt l) (cnt + pfx.length) }, ?_, rfl, ?_, ?_⟩
        · simp only [autocomplete_most_frequent, Bool.false_eq_true, if_false, if_pos hcond]
        · simp only [length_save_word, h2]
        · simp only [mf_abs, mf_step, if_pos hcond, hord]
          rw [cstr_save_word _ _ _ (by omega) (by omega) hnul, htake]
      · refine ⟨{ st with new_word := push_letter st.new_word pfx cnt l }, ?_, rfl, h2, ?_⟩
        · simp only [autocomplete_most_frequent, Bool.false_eq_true, if_false, if_neg hcond]
        · simp only [mf_abs, mf_step, if_neg hcond]
    have hloop := mf_loop pfx l e n ch ih h (cnt + 1) st2 hl hh (by omega) (by omega)
      (by rw [hst2a]; exact hlen1) hst2b
      (by rw [hst2a]; simpa using hnul)
    have e1 : pfx.length + (cnt + 1) - 1 = pfx.length + cnt := by omega
    rw [hst2]
    rw [e1, hst2a, htake] at hloop
    refine ⟨hloop.1, hloop.2.1, ?_, ?_⟩
    · have := congrArg (List.take (pfx.length + cnt - 1)) hloop.2.2.1
      rw [List.take_take, List.take_append_of_le_length (by simp; omega)] at this
      simpa [List.take_take, h1] using this
    · rw [hloop.2.2.2, hst2c]
      simp only [sub_entries, List.map_cons, List.foldl_cons, List.map_flatMap, List.map_map,
        letter, List.append_assoc, List.singleton_append]
      rfl

theorem lowercase_of_walk (p : List Char) :
    ∀ nd : trie_node_t, walk nd p ≠ NULL → lowercase p := by
  induction p with
  | nil => intro nd _ c hc; simp at hc
  | cons c cs ih =>
    intro nd h
    cases nd with
    | NULL => exact absurd rfl h
    | node l e ch n =>
      simp only [walk] at h
      have hc : child ch (idx c) ≠ NULL := by
        intro h0
        rw [h0, walk_NULL] at h
        exact h rfl
      have hr := child_range hc
      intro d hd
      rcases List.mem_cons.1 hd with rfl | hd
      · unfold is_letter
        unfold idx at hr
        have ha : 'a'.toNat = 97 := by decide
        have hz : 'z'.toNat = 122 := by decide
        omega
      · exact ih _ h d hd

theorem NUL_not_mem_of_lowercase {p : List Char} (h : lowercase p) : NUL ∉ p := by
  intro h0
  have := h NUL h0
  revert this
  decide

theorem letters_ok_child_int {l : Char} {e n : Int} {ch : Fin 26 → trie_node_t}
    (h : letters_ok (node l e ch n) = true) (i : Int) : letters_ok (child ch i) = true := by
  unfold child
  split
  · exact (letters_ok_child h _).1
  · rfl

theorem letters_ok_walk (p : List Char) :
    ∀ nd : trie_node_t, letters_ok nd = true → letters_ok (walk nd p) = true := by
  induction p with
  | nil => intro nd h; cases nd <;> simpa [walk] using h
  | cons c cs ih =>
    intro nd h
    cases nd with
    | NULL => rfl
    | node l e ch n => exact ih _ (letters_ok_child_int h _)

theorem height_le_walk (p : List Char) :
    ∀ (nd : trie_node_t) (h : Nat), height_le h nd = true → walk nd p ≠ NULL →
      p.length ≤ h ∧ height_le (h - p.length) (walk nd p) = true := by
  induction p with
  | nil =>
    intro nd h hh _
    cases nd <;> simpa [walk] using hh
  | cons c cs ih =>
    intro nd h hh hw
    cases nd with
    | NULL => exact absurd rfl hw
    | node l e ch n =>
      simp only [walk] at hw ⊢
      have hc : child ch (idx c) ≠ NULL := by
        intro h0
        rw [h0, walk_NULL] at hw
        exact hw rfl
      obtain ⟨j, _, hj⟩ := child_eq_of_ne_null hc
      rw [hj] at hc hw ⊢
      obtain ⟨hpos, hhj⟩ := height_le_child hh j hc
      have := ih _ _ hhj hw
      simp only [List.length_cons]
      refine ⟨by omega, ?_⟩
      have e : h - (cs.length + 1) = h - 1 - cs.length := by omega
      rw [e]
      exact this.2

theorem cstr_zero_buffer : cstr zero_buffer = [] := by decide

theorem length_zero_buffer : zero_buffer.length = MAX_WORD_LENGTH := by decide

/-- The result of the most-frequent strategy started at the subtrie root: the
fold of `mf_step` over the nodes of the subtrie, spelled with the prefix. -/
theorem mf_root (pfx : List Char) (curr : trie_node_t) (h : Nat)
    (hl : letters_ok curr = true) (hh : height_le h curr = true)
    (hb : pfx.length + h < MAX_WORD_LENGTH) (hnul : NUL ∉ pfx) :
    mf_abs (autocomplete_most_frequent pfx curr true 0
      { most_freq_word := zero_buffer, max_freq := -1, new_word := zero_buffer })
      = ((sub_entries curr).map (fun x => (pfx ++ x.1, x.2))).foldl mf_step (-1, []) := by
  cases curr with
  | NULL => simp [autocomplete_most_frequent, sub_entries, mf_abs, cstr_zero_buffer]
  | node l e ch n =>
    have hlen1 : (reset_new_word zero_buffer pfx).length = MAX_WORD_LENGTH := by
      rw [length_reset_new_word, length_zero_buffer]
    have htake : (reset_new_word zero_buffer pfx).take pfx.length = pfx :=
      take_reset_new_word _ _ (by rw [length_zero_buffer]; omega)
    obtain ⟨st2, hst2, hst2a, hst2b, hst2c⟩ : ∃ st2 : most_frequent_state,
        autocomplete_most_frequent pfx (node l e ch n) true 0
          { most_freq_word := zero_buffer, max_freq := -1, new_word := zero_buffer } =
          (List.finRange 26).foldl (fun s i =>
            if (ch i).is_null then s
            else autocomplete_most_frequent pfx (ch i) false (0 + 1) s) st2 ∧
        st2.new_word = reset_new_word zero_buffer pfx ∧
        st2.most_freq_word.length = MAX_WORD_LENGTH ∧
        mf_abs st2 = mf_step (-1, []) (pfx, e) := by
      by_cases hcond : e > 0
      · refine ⟨{ new_word := reset_new_word zero_buffer pfx, max_freq := e,
                  most_freq_word := save_word zero_buffer
                    (reset_new_word zero_buffer pfx) (0 + pfx.length) }, ?_, rfl, ?_, ?_⟩
        · simp [autocomplete_most_frequent, hcond]
        · simp only [length_save_word, length_zero_buffer]
        · simp only [mf_abs, mf_step, hcond, Nat.zero_add, true_and, or_true, if_true]
          rw [cstr_save_word _ _ _ (by rw [length_zero_buffer]; omega) (by omega)
            (by rw [htake]; exact hnul), htake]
      · refine ⟨{ most_freq_word := zero_buffer, max_freq := -1,
                  new_word := reset_new_word zero_buffer pfx }, ?_, rfl,
                  length_zero_buffer, ?_⟩
        · simp [autocomplete_most_frequent, hcond]
        · simp [mf_abs, mf_step, hcond, cstr_zero_buffer]
    have hloop := mf_loop pfx l e n ch (fun i => mf_node pfx (ch i)) h (0 + 1) st2 hl hh
      (by omega) (by omega) (by rw [hst2a]; exact hlen1) hst2b
      (by rw [hst2a]; simpa [htake] using hnul)
    have e1 : pfx.length + (0 + 1) - 1 = pfx.length := by omega
    rw [hst2]
    rw [e1, hst2a, htake] at hloop
    rw [hloop.2.2.2, hst2c]
    simp only [sub_entries, List.map_cons, List.foldl_cons, List.map_flatMap, List.map_map,
      List.append_nil]
    rfl

/-- The fold of `mf_step` keeps the first entry with the largest positive
count. -/
theorem mf_fold_inv (w0 : List Char) (E : List (List Char × Int)) :
    ((E.foldl mf_step (-1, w0)) = (-1, w0) ∧ ∀ y ∈ E, y.2 ≤ 0) ∨
    (0 < (E.foldl mf_step (-1, w0)).1 ∧ ∃ l1 l2,
      E = l1 ++ ((E.foldl mf_step (-1, w0)).2, (E.foldl mf_step (-1, w0)).1) :: l2 ∧
      (∀ y ∈ l1, y.2 < (E.foldl mf_step (-1, w0)).1) ∧
      (∀ y ∈ l2, y.2 ≤ (E.foldl mf_step (-1, w0)).1)) := by
  induction E using List.reverseRecOn with
  | nil => left; simp
  | append_singleton E x ih =>
    rw [List.foldl_append, List.foldl_cons, List.foldl_nil]
    rcases ih with ⟨h1, h2⟩ | ⟨h1, l1, l2, h2, h3, h4⟩
    · rw [h1]
      by_cases hx : x.2 > 0
      · right
        have : mf_step (-1, w0) x = (x.2, x.1) := by simp [mf_step, hx]
        rw [this]
        refine ⟨hx, E, [], rfl, ?_, by simp⟩
        intro y hy
        have := h2 y hy
        simp only
        omega
      · left
        have : mf_step (-1, w0) x = (-1, w0) := by simp [mf_step, hx]
        rw [this]
        refine ⟨rfl, ?_⟩
        intro y hy
        rcases List.mem_append.1 hy with hy | hy
        · exact h2 y hy
        · simp only [List.mem_singleton] at hy
          subst hy
          omega
    · right
      generalize hr : E.foldl mf_step (-1, w0) = r at h1 h2 h3 h4
      by_cases hx : x.2 > 0 ∧ (x.2 > r.1 ∨ r.1 = -1)
      · have : mf_step r x = (x.2, x.1) := by simp only [mf_step, if_pos hx]
        rw [this]
        refine ⟨hx.1, E, [], rfl, ?_, by simp⟩
        have hgt : r.1 < x.2 := by
          rcases hx.2 with h5 | h5
          · exact h5
          · omega
        intro y hy
        rw [h2] at hy
        simp only [List.mem_append, List.mem_cons] at hy
        rcases hy with hy | rfl | hy
        · have := h3 y hy; simp only; omega
        · simp only; omega
        · have := h4 y hy; simp only; omega
      · have : mf_step r x = r := by simp only [mf_step, if_neg hx]
        rw [this]
        refine ⟨h1, l1, l2 ++ [x], ?_, h3, ?_⟩
        · rw [h2]; simp
        · intro y hy
          rcases List.mem_append.1 hy with hy | hy
          · exact h4 y hy
          · simp only [List.mem_singleton] at hy
            subst hy
            by_contra hc
            apply hx
            constructor <;> omega

theorem mem_entries_with_pfx (nd : trie_node_t) (p s : List Char) (e : Int) :
    (s, e) ∈ (sub_entries nd).map (fun x => (p ++ x.1, x.2)) ↔
      p <+: s ∧ walk nd (s.drop p.length) ≠ NULL ∧
        (walk nd (s.drop p.length)).end_of_word = e := by
  simp only [List.mem_map, Prod.mk.injEq, Prod.exists]
  constructor
  · rintro ⟨x, e1, hx, rfl, rfl⟩
    have := (mem_sub_entries nd x e1).1 hx
    simpa using this
  · rintro ⟨⟨x, rfl⟩, h2, h3⟩
    simp only [List.drop_left] at h2 h3
    exact ⟨x, e, (mem_sub_entries nd x e).2 ⟨h2, h3⟩, rfl, rfl⟩

theorem entries_with_pfx_sorted (nd : trie_node_t) (p : List Char) :
    ((sub_entries nd).map (fun x => (p ++ x.1, x.2))).Pairwise
      (fun a b => lex_lt a.1 b.1) := by
  rw [List.pairwise_map]
  exact (sub_entries_sorted nd).imp (fun h => lex_lt_append_left p h)

/-- The entries below the node reached by `p`, spelled from the root, are the
words with prefix `p` whose path exists, each with its count. -/
theorem mem_entries_walk (t : trie_t) (p s : List Char) (e : Int) :
    (s, e) ∈ (sub_entries (walk t.root p)).map (fun x => (p ++ x.1, x.2)) ↔
      p <+: s ∧ walk t.root s ≠ NULL ∧ count t s = e := by
  rw [mem_entries_with_pfx]
  constructor
  · rintro ⟨⟨x, rfl⟩, h2, h3⟩
    simp only [List.drop_left] at h2 h3
    rw [← walk_append] at h2 h3
    exact ⟨⟨x, rfl⟩, h2, h3⟩
  · rintro ⟨⟨x, rfl⟩, h2, h3⟩
    simp only [List.drop_left]
    rw [← walk_append]
    exact ⟨⟨x, rfl⟩, h2, h3⟩

theorem walk_ne_null_of_stored {t : trie_t} {s : List Char} (h : stored t s) :
    walk t.root s ≠ NULL := by
  intro h0
  unfold stored count at h
  rw [h0] at h
  simp [end_of_word] at h

theorem not_found_not_lowercase : ¬ lowercase not_found := by decide

theorem stored_ne_not_found {t : trie_t} {s : List Char} (h : stored t s) :
    s ≠ not_found := by
  intro h0
  have := lowercase_of_walk s t.root (walk_ne_null_of_stored h)
  rw [h0] at this
  exact not_found_not_lowercase this

theorem is_null_eq_false {nd : trie_node_t} (h : nd ≠ NULL) : nd.is_null = false := by
  cases nd with
  | NULL => exact absurd rfl h
  | node _ _ _ _ => rfl

/-- The output of mode 3, from the fold over the entries below the prefix. -/
theorem prepare_autocomplete_3_eq (t : trie_t) (p : List Char)
    (hpath : walk t.root p ≠ NULL) (hl : letters_ok t.root = true)
    (hh : height_le (MAX_WORD_LENGTH - 1) t.root = true) :
    prepare_autocomplete p 3 t =
      if (((sub_entries (walk t.root p)).map (fun x => (p ++ x.1, x.2))).foldl
          mf_step (-1, [])).1 = -1 then [not_found]
      else [(((sub_entries (walk t.root p)).map (fun x => (p ++ x.1, x.2))).foldl
          mf_step (-1, [])).2] := by
  have hw := height_le_walk p t.root _ hh hpath
  have hroot := mf_root p (walk t.root p) (MAX_WORD_LENGTH - 1 - p.length)
    (letters_ok_walk p t.root hl) hw.2 (by have := hw.1; simp only [MAX_WORD_LENGTH] at *; omega)
    (NUL_not_mem_of_lowercase (lowercase_of_walk p t.root hpath))
  have hd : prepare_autocomplete p 3 t = prepare_autocomplete_3 p (walk t.root p) := by
    simp [prepare_autocomplete, is_null_eq_false hpath]
  rw [hd]
  unfold prepare_autocomplete_3
  simp only
  rw [← hroot]
  rfl

/-- C6. For every trie with the letter invariant whose paths fit the word
buffers and every non-empty prefix `p` whose path exists, mode 3 (most
frequent) prints not-found exactly when no stored word has prefix `p`;
otherwise it prints one stored word with prefix `p` whose count is the largest
among the stored words with prefix `p`, and every other such word with the same
count comes later in the dictionary order. -/
theorem most_frequent_completion (t : trie_t) (p : List Char) (_hne : p ≠ [])
    (hpath : walk t.root p ≠ NULL) (hl : letters_ok t.root = true)
    (hh : height_le (MAX_WORD_LENGTH - 1) t.root = true) :
    (prepare_autocomplete p 3 t = [not_found] ↔ ∀ s, p <+: s → ¬ stored t s) ∧
    ((∃ s, p <+: s ∧ stored t s) →
      ∃ w, prepare_autocomplete p 3 t = [w] ∧ p <+: w ∧ stored t w ∧
        ∀ s, p <+: s → stored t s →
          count t s ≤ count t w ∧ (count t s = count t w → s ≠ w → lex_lt w s)) := by
  rw [prepare_autocomplete_3_eq t p hpath hl hh]
  have hmem := mem_entries_walk t p
  have hsort := entries_with_pfx_sorted (walk t.root p) p
  generalize hE : (sub_entries (walk t.root p)).map (fun x => (p ++ x.1, x.2)) = E
    at hmem hsort
  have hin : ∀ s, p <+: s → stored t s → (s, count t s) ∈ E := fun s h1 h2 =>
    (hmem s (count t s)).2 ⟨h1, walk_ne_null_of_stored h2, rfl⟩
  rcases mf_fold_inv [] E with ⟨h1, h2⟩ | ⟨h1, l1, l2, h2, h3, h4⟩
  · rw [h1]
    have hno : ∀ s, p <+: s → ¬ stored t s := by
      intro s hs hst
      have := h2 _ (hin s hs hst)
      unfold stored at hst
      simp only at this
      omega
    refine ⟨⟨fun _ => hno, fun _ => by simp⟩, ?_⟩
    rintro ⟨s, hs, hst⟩
    exact absurd hst (hno s hs)
  · generalize hr : E.foldl mf_step (-1, []) = r at h1 h2 h3 h4
    have hrE : (r.2, r.1) ∈ E := by rw [h2]; simp
    obtain ⟨hp2, _, hc2⟩ := (hmem r.2 r.1).1 hrE
    have hst2 : stored t r.2 := by unfold stored; rw [hc2]; exact h1
    have hn1 : r.1 ≠ -1 := by omega
    rw [if_neg hn1]
    constructor
    · constructor
      · intro h0
        simp only [List.cons.injEq, and_true] at h0
        exact absurd h0 (stored_ne_not_found hst2)
      · intro h0
        exact absurd hst2 (h0 r.2 hp2)
    · intro _
      refine ⟨r.2, rfl, hp2, hst2, ?_⟩
      intro s hs hst
      have hsE := hin s hs hst
      rw [h2] at hsE hsort
      rw [hc2]
      simp only [List.mem_append, List.mem_cons, Prod.mk.injEq] at hsE
      rw [List.pairwise_append] at hsort
      rcases hsE with hsE | ⟨rfl, hsE⟩ | hsE
      · have := h3 _ hsE
        simp only at this
        exact ⟨by omega, fun h0 => by omega⟩
      · exact ⟨by omega, fun _ h0 => absurd rfl h0⟩
      · have := h4 _ hsE
        simp only at this
        refine ⟨this, fun _ _ => ?_⟩
        have hp := (List.pairwise_cons.1 hsort.2.1).1 _ hsE
        exact hp

theorem most_frequent_completion_witness :
    prepare_autocomplete "ca".toList 3 (trie_of ["cap", "cap", "car"]) = ["cap".toList] ∧
    (prepare_autocomplete "ca".toList 3 (trie_of ["cap", "cap", "car"]) = [not_found] ↔
      ∀ s, "ca".toList <+: s → ¬ stored (trie_of ["cap", "cap", "car"]) s) :=
  ⟨by decide,
    (most_frequent_completion (trie_of ["cap", "cap", "car"]) "ca".toList (by decide)
      (ne_null_of_is_null (by decide)) (by decide) (by decide)).1⟩

theorem sh_fold_id (a : Int × List Char) (L : List (List Char × Int)) (h1 : a.1 ≠ -1)
    (h2 : ∀ y ∈ L, a.1 ≤ (y.1.length : Int)) : L.foldl sh_step a = a := by
  induction L with
  | nil => rfl
  | cons y L ih =>
    have hy := h2 y (List.mem_cons_self _ _)
    have : sh_step a y = a := by
      unfold sh_step
      rw [if_neg]
      intro hc
      rcases hc.2 with h | h
      · omega
      · exact h1 h
    rw [List.foldl_cons, this]
    exact ih (fun z hz => h2 z (List.mem_cons_of_mem _ hz))

theorem sh_loop (pfx : List Char) (l : Char) (e n : Int) (ch : Fin 26 → trie_node_t)
    (hrec : ∀ i, sh_spec pfx (ch i)) (h cnt : Nat) (st : shortest_state)
    (hl : letters_ok (node l e ch n) = true) (hh : height_le h (node l e ch n) = true)
    (hc : 1 ≤ cnt) (hb : pfx.length + cnt + h ≤ MAX_WORD_LENGTH)
    (h1 : st.new_word.length = MAX_WORD_LENGTH)
    (h2 : st.min_word.length = MAX_WORD_LENGTH)
    (h3 : NUL ∉ st.new_word.take (pfx.length + cnt - 1)) :
    ((List.finRange 26).foldl (fun s i =>
      if (ch i).is_null then s
      else autocomplete_shortest pfx (ch i) false cnt s) st).new_word.length
        = MAX_WORD_LENGTH ∧
    ((List.finRange 26).foldl (fun s i =>
      if (ch i).is_null then s
      else autocomplete_shortest pfx (ch i) false cnt s) st).min_word.length
        = MAX_WORD_LENGTH ∧
    ((List.finRange 26).foldl (fun s i =>
      if (ch i).is_null then s
      else autocomplete_shortest pfx (ch i) false cnt s) st).new_word.take
        (pfx.length + cnt - 1) = st.new_word.take (pfx.length + cnt - 1) ∧
    sh_abs ((List.finRange 26).foldl (fun s i =>
      if (ch i).is_null then s
      else autocomplete_shortest pfx (ch i) false cnt s) st)
      = ((List.finRange 26).flatMap (fun i => (sub_entries (ch i)).map (fun x =>
          (st.new_word.take (pfx.length + cnt - 1) ++ letter_of i :: x.1, x.2)))).foldl
          sh_step (sh_abs st) := by
  have key := foldl_refine
    (fun s i => if (ch i).is_null then s
      else autocomplete_shortest pfx (ch i) false cnt s)
    (fun a i => ((sub_entries (ch i)).map (fun x =>
      (st.new_word.take (pfx.length + cnt - 1) ++ letter_of i :: x.1, x.2))).foldl sh_step a)
    sh_abs
    (fun s => s.new_word.length = MAX_WORD_LENGTH ∧
      s.min_word.length = MAX_WORD_LENGTH ∧
      s.new_word.take (pfx.length + cnt - 1) = st.new_word.take (pfx.length + cnt - 1))
    (List.finRange 26) st ⟨h1, h2, rfl⟩
    (by
      intro s i _ hs
      obtain ⟨hs1, hs2, hs3⟩ := hs
      by_cases hn : (ch i).is_null = true
      · simp only [hn, if_true, sub_entries_of_is_null hn, List.map_nil, List.foldl_nil,
          and_true]
        exact ⟨hs1, hs2, hs3⟩
      · have hne : ch i ≠ NULL := fun h0 => hn ((is_null_iff _).2 h0)
        obtain ⟨hli, hlet⟩ := letters_ok_child hl i
        obtain ⟨hpos, hhi⟩ := height_le_child hh i hne
        have hlett := hlet hne
        have r := hrec i (h - 1) cnt s hli hhi hc (by omega) hs1 hs2 (by rw [hs3]; exact h3)
          (by rw [hlett]; exact letter_of_ne_NUL i)
        simp only [hn, Bool.false_eq_true, if_false]
        refine ⟨⟨r.1, r.2.1, ?_⟩, ?_⟩
        · rw [r.2.2.1, hs3]
        · rw [r.2.2.2, hs3, hlett])
  refine ⟨key.1.1, key.1.2.1, key.1.2.2, ?_⟩
  rw [key.2, foldl_flatMap_eq]

theorem sh_node (pfx : List Char) (nd : trie_node_t) : sh_spec pfx nd := by
  induction nd with
  | NULL =>
    intro h cnt st _ _ _ _ h1 h2 _ _
    simp [autocomplete_shortest, sub_entries, h1, h2]
  | node l e ch n ih =>
    intro h cnt st hl hh hc hb h1 h2 h3 h4
    simp only [letter] at h4
    have hlen1 : (push_letter st.new_word pfx cnt l).length = MAX_WORD_LENGTH := by
      rw [length_push_letter, h1]
    have htake : (push_letter st.new_word pfx cnt l).take (pfx.length + cnt)
        = st.new_word.take (pfx.length + cnt - 1) ++ [l] :=
      take_push_letter _ _ _ _ hc (by omega)
    have htake0 : (push_letter st.new_word pfx cnt l).take (pfx.length + cnt - 1)
        = st.new_word.take (pfx.length + cnt - 1) := by
      have := congrArg (List.take (pfx.length + cnt - 1)) htake
      rw [List.take_take, List.take_append_of_le_length (by simp; omega)] at this
      simpa [List.take_take, h1] using this
    have hnul : NUL ∉ (push_letter st.new_word pfx cnt l).take (pfx.length + cnt) := by
      rw [htake]
      simp only [List.mem_append, List.mem_singleton, not_or]
      exact ⟨h3, fun h0 => h4 h0.symm⟩
    have hord : cnt + pfx.length = pfx.length + cnt := Nat.add_comm _ _
    have hwl : (st.new_word.take (pfx.length + cnt - 1) ++ [l]).length = pfx.length + cnt := by
      simp; omega
    have hentries : (sub_entries (node l e ch n)).map (fun x =>
          (st.new_word.take (pfx.length + cnt - 1) ++ (node l e ch n).letter :: x.1, x.2))
        = (st.new_word.take (pfx.length + cnt - 1) ++ [l], e) ::
          (List.finRange 26).flatMap (fun i => (sub_entries (ch i)).map (fun x =>
            ((st.new_word.take (pfx.length + cnt - 1) ++ [l]) ++ letter_of i :: x.1, x.2))) := by
      simp only [sub_entries, List.map_cons, List.map_flatMap, List.map_map,
        letter, List.append_assoc, List.singleton_append]
      rfl
    rw [hentries, List.foldl_cons]
    by_cases he : e > 0
    · -- a word end: the result is updated and the descent stops
      have hid : ∀ a : Int × List Char, a.1 ≠ -1 → a.1 ≤ ((pfx.length + cnt : Nat) : Int) →
          ((List.finRange 26).flatMap (fun i => (sub_entries (ch i)).map (fun x =>
            ((st.new_word.take (pfx.length + cnt - 1) ++ [l]) ++ letter_of i :: x.1,
              x.2)))).foldl sh_step a = a := by
        intro a ha1 ha2
        apply sh_fold_id a _ ha1
        intro y hy
        simp only [List.mem_flatMap, List.mem_map] at hy
        obtain ⟨i, _, x, _, rfl⟩ := hy
        simp only [List.length_append, List.length_cons] at hwl ⊢
        simp only [List.length_append, List.length_cons, List.length_nil] at hwl
        push_cast at ha2 ⊢
        omega
      by_cases hcond : ((cnt + pfx.length : Nat) : Int) < st.min_length ∨ st.min_length = -1
      · have hres : autocomplete_shortest pfx (node l e ch n) false cnt st =
            { new_word := push_letter st.new_word pfx cnt l,
              min_length := ((cnt + pfx.length : Nat) : Int),
              min_word := save_word st.min_word (push_letter st.new_word pfx cnt l)
                (cnt + pfx.length) } := by
          simp only [autocomplete_shortest, Bool.false_eq_true, if_false, if_pos he,
            if_pos hcond]
        rw [hres]
        refine ⟨hlen1, by simp only [length_save_word, h2], htake0, ?_⟩
        have hstep : sh_step (sh_abs st) (st.new_word.take (pfx.length + cnt - 1) ++ [l], e)
            = (((pfx.length + cnt : Nat) : Int), st.new_word.take (pfx.length + cnt - 1) ++ [l]) := by
          unfold sh_step
          simp only [hwl, sh_abs]
          rw [if_pos ⟨he, by rw [← hord]; exact hcond⟩]
        rw [hstep, hid _ (by simp only; omega) (le_refl _)]
        simp only [sh_abs, hord]
        rw [cstr_save_word _ _ _ (by omega) (by omega) hnul, htake]
      · have hres : autocomplete_shortest pfx (node l e ch n) false cnt st =
            { st with new_word := push_letter st.new_word pfx cnt l } := by
          simp only [autocomplete_shortest, Bool.false_eq_true, if_false, if_pos he,
            if_neg hcond]
        rw [hres]
        refine ⟨hlen1, h2, htake0, ?_⟩
        have hstep : sh_step (sh_abs st) (st.new_word.take (pfx.length + cnt - 1) ++ [l], e)
            = sh_abs st := by
          unfold sh_step
          simp only [hwl, sh_abs]
          rw [if_neg]
          intro hc2
          exact hcond (by rw [hord]; exact hc2.2)
        rw [hstep, hid _ (by simp only [sh_abs]; omega) (by simp only [sh_abs]; omega)]
        rfl
    · have hres : autocomplete_shortest pfx (node l e ch n) false cnt st =
          (List.finRange 26).foldl (fun s i =>
            if (ch i).is_null then s
            else autocomplete_shortest pfx (ch i) false (cnt + 1) s)
            { st with new_word := push_letter st.new_word pfx cnt l } := by
        simp only [autocomplete_shortest, Bool.false_eq_true, if_false, if_neg he]
      have hstep : sh_step (sh_abs st) (st.new_word.take (pfx.length + cnt - 1) ++ [l], e)
          = sh_abs st := by
        unfold sh_step
        rw [if_neg]
        intro hc2
        exact he hc2.1
      have hloop := sh_loop pfx l e n ch ih h (cnt + 1)
        { st with new_word := push_letter st.new_word pfx cnt l } hl hh (by omega) (by omega)
        hlen1 h2 (by simpa using hnul)
      have e1 : pfx.length + (cnt + 1) - 1 = pfx.length + cnt := by omega
      rw [hres]
      rw [e1] at hloop
      simp only [htake] at hloop
      refine ⟨hloop.1, hloop.2.1, ?_, ?_⟩
      · have := congrArg (List.take (pfx.length + cnt - 1)) hloop.2.2.1
        rw [List.take_take, List.take_append_of_le_length (by simp; omega)] at this
        simpa [List.take_take, h1] using this
      · rw [hloop.2.2.2, hstep]
        rfl

/-- The result of the shortest strategy started at a subtrie root that is no
word end: the fold of `sh_step` over the nodes of the subtrie, spelled with the
prefix. -/
theorem sh_root (pfx : List Char) (curr : trie_node_t) (h : Nat)
    (hl : letters_ok curr = true) (hh : height_le h curr = true)
    (hb : pfx.length + h < MAX_WORD_LENGTH) (hnul : NUL ∉ pfx)
    (he : ¬ curr.end_of_word > 0) :
    sh_abs (autocomplete_shortest pfx curr true 0
      { min_word := zero_buffer, min_length := -1, new_word := zero_buffer })
      = ((sub_entries curr).map (fun x => (pfx ++ x.1, x.2))).foldl sh_step (-1, []) := by
  cases curr with
  | NULL => simp [autocomplete_shortest, sub_entries, sh_abs, cstr_zero_buffer]
  | node l e ch n =>
    simp only [end_of_word] at he
    have hlen1 : (reset_new_word zero_buffer pfx).length = MAX_WORD_LENGTH := by
      rw [length_reset_new_word, length_zero_buffer]
    have htake : (reset_new_word zero_buffer pfx).take pfx.length = pfx :=
      take_reset_new_word _ _ (by rw [length_zero_buffer]; omega)
    have hres : autocomplete_shortest pfx (node l e ch n) true 0
          { min_word := zero_buffer, min_length := -1, new_word := zero_buffer } =
        (List.finRange 26).foldl (fun s i =>
          if (ch i).is_null then s
          else autocomplete_shortest pfx (ch i) false (0 + 1) s)
          { min_word := zero_buffer, min_length := -1,
            new_word := reset_new_word zero_buffer pfx } := by
      simp only [autocomplete_shortest, if_true]
    have hloop := sh_loop pfx l e n ch (fun i => sh_node pfx (ch i)) h (0 + 1)
      { min_word := zero_buffer, min_length := -1,
        new_word := reset_new_word zero_buffer pfx } hl hh
      (by omega) (by omega) hlen1 length_zero_buffer
      (by simpa [htake] using hnul)
    have e1 : pfx.length + (0 + 1) - 1 = pfx.length := by omega
    rw [hres]
    rw [e1] at hloop
    simp only [htake] at hloop
    rw [hloop.2.2.2]
    have hstep : sh_step (-1, []) (pfx, e) = (-1, []) := by
      unfold sh_step
      rw [if_neg]
      intro hc2
      exact he hc2.1
    simp only [sub_entries, List.map_cons, List.foldl_cons, List.map_flatMap, List.map_map,
      List.append_nil, hstep, sh_abs, cstr_zero_buffer]
    rfl

/-- The fold of `sh_step` keeps the first of the shortest entries with a
positive count. -/
theorem sh_fold_inv (w0 : List Char) (E : List (List Char × Int)) :
    ((E.foldl sh_step (-1, w0)) = (-1, w0) ∧ ∀ y ∈ E, y.2 ≤ 0) ∨
    ((E.foldl sh_step (-1, w0)).1 = ((E.foldl sh_step (-1, w0)).2.length : Int) ∧
      ∃ l1 l2 e, E = l1 ++ ((E.foldl sh_step (-1, w0)).2, e) :: l2 ∧ 0 < e ∧
      (∀ y ∈ l1, 0 < y.2 → (E.foldl sh_step (-1, w0)).2.length < y.1.length) ∧
      (∀ y ∈ l2, 0 < y.2 → (E.foldl sh_step (-1, w0)).2.length ≤ y.1.length)) := by
  induction E using List.reverseRecOn with
  | nil => left; simp
  | append_singleton E x ih =>
    rw [List.foldl_append, List.foldl_cons, List.foldl_nil]
    rcases ih with ⟨h1, h2⟩ | ⟨h1, l1, l2, e, h2, he, h3, h4⟩
    · rw [h1]
      by_cases hx : x.2 > 0
      · right
        have : sh_step (-1, w0) x = ((x.1.length : Int), x.1) := by simp [sh_step, hx]
        rw [this]
        refine ⟨rfl, E, [], x.2, rfl, hx, ?_, by simp⟩
        intro y hy hpos
        have := h2 y hy
        omega
      · left
        have : sh_step (-1, w0) x = (-1, w0) := by simp [sh_step, hx]
        rw [this]
        refine ⟨rfl, ?_⟩
        intro y hy
        rcases List.mem_append.1 hy with hy | hy
        · exact h2 y hy
        · simp only [List.mem_singleton] at hy
          subst hy
          omega
    · right
      generalize hr : E.foldl sh_step (-1, w0) = r at h1 h2 h3 h4
      by_cases hx : x.2 > 0 ∧ ((x.1.length : Int) < r.1 ∨ r.1 = -1)
      · have : sh_step r x = ((x.1.length : Int), x.1) := by simp only [sh_step, if_pos hx]
        rw [this]
        refine ⟨rfl, E, [], x.2, rfl, hx.1, ?_, by simp⟩
        have hgt : x.1.length < r.2.length := by
          rcases hx.2 with h5 | h5
          · omega
          · omega
        intro y hy hpos
        rw [h2] at hy
        simp only [List.mem_append, List.mem_cons] at hy
        rcases hy with hy | rfl | hy
        · have := h3 y hy hpos; simp only; omega
        · simp only; omega
        · have := h4 y hy hpos; simp only; omega
      · have : sh_step r x = r := by simp only [sh_step, if_neg hx]
        rw [this]
        refine ⟨h1, l1, l2 ++ [x], e, ?_, he, h3, ?_⟩
        · rw [h2]; simp
        · intro y hy hpos
          rcases List.mem_append.1 hy with hy | hy
          · exact h4 y hy hpos
          · simp only [List.mem_singleton] at hy
            subst hy
            by_contra hc
            apply hx
            constructor
            · exact hpos
            · left; omega

/-- The output of mode 2, from the fold over the entries below the prefix. -/
theorem prepare_autocomplete_2_eq (t : trie_t) (p : List Char)
    (hpath : walk t.root p ≠ NULL) (hl : letters_ok t.root = true)
    (hh : height_le (MAX_WORD_LENGTH - 1) t.root = true) :
    prepare_autocomplete p 2 t =
      if (((sub_entries (walk t.root p)).map (fun x => (p ++ x.1, x.2))).foldl
          sh_step (-1, [])).1 = -1 then [not_found]
      else [(((sub_entries (walk t.root p)).map (fun x => (p ++ x.1, x.2))).foldl
          sh_step (-1, [])).2] := by
  have hw := height_le_walk p t.root _ hh hpath
  have hd : prepare_autocomplete p 2 t = prepare_autocomplete_2 p (walk t.root p) := by
    simp [prepare_autocomplete, is_null_eq_false hpath]
  rw [hd]
  unfold prepare_autocomplete_2
  by_cases he : (walk t.root p).end_of_word > 0
  · rw [if_pos he]
    cases hc : walk t.root p with
    | NULL => exact absurd hc hpath
    | node l e ch n =>
      rw [hc] at he
      simp only [end_of_word] at he
      simp only [sub_entries, List.map_cons, List.foldl_cons, List.append_nil]
      have hstep : sh_step (-1, []) (p, e) = ((p.length : Int), p) := by
        simp [sh_step, he]
      rw [hstep, sh_fold_id _ _ (by simp only; omega)]
      · rw [if_neg (by simp only; omega)]
      · intro y hy
        simp only [List.mem_map] at hy
        obtain ⟨x, _, rfl⟩ := hy
        simp
  · rw [if_neg he]
    have hroot := sh_root p (walk t.root p) (MAX_WORD_LENGTH - 1 - p.length)
      (letters_ok_walk p t.root hl) hw.2
      (by have := hw.1; simp only [MAX_WORD_LENGTH] at *; omega)
      (NUL_not_mem_of_lowercase (lowercase_of_walk p t.root hpath)) he
    simp only
    rw [← hroot]
    rfl

/-- C5. For every trie with the letter invariant whose paths fit the word
buffers and every non-empty prefix `p` whose path exists, mode 2 (shortest)
prints not-found exactly when no stored word has prefix `p`; otherwise it
prints one stored word with prefix `p` such that no stored word with prefix `p`
is shorter, and every other such word of the same length comes later in the
dictionary order. -/
theorem shortest_completion (t : trie_t) (p : List Char) (_hne : p ≠ [])
    (hpath : walk t.root p ≠ NULL) (hl : letters_ok t.root = true)
    (hh : height_le (MAX_WORD_LENGTH - 1) t.root = true) :
    (prepare_autocomplete p 2 t = [not_found] ↔ ∀ s, p <+: s → ¬ stored t s) ∧
    ((∃ s, p <+: s ∧ stored t s) →
      ∃ w, prepare_autocomplete p 2 t = [w] ∧ p <+: w ∧ stored t w ∧
        ∀ s, p <+: s → stored t s →
          w.length ≤ s.length ∧ (s.length = w.length → s ≠ w → lex_lt w s)) := by
  rw [prepare_autocomplete_2_eq t p hpath hl hh]
  have hmem := mem_entries_walk t p
  have hsort := entries_with_pfx_sorted (walk t.root p) p
  generalize hE : (sub_entries (walk t.root p)).map (fun x => (p ++ x.1, x.2)) = E
    at hmem hsort
  have hin : ∀ s, p <+: s → stored t s → (s, count t s) ∈ E := fun s h1 h2 =>
    (hmem s (count t s)).2 ⟨h1, walk_ne_null_of_stored h2, rfl⟩
  rcases sh_fold_inv [] E with ⟨h1, h2⟩ | ⟨h1, l1, l2, e, h2, he, h3, h4⟩
  · rw [h1]
    have hno : ∀ s, p <+: s → ¬ stored t s := by
      intro s hs hst
      have := h2 _ (hin s hs hst)
      unfold stored at hst
      simp only at this
      omega
    refine ⟨⟨fun _ => hno, fun _ => by simp⟩, ?_⟩
    rintro ⟨s, hs, hst⟩
    exact absurd hst (hno s hs)
  · generalize hr : E.foldl sh_step (-1, []) = r at h1 h2 h3 h4
    have hrE : (r.2, e) ∈ E := by rw [h2]; simp
    obtain ⟨hp2, _, hc2⟩ := (hmem r.2 e).1 hrE
    have hst2 : stored t r.2 := by unfold stored; rw [hc2]; exact he
    have hn1 : r.1 ≠ -1 := by omega
    rw [if_neg hn1]
    constructor
    · constructor
      · intro h0
        simp only [List.cons.injEq, and_true] at h0
        exact absurd h0 (stored_ne_not_found hst2)
      · intro h0
        exact absurd hst2 (h0 r.2 hp2)
    · intro _
      refine ⟨r.2, rfl, hp2, hst2, ?_⟩
      intro s hs hst
      have hsE := hin s hs hst
      have hpos : 0 < count t s := hst
      rw [h2] at hsE hsort
      simp only [List.mem_append, List.mem_cons, Prod.mk.injEq] at hsE
      rw [List.pairwise_append] at hsort
      rcases hsE with hsE | ⟨rfl, hsE⟩ | hsE
      · have := h3 _ hsE hpos
        simp only at this
        exact ⟨by omega, fun h0 => by omega⟩
      · exact ⟨le_refl _, fun _ h0 => absurd rfl h0⟩
      · have := h4 _ hsE hpos
        simp only at this
        refine ⟨this, fun _ _ => ?_⟩
        exact (List.pairwise_cons.1 hsort.2.1).1 _ hsE

theorem shortest_completion_witness :
    prepare_autocomplete "do".toList 2 (trie_of ["dog", "dot", "dodge"]) = ["dog".toList] ∧
    (prepare_autocomplete "do".toList 2 (trie_of ["dog", "dot", "dodge"]) = [not_found] ↔
      ∀ s, "do".toList <+: s → ¬ stored (trie_of ["dog", "dot", "dodge"]) s) :=
  ⟨by decide,
    (shortest_completion (trie_of ["dog", "dot", "dodge"]) "do".toList (by decide)
      (ne_null_of_is_null (by decide)) (by decide) (by decide)).1⟩

theorem lx_fold_id (a : Int × List (List Char)) (L : List (List Char × Int)) (h1 : a.1 = 1) :
    L.foldl lx_step a = a := by
  induction L with
  | nil => rfl
  | cons y L ih =>
    have : lx_step a y = a := by
      unfold lx_step
      rw [if_neg]
      intro hc
      exact hc.2 h1
    rw [List.foldl_cons, this]
    exact ih

theorem lx_loop (l : Char) (e n : Int) (ch : Fin 26 → trie_node_t)
    (hrec : ∀ i, lx_spec (ch i)) (h : Nat) (pl : Int) (st : lexico_state)
    (hl : letters_ok (node l e ch n) = true) (hh : height_le h (node l e ch n) = true)
    (hc : 0 ≤ pl) (hb : pl.toNat + 1 + h ≤ MAX_WORD_LENGTH)
    (h1 : st.first_lexico_word.length = MAX_WORD_LENGTH) :
    ((List.finRange 26).foldl (fun s i =>
      if (ch i).is_null then s
      else autocomplete_first_lexico (ch i) false pl s) st).first_lexico_word.length
        = MAX_WORD_LENGTH ∧
    ((List.finRange 26).foldl (fun s i =>
      if (ch i).is_null then s
      else autocomplete_first_lexico (ch i) false pl s) st).first_lexico_word.take pl.toNat
        = st.first_lexico_word.take pl.toNat ∧
    lx_abs ((List.finRange 26).foldl (fun s i =>
      if (ch i).is_null then s
      else autocomplete_first_lexico (ch i) false pl s) st)
      = ((List.finRange 26).flatMap (fun i => (sub_entries (ch i)).map (fun x =>
          (st.first_lexico_word.take pl.toNat ++ letter_of i :: x.1, x.2)))).foldl
          lx_step (lx_abs st) := by
  have key := foldl_refine
    (fun s i => if (ch i).is_null then s
      else autocomplete_first_lexico (ch i) false pl s)
    (fun a i => ((sub_entries (ch i)).map (fun x =>
      (st.first_lexico_word.take pl.toNat ++ letter_of i :: x.1, x.2))).foldl lx_step a)
    lx_abs
    (fun s => s.first_lexico_word.length = MAX_WORD_LENGTH ∧
      s.first_lexico_word.take pl.toNat = st.first_lexico_word.take pl.toNat)
    (List.finRange 26) st ⟨h1, rfl⟩
    (by
      intro s i _ hs
      obtain ⟨hs1, hs3⟩ := hs
      by_cases hn : (ch i).is_null = true
      · simp only [hn, if_true, sub_entries_of_is_null hn, List.map_nil, List.foldl_nil,
          and_true]
        exact ⟨hs1, hs3⟩
      · have hne : ch i ≠ NULL := fun h0 => hn ((is_null_iff _).2 h0)
        obtain ⟨hli, hlet⟩ := letters_ok_child hl i
        obtain ⟨hpos, hhi⟩ := height_le_child hh i hne
        have hlett := hlet hne
        have r := hrec i (h - 1) pl s hli hhi hc (by omega) hs1
        simp only [hn, Bool.false_eq_true, if_false]
        refine ⟨⟨r.1, ?_⟩, ?_⟩
        · rw [r.2.1, hs3]
        · rw [r.2.2, hs3, hlett])
  refine ⟨key.1.1, key.1.2, ?_⟩
  rw [key.2, foldl_flatMap_eq]

theorem lx_node (nd : trie_node_t) : lx_spec nd := by
  induction nd with
  | NULL =>
    intro h pl st _ _ _ _ h1
    simp [autocomplete_first_lexico, sub_entries, h1]
  | node l e ch n ih =>
    intro h pl st hl hh hc hb h1
    obtain ⟨m, rfl⟩ : ∃ m : Nat, pl = (m : Int) := ⟨pl.toNat, by omega⟩
    have hm1 : ((m : Int) + 1).toNat = m + 1 := by omega
    simp only [Int.toNat_ofNat] at hb ⊢
    have hbuf : buf_write (buf_write st.first_lexico_word (m : Int) l) ((m : Int) + 1) NUL
        = (st.first_lexico_word.set m l).set (m + 1) NUL := by
      unfold buf_write
      rw [if_pos (by omega), if_pos (by omega), hm1, Int.toNat_ofNat]
    have hlen1 : ((st.first_lexico_word.set m l).set (m + 1) NUL).length = MAX_WORD_LENGTH := by
      simp [h1]
    have htake : ((st.first_lexico_word.set m l).set (m + 1) NUL).take (m + 1)
        = st.first_lexico_word.take m ++ [l] := by
      rw [take_set_of_le _ _ (le_refl _), take_succ_set _ _ _ (by omega)]
    have htake0 : ((st.first_lexico_word.set m l).set (m + 1) NUL).take m
        = st.first_lexico_word.take m := by
      rw [take_set_of_le _ _ (by omega), take_set_of_le _ _ (le_refl _)]
    have hentries : (sub_entries (node l e ch n)).map (fun x =>
          (st.first_lexico_word.take m ++ (node l e ch n).letter :: x.1, x.2))
        = (st.first_lexico_word.take m ++ [l], e) ::
          (List.finRange 26).flatMap (fun i => (sub_entries (ch i)).map (fun x =>
            ((st.first_lexico_word.take m ++ [l]) ++ letter_of i :: x.1, x.2))) := by
      simp only [sub_entries, List.map_cons, List.map_flatMap, List.map_map,
        letter, List.append_assoc, List.singleton_append]
      rfl
    rw [hentries, List.foldl_cons]
    by_cases hcond : e > 0 ∧ st.printed ≠ 1
    · have hres : autocomplete_first_lexico (node l e ch n) false (m : Int) st =
          { first_lexico_word := (st.first_lexico_word.set m l).set (m + 1) NUL,
            printed := 1,
            out := st.out ++ [st.first_lexico_word.take m ++ [l]] } := by
        simp only [autocomplete_first_lexico, Bool.false_eq_true, if_false, hbuf, hm1,
          Bool.not_false, Bool.true_and, Bool.and_eq_true, decide_eq_true_eq, if_pos hcond,
          htake]
      rw [hres]
      refine ⟨hlen1, htake0, ?_⟩
      have hstep : lx_step (lx_abs st) (st.first_lexico_word.take m ++ [l], e)
          = (1, st.out ++ [st.first_lexico_word.take m ++ [l]]) := by
        unfold lx_step
        simp only [lx_abs]
        rw [if_pos hcond]
      rw [hstep, lx_fold_id _ _ rfl]
      rfl
    · have hres : autocomplete_first_lexico (node l e ch n) false (m : Int) st =
          (List.finRange 26).foldl (fun s i =>
            if (ch i).is_null then s
            else autocomplete_first_lexico (ch i) false ((m : Int) + 1) s)
            { st with first_lexico_word := (st.first_lexico_word.set m l).set (m + 1) NUL } := by
        simp only [autocomplete_first_lexico, Bool.false_eq_true, if_false, hbuf,
          Bool.not_false, Bool.true_and, Bool.and_eq_true, decide_eq_true_eq, if_neg hcond]
      have hstep : lx_step (lx_abs st) (st.first_lexico_word.take m ++ [l], e)
          = lx_abs st := by
        unfold lx_step
        simp only [lx_abs]
        rw [if_neg hcond]
      have hloop := lx_loop l e n ch ih h ((m : Int) + 1)
        { st with first_lexico_word := (st.first_lexico_word.set m l).set (m + 1) NUL }
        hl hh (by omega) (by omega) hlen1
      rw [hres]
      rw [hm1] at hloop
      simp only [htake] at hloop
      refine ⟨hloop.1, ?_, ?_⟩
      · have := congrArg (List.take m) hloop.2.1
        rw [List.take_take, List.take_append_of_le_length (by simp; omega)] at this
        simpa [List.take_take, h1] using this
      · rw [hloop.2.2, hstep]
        rfl

/-- The result of the lexicographic strategy started at a subtrie root that
is no word end: the fold of `lx_step` over the nodes of the subtrie, spelled
with the prefix. -/
theorem lx_root (pfx : List Char) (curr : trie_node_t) (h : Nat)
    (hl : letters_ok curr = true) (hh : height_le h curr = true)
    (hb : pfx.length + h < MAX_WORD_LENGTH) (he : ¬ curr.end_of_word > 0) :
    lx_abs (autocomplete_first_lexico curr true ((pfx.length : Int) - 1)
      { first_lexico_word := copy_chars zero_buffer pfx pfx.length, printed := 0, out := [] })
      = ((sub_entries curr).map (fun x => (pfx ++ x.1, x.2))).foldl lx_step (0, []) := by
  cases curr with
  | NULL => simp [autocomplete_first_lexico, sub_entries, lx_abs]
  | node l e ch n =>
    simp only [end_of_word] at he
    have hlen1 : (copy_chars zero_buffer pfx pfx.length).length = MAX_WORD_LENGTH := by
      rw [length_copy_chars, length_zero_buffer]
    have htake : (copy_chars zero_buffer pfx pfx.length).take pfx.length = pfx := by
      rw [copy_chars_eq _ _ _ (by rw [length_zero_buffer]; omega) (le_refl _)]
      simp
    have hpl : (pfx.length : Int) - 1 + 1 = (pfx.length : Int) := by omega
    have hres : autocomplete_first_lexico (node l e ch n) true ((pfx.length : Int) - 1)
          { first_lexico_word := copy_chars zero_buffer pfx pfx.length,
            printed := 0, out := [] } =
        (List.finRange 26).foldl (fun s i =>
          if (ch i).is_null then s
          else autocomplete_first_lexico (ch i) false (pfx.length : Int) s)
          { first_lexico_word := copy_chars zero_buffer pfx pfx.length,
            printed := 0, out := [] } := by
      simp only [autocomplete_first_lexico, if_true, Bool.not_true, Bool.false_and,
        Bool.false_eq_true, if_false, hpl]
    have hloop := lx_loop l e n ch (fun i => lx_node (ch i)) h (pfx.length : Int)
      { first_lexico_word := copy_chars zero_buffer pfx pfx.length, printed := 0, out := [] }
      hl hh (by omega) (by simp only [Int.toNat_ofNat]; omega) hlen1
    rw [hres]
    simp only [Int.toNat_ofNat, htake] at hloop
    rw [hloop.2.2]
    have hstep : lx_step (0, []) (pfx, e) = (0, []) := by
      unfold lx_step
      rw [if_neg]
      intro hc2
      exact he hc2.1
    simp only [sub_entries, List.map_cons, List.foldl_cons, List.map_flatMap, List.map_map,
      List.append_nil, hstep, lx_abs]
    rfl

/-- The fold of `lx_step` prints the first entry with a positive count. -/
theorem lx_fold_inv (E : List (List Char × Int)) :
    ((E.foldl lx_step (0, [])) = (0, []) ∧ ∀ y ∈ E, y.2 ≤ 0) ∨
    (∃ l1 x l2, E = l1 ++ x :: l2 ∧ 0 < x.2 ∧ (∀ y ∈ l1, y.2 ≤ 0) ∧
      E.foldl lx_step (0, []) = (1, [x.1])) := by
  induction E with
  | nil => left; simp
  | cons y E ih =>
    rw [List.foldl_cons]
    by_cases hy : y.2 > 0
    · right
      have : lx_step (0, []) y = (1, [y.1]) := by simp [lx_step, hy]
      rw [this, lx_fold_id _ _ rfl]
      exact ⟨[], y, E, rfl, hy, by simp, rfl⟩
    · have : lx_step (0, []) y = (0, []) := by simp [lx_step, hy]
      rw [this]
      rcases ih with ⟨h1, h2⟩ | ⟨l1, x, l2, h1, h2, h3, h4⟩
      · left
        refine ⟨h1, ?_⟩
        intro z hz
        rcases List.mem_cons.1 hz with rfl | hz
        · omega
        · exact h2 z hz
      · right
        refine ⟨y :: l1, x, l2, by rw [h1]; rfl, h2, ?_, h4⟩
        intro z hz
        rcases List.mem_cons.1 hz with rfl | hz
        · omega
        · exact h3 z hz

/-- The output of mode 1, from the fold over the entries below the prefix. -/
theorem prepare_autocomplete_1_eq (t : trie_t) (p : List Char)
    (hpath : walk t.root p ≠ NULL) (hl : letters_ok t.root = true)
    (hh : height_le (MAX_WORD_LENGTH - 1) t.root = true) :
    prepare_autocomplete p 1 t =
      if (((sub_entries (walk t.root p)).map (fun x => (p ++ x.1, x.2))).foldl
          lx_step (0, [])).1 = 0 then
        (((sub_entries (walk t.root p)).map (fun x => (p ++ x.1, x.2))).foldl
          lx_step (0, [])).2 ++ [not_found]
      else (((sub_entries (walk t.root p)).map (fun x => (p ++ x.1, x.2))).foldl
          lx_step (0, [])).2 := by
  have hw := height_le_walk p t.root _ hh hpath
  have hd : prepare_autocomplete p 1 t = prepare_autocomplete_1 p (walk t.root p) := by
    simp [prepare_autocomplete, is_null_eq_false hpath]
  rw [hd]
  unfold prepare_autocomplete_1
  by_cases he : (walk t.root p).end_of_word > 0
  · rw [if_pos he]
    cases hc : walk t.root p with
    | NULL => exact absurd hc hpath
    | node l e ch n =>
      rw [hc] at he
      simp only [end_of_word] at he
      simp only [sub_entries, List.map_cons, List.foldl_cons, List.append_nil]
      have hstep : lx_step (0, []) (p, e) = (1, [p]) := by
        simp [lx_step, he]
      rw [hstep, lx_fold_id _ _ rfl]
      simp
  · rw [if_neg he]
    have hroot := lx_root p (walk t.root p) (MAX_WORD_LENGTH - 1 - p.length)
      (letters_ok_walk p t.root hl) hw.2
      (by have := hw.1; simp only [MAX_WORD_LENGTH] at *; omega) he
    simp only
    rw [← hroot]
    rfl

/-- C4. For every trie with the letter invariant whose paths fit the word
buffers and every non-empty prefix `p` whose path exists, mode 1 prints
not-found exactly when no stored word has prefix `p`; otherwise it prints one
stored word with prefix `p` that precedes every other stored word with prefix
`p` in the dictionary order; it prints `p` itself when `p` is stored. -/
theorem first_lexico_completion (t : trie_t) (p : List Char) (_hne : p ≠ [])
    (hpath : walk t.root p ≠ NULL) (hl : letters_ok t.root = true)
    (hh : height_le (MAX_WORD_LENGTH - 1) t.root = true) :
    (prepare_autocomplete p 1 t = [not_found] ↔ ∀ s, p <+: s → ¬ stored t s) ∧
    ((∃ s, p <+: s ∧ stored t s) →
      ∃ w, prepare_autocomplete p 1 t = [w] ∧ p <+: w ∧ stored t w ∧
        ∀ s, p <+: s → stored t s → s ≠ w → lex_lt w s) ∧
    (stored t p → prepare_autocomplete p 1 t = [p]) := by
  have hp1 : stored t p → prepare_autocomplete p 1 t = [p] := by
    intro hst
    have hd : prepare_autocomplete p 1 t = prepare_autocomplete_1 p (walk t.root p) := by
      simp [prepare_autocomplete, is_null_eq_false hpath]
    rw [hd]
    unfold prepare_autocomplete_1
    have hst2 : (walk t.root p).end_of_word > 0 := hst
    rw [if_pos hst2]
  refine ⟨?_, ?_, hp1⟩
  all_goals rw [prepare_autocomplete_1_eq t p hpath hl hh]
  all_goals
    have hmem := mem_entries_walk t p
    have hsort := entries_with_pfx_sorted (walk t.root p) p
    generalize hE : (sub_entries (walk t.root p)).map (fun x => (p ++ x.1, x.2)) = E
      at hmem hsort
    have hin : ∀ s, p <+: s → stored t s → (s, count t s) ∈ E := fun s h1 h2 =>
      (hmem s (count t s)).2 ⟨h1, walk_ne_null_of_stored h2, rfl⟩
  · rcases lx_fold_inv E with ⟨h1, h2⟩ | ⟨l1, x, l2, h1, h2, h3, h4⟩
    · rw [h1]
      have hno : ∀ s, p <+: s → ¬ stored t s := by
        intro s hs hst
        have := h2 _ (hin s hs hst)
        unfold stored at hst
        simp only at this
        omega
      exact ⟨fun _ => hno, fun _ => by simp⟩
    · rw [h4]
      have hxE : (x.1, x.2) ∈ E := by rw [h1]; simp
      obtain ⟨hp2, _, hc2⟩ := (hmem x.1 x.2).1 hxE
      have hst2 : stored t x.1 := by unfold stored; rw [hc2]; exact h2
      constructor
      · intro h0
        simp only [one_ne_zero, if_false, List.cons.injEq, and_true] at h0
        exact absurd h0 (stored_ne_not_found hst2)
      · intro h0
        exact absurd hst2 (h0 x.1 hp2)
  · rintro ⟨s0, hs0, hst0⟩
    rcases lx_fold_inv E with ⟨h1, h2⟩ | ⟨l1, x, l2, h1, h2, h3, h4⟩
    · have := h2 _ (hin s0 hs0 hst0)
      unfold stored at hst0
      simp only at this
      omega
    · rw [h4]
      have hxE : (x.1, x.2) ∈ E := by rw [h1]; simp
      obtain ⟨hp2, _, hc2⟩ := (hmem x.1 x.2).1 hxE
      have hst2 : stored t x.1 := by unfold stored; rw [hc2]; exact h2
      refine ⟨x.1, by simp, hp2, hst2, ?_⟩
      intro s hs hst hne
      have hsE := hin s hs hst
      have hpos : 0 < count t s := hst
      rw [h1] at hsE hsort
      simp only [List.mem_append, List.mem_cons] at hsE
      rw [List.pairwise_append] at hsort
      rcases hsE with hsE | hsE | hsE
      · have := h3 _ hsE
        simp only at this
        omega
      · exact absurd (congrArg Prod.fst hsE) hne
      · exact (List.pairwise_cons.1 hsort.2.1).1 _ hsE

theorem first_lexico_completion_witness :
    prepare_autocomplete "do".toList 1 (trie_of ["do", "dog", "dot"]) = ["do".toList] ∧
    stored (trie_of ["do", "dog", "dot"]) "do".toList :=
  ⟨(first_lexico_completion (trie_of ["do", "dog", "dot"]) "do".toList (by decide)
      (ne_null_of_is_null (by decide)) (by decide) (by decide)).2.2 (by decide),
    by decide⟩

theorem ac_fold (a : Int × List (List Char)) (L : List (List Char)) :
    L.foldl ac_step a = (if L = [] then a.1 else 1, a.2 ++ L) := by
  induction L generalizing a with
  | nil => simp
  | cons s L ih =>
    rw [List.foldl_cons, ih]
    simp only [ac_step, List.append_assoc, List.singleton_append]
    by_cases hL : L = [] <;> simp [hL]

theorem cstr_drop (word : List Char) (d : Nat) (h : d < strlen word) :
    (cstr word).drop d = buf_read word d :: (cstr word).drop (d + 1) := by
  unfold strlen at h
  rw [List.drop_eq_getElem_cons h]
  congr 1
  have hp : cstr word <+: word := List.takeWhile_prefix _
  have hlt : d < word.length := lt_of_lt_of_le h hp.length_le
  rw [hp.getElem h]
  simp [buf_read, List.getD_eq_getElem?_getD, List.getElem?_eq_getElem hlt]

theorem ac_qual_false_of_length (w : List Char) (k : Int) (d : Nat) (diff : Int)
    (x : List Char × Int) (h : d + x.1.length ≠ w.length) : ac_qual w k d diff x = false := by
  unfold ac_qual
  rw [decide_eq_false h]
  simp

theorem ac_qual_false_of_count (w : List Char) (k : Int) (d : Nat) (diff : Int)
    (x : List Char × Int) (h : ¬ 0 < x.2) : ac_qual w k d diff x = false := by
  unfold ac_qual
  rw [decide_eq_false h]
  simp

theorem ac_qual_false_of_diff (w : List Char) (k : Int) (d : Nat) (diff : Int)
    (x : List Char × Int) (h : k < diff) : ac_qual w k d diff x = false := by
  unfold ac_qual
  have : ¬ (diff + (hamming x.1 (List.drop d w) : Int) ≤ k) := by omega
  rw [decide_eq_false this]
  simp

theorem ac_qual_cons (k : Int) (word : List Char) (d : Nat) (diff : Int) (c : Char)
    (x : List Char) (e : Int) :
    ac_qual (cstr word) k d diff (c :: x, e)
      = ac_qual (cstr word) k (d + 1)
          (if c ≠ buf_read word d then diff + 1 else diff) (x, e) := by
  by_cases hd : d < strlen word
  · unfold ac_qual
    rw [cstr_drop word d hd]
    simp only [List.length_cons, hamming]
    have e1 : decide (d + (x.length + 1) = (cstr word).length)
        = decide (d + 1 + x.length = (cstr word).length) :=
      decide_eq_decide.2 (by constructor <;> intro h <;> omega)
    have e2 : decide (diff + (((if c ≠ buf_read word d then 1 else 0)
          + hamming x (List.drop (d + 1) (cstr word)) : Nat) : Int) ≤ k)
        = decide ((if c ≠ buf_read word d then diff + 1 else diff)
          + (hamming x (List.drop (d + 1) (cstr word)) : Int) ≤ k) := by
      apply decide_eq_decide.2
      by_cases hc : c = buf_read word d
      · simp [hc]
      · simp only [ne_eq, hc, not_false_eq_true, if_true, Nat.cast_add, Nat.cast_one]
        constructor <;> intro h <;> omega
    rw [e1, e2]
  · unfold ac_qual
    unfold strlen at hd
    have h1 : decide (d + (c :: x, e).1.length = (cstr word).length) = false :=
      decide_eq_false (by simp only [List.length_cons]; omega)
    have h2 : decide (d + 1 + (x, e).1.length = (cstr word).length) = false :=
      decide_eq_false (by simp only; omega)
    rw [h1, h2]
    simp

theorem ac_entries_node (k : Int) (word : List Char) (d : Nat) (diff : Int)
    (l : Char) (e n : Int) (ch : Fin 26 → trie_node_t) (pre W : List Char)
    (hW : d < strlen word → W = pre)
    (hhead : ac_qual (cstr word) k d diff ([], e) = false) :
    ((sub_entries (node l e ch n)).filter (ac_qual (cstr word) k d diff)).map
        (fun x => pre ++ x.1)
      = (List.finRange 26).flatMap (fun i =>
          ((sub_entries (ch i)).filter (ac_qual (cstr word) k (d + 1)
            (if letter_of i ≠ buf_read word d then diff + 1 else diff))).map
              (fun x => W ++ letter_of i :: x.1)) := by
  simp only [sub_entries, List.filter_cons, hhead, Bool.false_eq_true, if_false,
    List.filter_flatMap, List.map_flatMap]
  apply List.flatMap_congr
  intro i _
  rw [List.filter_map, List.map_map]
  have hf : (ac_qual (cstr word) k d diff ∘ fun x : List Char × Int => (letter_of i :: x.1, x.2))
      = ac_qual (cstr word) k (d + 1)
          (if letter_of i ≠ buf_read word d then diff + 1 else diff) := by
    funext x
    exact ac_qual_cons k word d diff (letter_of i) x.1 x.2
  rw [hf]
  by_cases hd : d < strlen word
  · rw [hW hd]
    apply List.map_congr_left
    intro x _
    simp
  · have hnil : (sub_entries (ch i)).filter (ac_qual (cstr word) k (d + 1)
        (if letter_of i ≠ buf_read word d then diff + 1 else diff)) = [] := by
      rw [List.filter_eq_nil_iff]
      intro x _
      unfold ac_qual
      unfold strlen at hd
      have h2 : ¬ (d + 1 + x.1.length = (cstr word).length) := by omega
      simp [h2]
    rw [hnil]
    rfl

theorem ac_loop (k : Int) (word : List Char) (l : Char) (e n : Int)
    (ch : Fin 26 → trie_node_t) (hrec : ∀ i, ac_spec k word (ch i)) (d : Nat) (diff : Int)
    (st : autocorrect_state) (hl : letters_ok (node l e ch n) = true)
    (h1 : strlen word ≤ st.new_word.length) :
    ((List.finRange 26).foldl (fun s i =>
      if (ch i).is_null then s
      else if (ch i).letter ≠ buf_read word d then
        autocorrect k word (ch i) false (diff + 1) (d + 1) s
      else autocorrect k word (ch i) false diff (d + 1) s) st).new_word.length
        = st.new_word.length ∧
    ((List.finRange 26).foldl (fun s i =>
      if (ch i).is_null then s
      else if (ch i).letter ≠ buf_read word d then
        autocorrect k word (ch i) false (diff + 1) (d + 1) s
      else autocorrect k word (ch i) false diff (d + 1) s) st).new_word.take d
        = st.new_word.take d ∧
    ac_abs ((List.finRange 26).foldl (fun s i =>
      if (ch i).is_null then s
      else if (ch i).letter ≠ buf_read word d then
        autocorrect k word (ch i) false (diff + 1) (d + 1) s
      else autocorrect k word (ch i) false diff (d + 1) s) st)
      = ((List.finRange 26).flatMap (fun i =>
          ((sub_entries (ch i)).filter (ac_qual (cstr word) k (d + 1)
            (if letter_of i ≠ buf_read word d then diff + 1 else diff))).map
              (fun x => st.new_word.take d ++ letter_of i :: x.1))).foldl
          ac_step (ac_abs st) := by
  have key := foldl_refine
    (fun s i => if (ch i).is_null then s
      else if (ch i).letter ≠ buf_read word d then
        autocorrect k word (ch i) false (diff + 1) (d + 1) s
      else autocorrect k word (ch i) false diff (d + 1) s)
    (fun a i => (((sub_entries (ch i)).filter (ac_qual (cstr word) k (d + 1)
            (if letter_of i ≠ buf_read word d then diff + 1 else diff))).map
              (fun x => st.new_word.take d ++ letter_of i :: x.1)).foldl ac_step a)
    ac_abs
    (fun s => s.new_word.length = st.new_word.length ∧
      s.new_word.take d = st.new_word.take d)
    (List.finRange 26) st ⟨rfl, rfl⟩
    (by
      intro s i _ hs
      obtain ⟨hs1, hs3⟩ := hs
      by_cases hn : (ch i).is_null = true
      · simp only [hn, if_true, sub_entries_of_is_null hn, List.filter_nil, List.map_nil,
          List.foldl_nil, and_true]
        exact ⟨hs1, hs3⟩
      · have hne : ch i ≠ NULL := fun h0 => hn ((is_null_iff _).2 h0)
        obtain ⟨hli, hlet⟩ := letters_ok_child hl i
        have hlett := hlet hne
        simp only [hn, Bool.false_eq_true, if_false, hlett]
        by_cases hc : letter_of i ≠ buf_read word d
        · have r := hrec i (d + 1) (diff + 1) s hli (by omega) (by rw [hs1]; exact h1)
          simp only [Nat.add_sub_cancel] at r
          rw [if_pos hc, if_pos hc]
          refine ⟨⟨by rw [r.1, hs1], by rw [r.2.1, hs3]⟩, ?_⟩
          rw [r.2.2, hs3, hlett]
        · have r := hrec i (d + 1) diff s hli (by omega) (by rw [hs1]; exact h1)
          simp only [Nat.add_sub_cancel] at r
          rw [if_neg hc, if_neg hc]
          refine ⟨⟨by rw [r.1, hs1], by rw [r.2.1, hs3]⟩, ?_⟩
          rw [r.2.2, hs3, hlett])
  refine ⟨key.1.1, key.1.2, ?_⟩
  rw [key.2, foldl_flatMap_eq]

theorem ac_node (k : Int) (word : List Char) (nd : trie_node_t) : ac_spec k word nd := by
  induction nd with
  | NULL =>
    intro d diff st _ _ _
    simp [autocorrect, sub_entries]
  | node l e ch n ih =>
    intro d diff st hl hd h1
    obtain ⟨m, rfl⟩ : ∃ m, d = m + 1 := ⟨d - 1, by omega⟩
    simp only [Nat.add_sub_cancel]
    have hmap : ∀ L : List (List Char × Int),
        L.map (fun x => st.new_word.take m ++ (node l e ch n).letter :: x.1)
          = L.map (fun x => (st.new_word.take m ++ [l]) ++ x.1) := by
      intro L
      apply List.map_congr_left
      intro x _
      simp [letter]
    rw [hmap]
    by_cases hdiff : diff > k
    · have hres : autocorrect k word (node l e ch n) false diff (m + 1) st = st := by
        simp only [autocorrect, Bool.not_false, Bool.true_and, decide_eq_true_eq, if_pos hdiff]
      rw [hres]
      have hnil : (sub_entries (node l e ch n)).filter (ac_qual (cstr word) k (m + 1) diff)
          = [] := by
        rw [List.filter_eq_nil_iff]
        intro x _
        rw [ac_qual_false_of_diff _ _ _ _ _ (by omega)]
        simp
      rw [hnil]
      exact ⟨rfl, rfl, rfl⟩
    · by_cases hend : m + 1 = strlen word ∧ e > 0
      · have hres : autocorrect k word (node l e ch n) false diff (m + 1) st =
            { new_word := st.new_word.set m l, printed := 1,
              out := st.out ++ [(st.new_word.set m l).take (strlen word)] } := by
          simp only [autocorrect, Bool.not_false, Bool.true_and, decide_eq_true_eq,
            if_neg hdiff, Bool.false_eq_true, if_false, Nat.add_sub_cancel,
            Bool.and_eq_true, if_pos hend]
        rw [hres]
        have htake : (st.new_word.set m l).take (strlen word) = st.new_word.take m ++ [l] := by
          rw [← hend.1, take_succ_set _ _ _ (by omega)]
        refine ⟨by simp, take_set_of_le _ _ (le_refl _), ?_⟩
        have hfil : (sub_entries (node l e ch n)).filter (ac_qual (cstr word) k (m + 1) diff)
            = [([], e)] := by
          simp only [sub_entries, List.filter_cons]
          have hq : ac_qual (cstr word) k (m + 1) diff ([], e) = true := by
            unfold ac_qual
            have h3 : m + 1 + ([] : List Char).length = (cstr word).length := by
              simpa [strlen] using hend.1
            have h4 : diff + ((hamming [] (List.drop (m + 1) (cstr word)) : Nat) : Int) ≤ k := by
              simp [hamming]; omega
            have h5 : 0 < (([] : List Char), e).2 := hend.2
            rw [decide_eq_true h5, decide_eq_true h3, decide_eq_true h4]
            rfl
          rw [if_pos hq]
          congr 1
          rw [List.filter_eq_nil_iff]
          intro x hx
          simp only [List.mem_flatMap, List.mem_map] at hx
          obtain ⟨i, _, y, _, rfl⟩ := hx
          rw [ac_qual_false_of_length]
          · simp
          · have := hend.1
            unfold strlen at this
            simp only [List.length_cons]
            omega
        rw [hfil, htake]
        simp [ac_abs, ac_step]
      · have hres : autocorrect k word (node l e ch n) false diff (m + 1) st =
            (List.finRange 26).foldl (fun s i =>
              if (ch i).is_null then s
              else if (ch i).letter ≠ buf_read word (m + 1) then
                autocorrect k word (ch i) false (diff + 1) (m + 1 + 1) s
              else autocorrect k word (ch i) false diff (m + 1 + 1) s)
              { st with new_word := st.new_word.set m l } := by
          simp only [autocorrect, Bool.not_false, Bool.true_and, decide_eq_true_eq,
            if_neg hdiff, Bool.false_eq_true, if_false, Nat.add_sub_cancel,
            Bool.and_eq_true, if_neg hend]
        have hloop := ac_loop k word l e n ch ih (m + 1) diff
          { st with new_word := st.new_word.set m l } hl (by simpa using h1)
        rw [hres]
        have hhead : ac_qual (cstr word) k (m + 1) diff ([], e) = false := by
          by_cases h5 : m + 1 = strlen word
          · exact ac_qual_false_of_count _ _ _ _ _ (fun h0 => hend ⟨h5, h0⟩)
          · exact ac_qual_false_of_length _ _ _ _ _ (by simpa [strlen] using h5)
        have hent := ac_entries_node k word (m + 1) diff l e n ch (st.new_word.take m ++ [l])
          ((st.new_word.set m l).take (m + 1))
          (fun hlt => take_succ_set _ _ _ (by omega)) hhead
        refine ⟨by simpa using hloop.1, ?_, ?_⟩
        · have := congrArg (List.take m) hloop.2.1
          simp only [List.take_take] at this
          rw [Nat.min_eq_left (Nat.le_succ m)] at this
          rw [this]
          exact take_set_of_le _ _ (le_refl _)
        · rw [hloop.2.2, hent]
          rfl

/-- The result of the call of `autocorrect` on the root: the words of the trie
that pass `ac_qual` at depth 0, in depth-first order. -/
theorem ac_root (t : trie_t) (k : Int) (word : List Char)
    (hl : letters_ok t.root = true) (hpos : 0 < strlen word)
    (hlen : strlen word ≤ MAX_WORD_LENGTH) :
    ac_abs (run_autocorrect t k word)
      = (if (sub_entries t.root).filter (ac_qual (cstr word) k 0 0) = [] then 0 else 1,
          ((sub_entries t.root).filter (ac_qual (cstr word) k 0 0)).map (fun x => x.1)) := by
  unfold run_autocorrect
  cases hr : t.root with
  | NULL => simp [autocorrect, sub_entries, ac_abs]
  | node l e ch n =>
    rw [hr] at hl
    have hres : autocorrect k word (node l e ch n) true 0 0
          { new_word := zero_buffer, printed := 0, out := [] } =
        (List.finRange 26).foldl (fun s i =>
          if (ch i).is_null then s
          else if (ch i).letter ≠ buf_read word 0 then
            autocorrect k word (ch i) false (0 + 1) (0 + 1) s
          else autocorrect k word (ch i) false 0 (0 + 1) s)
          { new_word := zero_buffer, printed := 0, out := [] } := by
      simp only [autocorrect, Bool.not_true, Bool.false_and, Bool.false_eq_true, if_false,
        if_true]
    have hloop := ac_loop k word l e n ch (fun i => ac_node k word (ch i)) 0 0
      { new_word := zero_buffer, printed := 0, out := [] } hl
      (by simp only [length_zero_buffer]; exact hlen)
    have hhead : ac_qual (cstr word) k 0 0 ([], e) = false :=
      ac_qual_false_of_length _ _ _ _ _ (by simp only [strlen] at hpos; simp; omega)
    have hent := ac_entries_node k word 0 0 l e n ch [] [] (fun _ => rfl) hhead
    rw [hres, hloop.2.2]
    simp only [List.take_zero]
    rw [← hent, ac_fold]
    simp only [ac_abs, List.nil_append, List.map_eq_nil_iff]

theorem hamming_nil_right (s : List Char) : hamming s [] = 0 := by
  cases s <;> rfl

theorem mem_ac_words (t : trie_t) (k : Int) (w s : List Char) :
    s ∈ ((sub_entries t.root).filter (ac_qual w k 0 0)).map (fun x => x.1) ↔
      stored t s ∧ s.length = w.length ∧ (hamming s w : Int) ≤ k := by
  simp only [List.mem_map, List.mem_filter, Prod.exists, exists_and_right, exists_eq_right]
  constructor
  · rintro ⟨e, hmem, hq⟩
    obtain ⟨_, h2⟩ := (mem_sub_entries t.root s e).1 hmem
    unfold ac_qual at hq
    simp only [List.drop_zero, Bool.and_eq_true, decide_eq_true_eq, zero_add] at hq
    refine ⟨?_, hq.1.2, hq.2⟩
    unfold stored count
    rw [h2]
    exact hq.1.1
  · rintro ⟨h1, h2, h3⟩
    refine ⟨count t s, (mem_sub_entries t.root s _).2 ⟨walk_ne_null_of_stored h1, rfl⟩, ?_⟩
    unfold ac_qual
    simp only [List.drop_zero, Bool.and_eq_true, decide_eq_true_eq, zero_add]
    exact ⟨⟨h1, h2⟩, h3⟩

theorem cstr_query (w junk : List Char) (hw : lowercase w) :
    cstr (w ++ NUL :: junk) = w :=
  cstr_append_NUL w junk (NUL_not_mem_of_lowercase hw)

/-- C3. For every trie with the letter invariant, every `k` and every query
buffer that holds a non-empty lowercase word `w` shorter than
`MAX_WORD_LENGTH`, its terminator and anything after it: the words printed by
`autocorrect` are exactly the stored words of the length of `w` that differ
from `w` in at most `k` positions, and `prepare_autocorrect` prints the
not-found line exactly when there is no such word (otherwise it prints these
words and nothing else). -/
theorem autocorrect_reports (t : trie_t) (k : Int) (w junk : List Char)
    (hw : lowercase w) (hne : w ≠ []) (hlen : w.length < MAX_WORD_LENGTH)
    (hl : letters_ok t.root = true) :
    (∀ s, s ∈ (run_autocorrect t k (w ++ NUL :: junk)).out ↔
      stored t s ∧ s.length = w.length ∧ (hamming s w : Int) ≤ k) ∧
    (prepare_autocorrect t k (w ++ NUL :: junk) = [not_found] ↔
      ∀ s, ¬ (stored t s ∧ s.length = w.length ∧ (hamming s w : Int) ≤ k)) ∧
    ((∃ s, stored t s ∧ s.length = w.length ∧ (hamming s w : Int) ≤ k) →
      prepare_autocorrect t k (w ++ NUL :: junk)
        = (run_autocorrect t k (w ++ NUL :: junk)).out) := by
  have hc := cstr_query w junk hw
  have hs : strlen (w ++ NUL :: junk) = w.length := by unfold strlen; rw [hc]
  have hpos : 0 < strlen (w ++ NUL :: junk) := by
    rw [hs]; exact List.length_pos.2 hne
  have hroot := ac_root t k (w ++ NUL :: junk) hl hpos (by rw [hs]; omega)
  rw [hc] at hroot
  have hmem := mem_ac_words t k w
  generalize hL : (sub_entries t.root).filter (ac_qual w k 0 0) = L at hroot hmem
  have hout : (run_autocorrect t k (w ++ NUL :: junk)).out = L.map (fun x => x.1) :=
    congrArg Prod.snd hroot
  have hpr : (run_autocorrect t k (w ++ NUL :: junk)).printed = if L = [] then 0 else 1 :=
    congrArg Prod.fst hroot
  have hprep : prepare_autocorrect t k (w ++ NUL :: junk)
      = if L = [] then [not_found] else L.map (fun x => x.1) := by
    unfold prepare_autocorrect
    simp only [hpr, hout]
    by_cases hLn : L = []
    · simp [hLn]
    · simp [hLn]
  refine ⟨fun s => by rw [hout]; exact hmem s, ?_, ?_⟩
  · rw [hprep]
    constructor
    · intro h0 s hs0
      by_cases hLn : L = []
      · have := (hmem s).2 hs0
        rw [hLn] at this
        simp at this
      · rw [if_neg hLn] at h0
        have hin : not_found ∈ L.map (fun x => x.1) := by rw [h0]; simp
        exact stored_ne_not_found ((hmem _).1 hin).1 rfl
    · intro h0
      have hLn : L = [] := by
        cases hL2 : L with
        | nil => rfl
        | cons x L2 =>
          exfalso
          apply h0 x.1
          apply (hmem x.1).1
          rw [hL2]
          simp
      rw [if_pos hLn]
  · rintro ⟨s, hs0⟩
    rw [hprep, hout]
    have hin := (hmem s).2 hs0
    have hLn : L ≠ [] := by
      intro h0
      rw [h0] at hin
      simp at hin
    rw [if_neg hLn]

theorem autocorrect_reports_witness :
    prepare_autocorrect (trie_of ["bat", "cot", "cats", "at"]) 1
      ("cat".toList ++ NUL :: "xy".toList) = ["bat".toList, "cot".toList] ∧
    (∀ s, s ∈ (run_autocorrect (trie_of ["bat", "cot", "cats", "at"]) 1
        ("cat".toList ++ NUL :: "xy".toList)).out ↔
      stored (trie_of ["bat", "cot", "cats", "at"]) s ∧ s.length = "cat".toList.length ∧
        (hamming s "cat".toList : Int) ≤ 1) :=
  ⟨by decide,
    (autocorrect_reports (trie_of ["bat", "cot", "cats", "at"]) 1 "cat".toList "xy".toList
      (by decide) (by decide) (by decide) (by decide)).1⟩

theorem letters_ok_node_iff (l : Char) (e n : Int) (ch : Fin 26 → trie_node_t) :
    letters_ok (node l e ch n) = true ↔
      ∀ i, (ch i = NULL ∨ (ch i).letter = letter_of i) ∧ letters_ok (ch i) = true := by
  simp only [letters_ok, List.all_eq_true, Bool.and_eq_true, Bool.or_eq_true,
    decide_eq_true_eq, List.mem_finRange, true_implies, is_null_iff]

theorem height_le_node_iff (h : Nat) (l : Char) (e n : Int) (ch : Fin 26 → trie_node_t) :
    height_le h (node l e ch n) = true ↔
      ∀ i, ch i = NULL ∨ (0 < h ∧ height_le (h - 1) (ch i) = true) := by
  simp only [height_le, List.all_eq_true, Bool.and_eq_true, Bool.or_eq_true,
    decide_eq_true_eq, List.mem_finRange, true_implies, is_null_iff]

theorem count_ok_node_iff (l : Char) (e n : Int) (ch : Fin 26 → trie_node_t) :
    count_ok (node l e ch n) = true ↔
      n = (live_children ch : Int) ∧ ∀ i, count_ok (ch i) = true := by
  simp only [count_ok, List.all_eq_true, Bool.and_eq_true, decide_eq_true_eq,
    List.mem_finRange, true_implies]

theorem set_child_apply (ch : Fin 26 → trie_node_t) (j0 : Fin 26) (v : trie_node_t)
    (j : Fin 26) : set_child ch (j0.val : Int) v j = if j = j0 then v else ch j := by
  unfold set_child
  by_cases h : j = j0
  · simp [h]
  · have : ¬ ((j.val : Int) = (j0.val : Int)) := by
      intro h0
      apply h
      apply Fin.ext
      omega
    simp [h, this]

theorem countP_update {ι : Type} [DecidableEq ι] (p q : ι → Bool) (j0 : ι)
    (hpq : ∀ j, j ≠ j0 → q j = p j) :
    ∀ L : List ι, L.Nodup → j0 ∈ L →
      L.countP q + (if p j0 then 1 else 0) = L.countP p + (if q j0 then 1 else 0) := by
  have hnot : ∀ L : List ι, j0 ∉ L → L.countP q = L.countP p := by
    intro L hL
    apply List.countP_congr
    intro x hx
    have : x ≠ j0 := fun h0 => hL (h0 ▸ hx)
    rw [hpq x this]
  intro L
  induction L with
  | nil => intro _ h; simp at h
  | cons a L ih =>
    intro hnd hmem
    rw [List.nodup_cons] at hnd
    by_cases ha : a = j0
    · subst ha
      rw [List.countP_cons, List.countP_cons, hnot L hnd.1]
      omega
    · have hmem2 : j0 ∈ L := by
        rcases List.mem_cons.1 hmem with h | h
        · exact absurd h.symm ha
        · exact h
      have := ih hnd.2 hmem2
      rw [List.countP_cons, List.countP_cons, hpq a ha]
      omega

theorem live_children_set_child (ch : Fin 26 → trie_node_t) (j0 : Fin 26) (v : trie_node_t) :
    live_children (set_child ch (j0.val : Int) v) + (if (ch j0).is_null then 0 else 1)
      = live_children ch + (if v.is_null then 0 else 1) := by
  unfold live_children
  rw [← List.countP_eq_length_filter, ← List.countP_eq_length_filter]
  have key := countP_update (fun i => !(ch i).is_null)
    (fun i => !(set_child ch (j0.val : Int) v i).is_null) j0
    (by intro j hj; simp only [set_child_apply, if_neg hj])
    (List.finRange 26) (List.nodup_finRange 26) (List.mem_finRange j0)
  have hq : set_child ch (j0.val : Int) v j0 = v := by
    rw [set_child_apply, if_pos rfl]
  simp only [hq] at key
  cases h1 : (ch j0).is_null <;> cases h2 : v.is_null <;>
    simp only [h1, h2, Bool.not_true, Bool.not_false, Bool.false_eq_true, if_false,
      if_true] at key ⊢ <;> omega

theorem letter_insert_loop (nd : trie_node_t) (w : List Char) :
    (insert_loop nd w).letter = nd.letter := by
  cases nd with
  | NULL => cases w <;> rfl
  | node l e ch n =>
    cases w with
    | nil => rfl
    | cons c cs =>
      unfold insert_loop
      split <;> rfl

theorem count_ok_create_node (c : Char) : count_ok (create_node c) = true := by
  rw [create_node, count_ok_node_iff]
  refine ⟨?_, fun _ => rfl⟩
  decide

theorem letters_ok_create_node (c : Char) : letters_ok (create_node c) = true := by
  rw [create_node, letters_ok_node_iff]
  exact fun _ => ⟨Or.inl rfl, rfl⟩

theorem height_le_create_node (h : Nat) (c : Char) : height_le h (create_node c) = true := by
  rw [create_node, height_le_node_iff]
  exact fun _ => Or.inl rfl

theorem exists_fin_of_range {i : Int} (h : 0 ≤ i ∧ i < 26) :
    ∃ j : Fin 26, (j.val : Int) = i :=
  ⟨⟨i.toNat, by omega⟩, by simp only; omega⟩

theorem child_coe (ch : Fin 26 → trie_node_t) (j : Fin 26) : child ch (j.val : Int) = ch j := by
  unfold child
  have h : 0 ≤ (j.val : Int) ∧ (j.val : Int) < 26 := by
    have := j.isLt
    omega
  rw [dif_pos h]
  congr

/-- `insert_word` keeps the children-count invariant. -/
theorem count_ok_insert_loop (w : List Char) (hw : lowercase w) :
    ∀ nd : trie_node_t, count_ok nd = true → count_ok (insert_loop nd w) = true := by
  induction w with
  | nil =>
    intro nd h
    cases nd with
    | NULL => rfl
    | node l e ch n =>
      rw [count_ok_node_iff] at h
      simp only [insert_loop]
      rw [count_ok_node_iff]
      exact h
  | cons c cs ih =>
    intro nd h
    have hc : is_letter c := hw c (List.mem_cons_self _ _)
    have hcs : lowercase cs := fun d hd => hw d (List.mem_cons_of_mem _ hd)
    obtain ⟨j0, hj0⟩ := exists_fin_of_range (idx_range hc)
    cases nd with
    | NULL => rfl
    | node l e ch n =>
      rw [count_ok_node_iff] at h
      unfold insert_loop
      rw [← hj0, child_coe]
      split
      · rename_i hnull
        rw [count_ok_node_iff]
        have hv : (insert_loop (create_node c) cs).is_null = false :=
          is_null_eq_false (insert_loop_ne_null _ _ (by simp [create_node]))
        have hlive := live_children_set_child ch j0 (insert_loop (create_node c) cs)
        rw [hnull, hv] at hlive
        simp only [if_true, Bool.false_eq_true, if_false] at hlive
        refine ⟨by rw [h.1]; omega, ?_⟩
        intro i
        rw [set_child_apply]
        split
        · exact ih hcs _ (count_ok_create_node c)
        · exact h.2 i
      · rename_i hnull
        rw [count_ok_node_iff]
        have hne : ch j0 ≠ NULL := fun h0 => hnull ((is_null_iff _).2 h0)
        have hv : (insert_loop (ch j0) cs).is_null = false :=
          is_null_eq_false (insert_loop_ne_null _ _ hne)
        have hlive := live_children_set_child ch j0 (insert_loop (ch j0) cs)
        rw [is_null_eq_false hne, hv] at hlive
        simp only [Bool.false_eq_true, if_false] at hlive
        refine ⟨by rw [h.1]; omega, ?_⟩
        intro i
        rw [set_child_apply]
        split
        · exact ih hcs _ (h.2 j0)
        · exact h.2 i

/-- `insert_word` keeps the letter invariant. -/
theorem letters_ok_insert_loop (w : List Char) (hw : lowercase w) :
    ∀ nd : trie_node_t, letters_ok nd = true → letters_ok (insert_loop nd w) = true := by
  induction w with
  | nil =>
    intro nd h
    cases nd with
    | NULL => rfl
    | node l e ch n =>
      rw [letters_ok_node_iff] at h
      simp only [insert_loop]
      rw [letters_ok_node_iff]
      exact h
  | cons c cs ih =>
    intro nd h
    have hc : is_letter c := hw c (List.mem_cons_self _ _)
    have hcs : lowercase cs := fun d hd => hw d (List.mem_cons_of_mem _ hd)
    obtain ⟨j0, hj0⟩ := exists_fin_of_range (idx_range hc)
    have hcl : c = letter_of j0 := by
      apply idx_inj
      rw [idx_letter_of, hj0]
    cases nd with
    | NULL => rfl
    | node l e ch n =>
      rw [letters_ok_node_iff] at h
      unfold insert_loop
      rw [← hj0, child_coe]
      split
      · rw [letters_ok_node_iff]
        intro i
        rw [set_child_apply]
        split
        · rename_i hi
          subst hi
          refine ⟨Or.inr ?_, ih hcs _ (letters_ok_create_node c)⟩
          rw [letter_insert_loop, ← hcl]
          rfl
        · exact h i
      · rename_i hnull
        have hne : ch j0 ≠ NULL := fun h0 => hnull ((is_null_iff _).2 h0)
        rw [letters_ok_node_iff]
        intro i
        rw [set_child_apply]
        split
        · rename_i hi
          subst hi
          refine ⟨Or.inr ?_, ih hcs _ (h i).2⟩
          rw [letter_insert_loop]
          rcases (h i).1 with h1 | h1
          · exact absurd h1 hne
          · exact h1
        · exact h i

/-- `insert_word` of a word of at most `h` letters keeps the bound `h` on the
height. -/
theorem height_le_insert_loop (w : List Char) (hw : lowercase w) :
    ∀ (nd : trie_node_t) (h : Nat), height_le h nd = true → w.length ≤ h →
      height_le h (insert_loop nd w) = true := by
  induction w with
  | nil =>
    intro nd h hh _
    cases nd with
    | NULL => rfl
    | node l e ch n =>
      rw [height_le_node_iff] at hh
      simp only [insert_loop]
      rw [height_le_node_iff]
      exact hh
  | cons c cs ih =>
    intro nd h hh hlen
    have hc : is_letter c := hw c (List.mem_cons_self _ _)
    have hcs : lowercase cs := fun d hd => hw d (List.mem_cons_of_mem _ hd)
    obtain ⟨j0, hj0⟩ := exists_fin_of_range (idx_range hc)
    simp only [List.length_cons] at hlen
    cases nd with
    | NULL => rfl
    | node l e ch n =>
      rw [height_le_node_iff] at hh
      unfold insert_loop
      rw [← hj0, child_coe]
      split
      · rw [height_le_node_iff]
        intro i
        rw [set_child_apply]
        split
        · exact Or.inr ⟨by omega, ih hcs _ _ (height_le_create_node _ c) (by omega)⟩
        · exact hh i
      · rename_i hnull
        have hne : ch j0 ≠ NULL := fun h0 => hnull ((is_null_iff _).2 h0)
        rw [height_le_node_iff]
        intro i
        rw [set_child_apply]
        split
        · rename_i hi
          subst hi
          rcases hh i with h1 | h1
          · exact absurd h1 hne
          · exact Or.inr ⟨h1.1, ih hcs _ _ h1.2 (by omega)⟩
        · exact hh i

theorem letter_modify_at (f : trie_node_t → trie_node_t)
    (hf : ∀ nd, (f nd).letter = nd.letter) (nd : trie_node_t) (p : List Char) :
    (modify_at f nd p).letter = nd.letter := by
  cases nd with
  | NULL => cases p <;> rfl
  | node l e ch n =>
    cases p with
    | nil => exact hf _
    | cons c cs => rfl

theorem modify_at_NULL (f : trie_node_t → trie_node_t) (p : List Char) :
    modify_at f NULL p = NULL := by
  cases p <;> rfl

/-- A change made in place at the end of a path keeps the letter invariant
when the change itself keeps it and keeps the letter of the node. -/
theorem letters_ok_modify_at (f : trie_node_t → trie_node_t)
    (hf1 : ∀ nd, (f nd).letter = nd.letter)
    (hf2 : ∀ nd, letters_ok nd = true → letters_ok (f nd) = true) (p : List Char) :
    ∀ nd : trie_node_t, letters_ok nd = true → letters_ok (modify_at f nd p) = true := by
  induction p with
  | nil =>
    intro nd h
    cases nd with
    | NULL => rfl
    | node l e ch n => exact hf2 _ h
  | cons c cs ih =>
    intro nd h
    cases nd with
    | NULL => rfl
    | node l e ch n =>
      simp only [modify_at]
      by_cases hr : 0 ≤ idx c ∧ idx c < 26
      · obtain ⟨j0, hj0⟩ := exists_fin_of_range hr
        rw [← hj0, child_coe]
        rw [letters_ok_node_iff] at h ⊢
        intro i
        rw [set_child_apply]
        split
        · rename_i hi
          subst hi
          refine ⟨?_, ih _ (h i).2⟩
          rcases (h i).1 with h1 | h1
          · left; rw [h1, modify_at_NULL]
          · right; rw [letter_modify_at f hf1, h1]
        · exact h i
      · rw [set_child_out_of_range _ _ _ hr]
        rw [letters_ok_node_iff] at h ⊢
        exact h

/-- A change made in place at the end of a path keeps a bound on the height
when the change itself keeps it. -/
theorem height_le_modify_at (f : trie_node_t → trie_node_t)
    (hf : ∀ h nd, height_le h nd = true → height_le h (f nd) = true) (p : List Char) :
    ∀ (nd : trie_node_t) (h : Nat), height_le h nd = true →
      height_le h (modify_at f nd p) = true := by
  induction p with
  | nil =>
    intro nd h hh
    cases nd with
    | NULL => rfl
    | node l e ch n => exact hf _ _ hh
  | cons c cs ih =>
    intro nd h hh
    cases nd with
    | NULL => rfl
    | node l e ch n =>
      simp only [modify_at]
      by_cases hr : 0 ≤ idx c ∧ idx c < 26
      · obtain ⟨j0, hj0⟩ := exists_fin_of_range hr
        rw [← hj0, child_coe]
        rw [height_le_node_iff] at hh ⊢
        intro i
        rw [set_child_apply]
        split
        · rename_i hi
          subst hi
          rcases hh i with h1 | h1
          · left; rw [h1, modify_at_NULL]
          · right; exact ⟨h1.1, ih _ _ h1.2⟩
        · exact hh i
      · rw [set_child_out_of_range _ _ _ hr]
        rw [height_le_node_iff] at hh ⊢
        exact hh

theorem letter_clear_end_of_word (nd : trie_node_t) :
    (clear_end_of_word nd).letter = nd.letter := by
  cases nd <;> rfl

theorem letters_ok_clear_end_of_word (nd : trie_node_t) (h : letters_ok nd = true) :
    letters_ok (clear_end_of_word nd) = true := by
  cases nd with
  | NULL => rfl
  | node l e ch n =>
    rw [letters_ok_node_iff] at h
    simp only [clear_end_of_word]
    rw [letters_ok_node_iff]
    exact h

theorem height_le_clear_end_of_word (h : Nat) (nd : trie_node_t)
    (hh : height_le h nd = true) : height_le h (clear_end_of_word nd) = true := by
  cases nd with
  | NULL => rfl
  | node l e ch n =>
    rw [height_le_node_iff] at hh
    simp only [clear_end_of_word]
    rw [height_le_node_iff]
    exact hh

theorem lowercase_append {u v : List Char} (hu : lowercase u) (hv : lowercase v) :
    lowercase (u ++ v) := by
  intro c hc
  rcases List.mem_append.1 hc with h | h
  · exact hu c h
  · exact hv c h

theorem n_children_pos_of_walk {nd : trie_node_t} (hok : count_ok nd = true) {c : Char}
    {cs : List Char} (h : walk nd (c :: cs) ≠ NULL) : 0 < nd.n_children := by
  by_contra hn
  exact h (walk_leaf nd hok hn c cs)

theorem count_insert_word_eq (t : trie_t) (w s : List Char) (hroot : t.root ≠ NULL)
    (hw : lowercase w) :
    count (insert_word t w) s = if s = w then int_incr (count t s) else count t s := by
  by_cases hs : s = w
  · rw [if_pos hs, hs]
    exact (walk_insert_loop_same w hw t.root hroot).2
  · rw [if_neg hs]
    exact walk_insert_loop_other w t.root s hs

/-- After `insert u; insert u ++ v; remove u` on the new trie, mode 1 on `u`
prints `u ++ v`. -/
theorem autocomplete_after_remove_of_prefix_word (u v : List Char) (hu : lowercase u)
    (hv : lowercase v) (hv0 : v ≠ []) (hlen : (u ++ v).length < MAX_WORD_LENGTH) :
    prepare_autocomplete u 1
      (remove_word (insert_word (insert_word create_trie u) (u ++ v)) u).1 = [u ++ v] := by
  have huv := lowercase_append hu hv
  have hlen2 : u.length + v.length < MAX_WORD_LENGTH := by simpa using hlen
  have hr0 : create_trie.root ≠ NULL := by simp [create_trie, create_node]
  have hr1 : (insert_word create_trie u).root ≠ NULL := insert_loop_ne_null _ _ hr0
  -- the trie before the removal
  obtain ⟨t2, ht2⟩ : ∃ t2, t2 = insert_word (insert_word create_trie u) (u ++ v) := ⟨_, rfl⟩
  have hok2 : count_ok t2.root = true := by
    rw [ht2]
    exact count_ok_insert_loop _ huv _ (count_ok_insert_loop _ hu _ (count_ok_create_node _))
  have hl2 : letters_ok t2.root = true := by
    rw [ht2]
    exact letters_ok_insert_loop _ huv _
      (letters_ok_insert_loop _ hu _ (letters_ok_create_node _))
  have hh2 : height_le (MAX_WORD_LENGTH - 1) t2.root = true := by
    rw [ht2]
    exact height_le_insert_loop _ huv _ _
      (height_le_insert_loop _ hu _ _ (height_le_create_node _ _) (by omega))
      (by simp only [List.length_append]; omega)
  have hcount2 : ∀ s, count t2 s = (if s = u then 1 else 0) + (if s = u ++ v then 1 else 0) := by
    intro s
    have hc0 : count create_trie s = 0 := walk_create_node _ s
    have hne : u ≠ u ++ v := by
      intro h0
      have := congrArg List.length h0
      simp only [List.length_append] at this
      have := List.length_pos.2 hv0
      omega
    rw [ht2, count_insert_word_eq _ _ _ hr1 huv, count_insert_word_eq _ _ _ hr0 hu, hc0]
    by_cases h1 : s = u
    · subst h1
      rw [if_neg hne, if_pos rfl, if_pos rfl, if_neg hne, int_incr_zero]
      rfl
    · by_cases h2 : s = u ++ v
      · rw [if_pos h2, if_neg h1, if_neg h1, if_pos h2, int_incr_zero]
        rfl
      · rw [if_neg h2, if_neg h1, if_neg h1, if_neg h2]
        rfl
  have hpathuv : walk t2.root (u ++ v) ≠ NULL := by
    rw [ht2]
    exact (walk_insert_loop_same (u ++ v) huv _ hr1).1
  have hpathu : walk t2.root u ≠ NULL := walk_prefix_ne_null hpathuv
  have hch : 0 < (walk t2.root u).n_children := by
    obtain ⟨c, cs, rfl⟩ := List.exists_cons_of_ne_nil hv0
    rw [walk_append] at hpathuv
    exact n_children_pos_of_walk (count_ok_walk u _ hok2) hpathuv
  rw [← ht2, remove_word_of_children t2 u hpathu hch]
  simp only
  -- the trie after the removal
  obtain ⟨t3, ht3⟩ : ∃ t3 : trie_t, t3 = { root := modify_at clear_end_of_word t2.root u } :=
    ⟨_, rfl⟩
  rw [← ht3]
  have hl3 : letters_ok t3.root = true := by
    rw [ht3]
    exact letters_ok_modify_at _ letter_clear_end_of_word letters_ok_clear_end_of_word u _ hl2
  have hh3 : height_le (MAX_WORD_LENGTH - 1) t3.root = true := by
    rw [ht3]
    exact height_le_modify_at _ height_le_clear_end_of_word u _ _ hh2
  have hf3 := fun s => fields_walk_clear t2.root u s hpathu
  have hpath3 : walk t3.root u ≠ NULL := by
    rw [ht3]
    intro h0
    have h1 := hf3 u
    rw [if_pos rfl] at h1
    simp only at h0
    rw [h0] at h1
    cases hw : walk t2.root u with
    | NULL => exact hpathu hw
    | node _ _ _ _ => rw [hw] at h1; simp [fields] at h1
  have hcount3 : ∀ s, count t3 s = if s = u ++ v then 1 else 0 := by
    intro s
    have h1 := hf3 s
    have hne : u ≠ u ++ v := by
      intro h0
      have := congrArg List.length h0
      simp only [List.length_append] at this
      have := List.length_pos.2 hv0
      omega
    by_cases hs : s = u
    · rw [if_pos hs] at h1
      have : count t3 s = 0 := by
        unfold count
        rw [ht3]
        simp only
        cases hw : walk t2.root u with
        | NULL => exact absurd hw hpathu
        | node l e ch n =>
          rw [hw] at h1
          cases hx : walk (modify_at clear_end_of_word t2.root u) s with
          | NULL => rfl
          | node l2 e2 ch2 n2 =>
            rw [hx] at h1
            have := congrArg (fun o => o.map (fun x => x.2.1)) h1
            simpa [fields, end_of_word] using this
      rw [this, hs, if_neg hne]
    · rw [if_neg hs] at h1
      have : count t3 s = count t2 s := by
        unfold count
        rw [ht3]
        exact end_of_word_eq_of_fields h1
      rw [this, hcount2 s, if_neg hs]
      simp
  have hstored : ∀ s, stored t3 s ↔ s = u ++ v := by
    intro s
    unfold stored
    rw [hcount3 s]
    by_cases hs : s = u ++ v <;> simp [hs]
  rw [prepare_autocomplete_1_eq t3 u hpath3 hl3 hh3]
  have hmem := mem_entries_walk t3 u
  generalize hE : (sub_entries (walk t3.root u)).map (fun x => (u ++ x.1, x.2)) = E at hmem
  have hin : (u ++ v, (1 : Int)) ∈ E := by
    rw [hmem]
    refine ⟨List.prefix_append u v, walk_ne_null_of_stored ((hstored _).2 rfl), ?_⟩
    rw [hcount3, if_pos rfl]
  rcases lx_fold_inv E with ⟨_, h2⟩ | ⟨l1, x, l2, h1, h2, _, h4⟩
  · have := h2 _ hin
    simp at this
  · rw [h4]
    have hxE : (x.1, x.2) ∈ E := by rw [h1]; simp
    obtain ⟨_, _, hc2⟩ := (hmem x.1 x.2).1 hxE
    have hst : stored t3 x.1 := by unfold stored; rw [hc2]; exact h2
    rw [(hstored x.1).1 hst]
    simp

/-- C9. For every trie and every non-empty word `w` whose path exists and
whose terminal node has a positive children count, `remove_word` frees no node
and changes nothing but the end-of-word count of `w`, which becomes 0: every
path exists after the call exactly when it existed before, and its node keeps
its letter and its children count.  Consequently, after `insert u`,
`insert u ++ v` (`v` not empty), `remove u` on the new trie, mode 1 on `u`
prints `u ++ v` (for lowercase words that fit the word buffers). -/
theorem remove_word_keeps_prefix_node (t : trie_t) (w : List Char) (_hne : w ≠ [])
    (hpath : walk t.root w ≠ NULL) (hch : 0 < (walk t.root w).n_children) :
    (remove_word t w).2 = [] ∧
    (∀ v : List Char,
      (walk (remove_word t w).1.root v = NULL ↔ walk t.root v = NULL) ∧
      (walk (remove_word t w).1.root v).letter = (walk t.root v).letter ∧
      (walk (remove_word t w).1.root v).n_children = (walk t.root v).n_children ∧
      (walk (remove_word t w).1.root v).end_of_word
        = if v = w then 0 else (walk t.root v).end_of_word) ∧
    (∀ u v : List Char, lowercase u → lowercase v → u ≠ [] → v ≠ [] →
      (u ++ v).length < MAX_WORD_LENGTH →
      prepare_autocomplete u 1
        (remove_word (insert_word (insert_word create_trie u) (u ++ v)) u).1 = [u ++ v]) := by
  rw [remove_word_of_children t w hpath hch]
  refine ⟨rfl, ?_, fun u v hu hv _ hv0 hlen =>
    autocomplete_after_remove_of_prefix_word u v hu hv hv0 hlen⟩
  intro v
  have hf := fields_walk_clear t.root w v hpath
  simp only
  by_cases hv : v = w
  · rw [if_pos hv] at hf
    rw [if_pos hv]
    subst hv
    cases hw : walk t.root v with
    | NULL => exact absurd hw hpath
    | node l e ch n =>
      rw [hw] at hf
      cases hx : walk (modify_at clear_end_of_word t.root v) v with
      | NULL => rw [hx] at hf; simp [fields] at hf
      | node l2 e2 ch2 n2 =>
        rw [hx] at hf
        simp only [fields, Option.map_some', Option.some.injEq, Prod.mk.injEq] at hf
        simp [letter, n_children, end_of_word, hf.1, hf.2.1, hf.2.2]
  · rw [if_neg hv] at hf
    rw [if_neg hv]
    exact ⟨null_iff_of_fields hf, letter_eq_of_fields hf, n_children_eq_of_fields hf,
      end_of_word_eq_of_fields hf⟩

theorem remove_word_keeps_prefix_node_witness :
    (walk (trie_of ["car", "carpet"]).root "car".toList).n_children = 1 ∧
    (remove_word (trie_of ["car", "carpet"]) "car".toList).2 = [] ∧
    prepare_autocomplete "car".toList 1
      (remove_word (insert_word (insert_word create_trie "car".toList)
        ("car".toList ++ "pet".toList)) "car".toList).1 = ["car".toList ++ "pet".toList] :=
  ⟨by decide,
    (remove_word_keeps_prefix_node (trie_of ["car", "carpet"]) "car".toList (by decide)
      (ne_null_of_is_null (by decide)) (by decide)).1,
    (remove_word_keeps_prefix_node (trie_of ["car", "carpet"]) "car".toList (by decide)
      (ne_null_of_is_null (by decide)) (by decide)).2.2 "car".toList "pet".toList
      (by decide) (by decide) (by decide) (by decide) (by decide)⟩

/-- C7 (the code at the failing input). The trie that holds only "cat" has no
prunable node; `remove_word` of "cat" frees the node of `t` alone and leaves
the nodes of `c` and `a` in place, the node of `a` with no child and no word
end. -/
theorem remove_word_leaves_prunable_node :
    no_prunable (trie_of ["cat"]).root = true ∧
    (remove_word (trie_of ["cat"]) "cat".toList).2.map letter = ['t'] ∧
    fields (walk (remove_word (trie_of ["cat"]) "cat".toList).1.root "ca".toList)
      = some ('a', 0, 0) ∧
    no_prunable (remove_word (trie_of ["cat"]) "cat".toList).1.root = false := by
  decide

/-- The path of a word is cut by `remove_word` when its terminal node has no
children (in a trie with the children-count invariant). -/
theorem walk_remove_word_leaf (t : trie_t) (p : List Char) (c : Char)
    (h : walk t.root (p ++ [c]) ≠ NULL) (hok : count_ok t.root = true)
    (hch : ¬ 0 < (walk t.root (p ++ [c])).n_children) :
    walk (remove_word t (p ++ [c])).1.root (p ++ [c]) = NULL := by
  rw [remove_word_of_count_ok t p c h hok, if_neg hch]
  simp only
  have hp1 : walk (modify_at clear_end_of_word t.root (p ++ [c])) p ≠ NULL := by
    have h1 := fields_walk_clear t.root (p ++ [c]) p h
    have hne : p ≠ p ++ [c] := by
      intro h0
      have := congrArg List.length h0
      simp at this
    rw [if_neg hne] at h1
    intro h0
    exact walk_prefix_ne_null h ((null_iff_of_fields h1).1 h0)
  rw [walk_modify_at_append _ _ _ _ hp1, walk_detach_child_same]

/-- C8 (counterexample). The trie that holds only "carpet" does not store
"car"; after `insert car; remove car`, mode 0 on "car" prints "carpet" three
times and not the not-found line. -/
theorem insert_then_remove_counterexample :
    count (trie_of ["carpet"]) "car".toList = 0 ∧
    prepare_autocomplete "car".toList 0
      (remove_word (insert_word (trie_of ["carpet"]) "car".toList) "car".toList).1
      = ["carpet".toList, "carpet".toList, "carpet".toList] ∧
    prepare_autocomplete "car".toList 0
      (remove_word (insert_word (trie_of ["carpet"]) "car".toList) "car".toList).1
      ≠ [not_found] := by
  decide

/-- C8 (amended). For every trie with the children-count invariant and every
non-empty lowercase word `w` whose count is 0, after `insert_word` then
`remove_word` of `w` every word has the count it had before; and when the
terminal node of `w` got no children, the path of `w` is cut, so that
`prepare_autocomplete` on `w` in mode 0 prints the not-found line. -/
theorem insert_then_remove_counts (t : trie_t) (w : List Char) (hroot : t.root ≠ NULL)
    (hw : lowercase w) (hne : w ≠ []) (hok : count_ok t.root = true)
    (hns : count t w = 0) :
    (∀ v : List Char, count (remove_word (insert_word t w) w).1 v = count t v) ∧
    (¬ 0 < (walk (insert_word t w).root w).n_children →
      walk (remove_word (insert_word t w) w).1.root w = NULL ∧
      prepare_autocomplete w 0 (remove_word (insert_word t w) w).1 = [not_found]) := by
  have hok2 : count_ok (insert_word t w).root = true := count_ok_insert_loop w hw _ hok
  have hpath : walk (insert_word t w).root w ≠ NULL :=
    (walk_insert_loop_same w hw t.root hroot).1
  obtain ⟨p, c, rfl⟩ := exists_append_singleton hne
  constructor
  · intro v
    have h := end_of_word_walk_remove_word (insert_word t (p ++ [c])) p c hpath hok2 v
    unfold count
    rw [h]
    by_cases hv : v = p ++ [c]
    · rw [if_pos hv, hv]
      exact hns.symm
    · rw [if_neg hv]
      exact walk_insert_loop_other _ t.root v hv
  · intro hch
    have hcut := walk_remove_word_leaf (insert_word t (p ++ [c])) p c hpath hok2 hch
    refine ⟨hcut, ?_⟩
    unfold prepare_autocomplete
    simp only [hcut, is_null, if_true]

theorem insert_then_remove_counts_witness :
    count create_trie "cat".toList = 0 ∧
    prepare_autocomplete "cat".toList 0
      (remove_word (insert_word create_trie "cat".toList) "cat".toList).1 = [not_found] :=
  ⟨by decide,
    ((insert_then_remove_counts create_trie "cat".toList (ne_null_of_is_null (by decide))
      (by decide) (by decide) (by decide) (by decide)).2 (by decide)).2⟩

theorem is_null_modify_at (f : trie_node_t → trie_node_t)
    (hf : ∀ nd, (f nd).is_null = nd.is_null) (nd : trie_node_t) (p : List Char) :
    (modify_at f nd p).is_null = nd.is_null := by
  cases nd with
  | NULL => rw [modify_at_NULL]
  | node l e ch n =>
    cases p with
    | nil => exact hf _
    | cons c cs => rfl

/-- A change made in place at the end of a path keeps the children-count
invariant when it does not turn a node into `NULL` or back and the changed
node satisfies the invariant. -/
theorem count_ok_modify_at (f : trie_node_t → trie_node_t)
    (hf : ∀ nd, (f nd).is_null = nd.is_null) (p : List Char) :
    ∀ nd : trie_node_t, count_ok nd = true → count_ok (f (walk nd p)) = true →
      count_ok (modify_at f nd p) = true := by
  induction p with
  | nil =>
    intro nd _ h2
    cases nd with
    | NULL => rfl
    | node l e ch n => simpa [walk, modify_at] using h2
  | cons c cs ih =>
    intro nd h h2
    cases nd with
    | NULL => rfl
    | node l e ch n =>
      simp only [modify_at]
      simp only [walk] at h2
      by_cases hr : 0 ≤ idx c ∧ idx c < 26
      · obtain ⟨j0, hj0⟩ := exists_fin_of_range hr
        rw [← hj0, child_coe] at h2 ⊢
        rw [count_ok_node_iff] at h ⊢
        have hlive := live_children_set_child ch j0 (modify_at f (ch j0) cs)
        rw [is_null_modify_at f hf] at hlive
        refine ⟨by rw [h.1]; omega, ?_⟩
        intro i
        rw [set_child_apply]
        split
        · exact ih _ (h.2 j0) h2
        · exact h.2 i
      · rw [set_child_out_of_range _ _ _ hr]
        rw [count_ok_node_iff] at h ⊢
        exact h

theorem is_null_clear_end_of_word (nd : trie_node_t) :
    (clear_end_of_word nd).is_null = nd.is_null := by
  cases nd <;> rfl

theorem is_null_detach_child (i : Int) (nd : trie_node_t) :
    (detach_child i nd).is_null = nd.is_null := by
  cases nd <;> rfl

theorem letter_detach_child (i : Int) (nd : trie_node_t) :
    (detach_child i nd).letter = nd.letter := by
  cases nd <;> rfl

theorem count_ok_clear_end_of_word (nd : trie_node_t) (h : count_ok nd = true) :
    count_ok (clear_end_of_word nd) = true := by
  cases nd with
  | NULL => rfl
  | node l e ch n =>
    rw [count_ok_node_iff] at h
    simp only [clear_end_of_word]
    rw [count_ok_node_iff]
    exact h

theorem letters_ok_detach_child (i : Int) (nd : trie_node_t) (h : letters_ok nd = true) :
    letters_ok (detach_child i nd) = true := by
  cases nd with
  | NULL => rfl
  | node l e ch n =>
    rw [letters_ok_node_iff] at h
    simp only [detach_child]
    rw [letters_ok_node_iff]
    intro j
    unfold set_child
    split
    · exact ⟨Or.inl rfl, rfl⟩
    · exact h j

theorem height_le_detach_child (i : Int) (h : Nat) (nd : trie_node_t)
    (hh : height_le h nd = true) : height_le h (detach_child i nd) = true := by
  cases nd with
  | NULL => rfl
  | node l e ch n =>
    rw [height_le_node_iff] at hh
    simp only [detach_child]
    rw [height_le_node_iff]
    intro j
    unfold set_child
    split
    · exact Or.inl rfl
    · exact hh j

/-- Clearing a non-`NULL` child edge and decrementing the children count
keeps the children-count invariant. -/
theorem count_ok_detach_child (c : Char) (nd : trie_node_t) (h : count_ok nd = true)
    (hc : walk nd [c] ≠ NULL) : count_ok (detach_child (idx c) nd) = true := by
  cases nd with
  | NULL => rfl
  | node l e ch n =>
    simp only [walk] at hc
    have hne : child ch (idx c) ≠ NULL := by
      intro h0
      rw [h0, walk_NULL] at hc
      exact hc rfl
    obtain ⟨j0, hj0⟩ := exists_fin_of_range (child_range hne)
    rw [← hj0, child_coe] at hne
    rw [count_ok_node_iff] at h
    simp only [detach_child]
    rw [count_ok_node_iff, ← hj0]
    have hlive := live_children_set_child ch j0 NULL
    rw [is_null_eq_false hne] at hlive
    simp only [Bool.false_eq_true, if_false, is_null, if_true] at hlive
    refine ⟨by rw [h.1]; omega, ?_⟩
    intro i
    rw [set_child_apply]
    split
    · rfl
    · exact h.2 i

/-- The shape of the result of `remove_word`: the trie itself, the trie with
one count cleared, or that trie with one edge detached. -/
theorem remove_word_cases (t : trie_t) (w : List Char) :
    (remove_word t w).1 = t ∨
    (remove_word t w).1 = { root := modify_at clear_end_of_word t.root w } ∨
    ∃ (lsp : Nat) (i : Int), (remove_word t w).1 =
      { root := modify_at (detach_child i) (modify_at clear_end_of_word t.root w)
          (w.take lsp) } := by
  unfold remove_word
  cases remove_loop t.root w 0 0 (idx (w.headD '\x00')) with
  | none => left; rfl
  | some r =>
    obtain ⟨lsp, i, curr⟩ := r
    simp only
    split
    · right; left; rfl
    · right; right; exact ⟨lsp, i, rfl⟩

/-- `remove_word` keeps the letter invariant. -/
theorem letters_ok_remove_word (t : trie_t) (w : List Char) (h : letters_ok t.root = true) :
    letters_ok (remove_word t w).1.root = true := by
  have h1 : letters_ok (modify_at clear_end_of_word t.root w) = true :=
    letters_ok_modify_at _ letter_clear_end_of_word letters_ok_clear_end_of_word w _ h
  rcases remove_word_cases t w with h0 | h0 | ⟨lsp, i, h0⟩
  · rw [h0]; exact h
  · rw [h0]; exact h1
  · rw [h0]
    exact letters_ok_modify_at _ (letter_detach_child i) (letters_ok_detach_child i) _ _ h1

/-- `remove_word` keeps a bound on the height. -/
theorem height_le_remove_word (t : trie_t) (w : List Char) (h : Nat)
    (hh : height_le h t.root = true) : height_le h (remove_word t w).1.root = true := by
  have h1 : height_le h (modify_at clear_end_of_word t.root w) = true :=
    height_le_modify_at _ height_le_clear_end_of_word w _ _ hh
  rcases remove_word_cases t w with h0 | h0 | ⟨lsp, i, h0⟩
  · rw [h0]; exact hh
  · rw [h0]; exact h1
  · rw [h0]
    exact height_le_modify_at _ (height_le_detach_child i) _ _ _ h1

/-- `remove_word` keeps the root. -/
theorem root_remove_word (t : trie_t) (w : List Char) (h : t.root ≠ NULL) :
    (remove_word t w).1.root ≠ NULL := by
  have h1 : (modify_at clear_end_of_word t.root w).is_null = false := by
    rw [is_null_modify_at _ is_null_clear_end_of_word]
    exact is_null_eq_false h
  rcases remove_word_cases t w with h0 | h0 | ⟨lsp, i, h0⟩
  · rw [h0]; exact h
  · rw [h0]; exact ne_null_of_is_null h1
  · rw [h0]
    apply ne_null_of_is_null
    simp only
    rw [is_null_modify_at _ (is_null_detach_child i), h1]

/-- `remove_word` of a non-empty word keeps the children-count invariant. -/
theorem count_ok_remove_word (t : trie_t) (w : List Char) (hne : w ≠ [])
    (hroot : t.root ≠ NULL) (hok : count_ok t.root = true) :
    count_ok (remove_word t w).1.root = true := by
  by_cases hpath : walk t.root w = NULL
  · unfold remove_word
    rw [remove_loop_none w t.root 0 0 _ hpath hroot]
    exact hok
  · obtain ⟨p, c, rfl⟩ := exists_append_singleton hne
    have hclear : count_ok (modify_at clear_end_of_word t.root (p ++ [c])) = true :=
      count_ok_modify_at _ is_null_clear_end_of_word _ _ hok
        (count_ok_clear_end_of_word _ (count_ok_walk _ _ hok))
    rw [remove_word_of_count_ok t p c hpath hok]
    split
    · exact hclear
    · simp only
      apply count_ok_modify_at _ (is_null_detach_child _) _ _ hclear
      apply count_ok_detach_child _ _ (count_ok_walk _ _ hclear)
      rw [← walk_append]
      have h1 := fields_walk_clear t.root (p ++ [c]) (p ++ [c]) hpath
      rw [if_pos rfl] at h1
      intro h0
      rw [h0] at h1
      cases hw : walk t.root (p ++ [c]) with
      | NULL => exact hpath hw
      | node _ _ _ _ => rw [hw] at h1; simp [fields] at h1

/-- Every trie the program can build has a root and satisfies the
children-count invariant, the letter invariant and the bound on the height
that makes every path fit the word buffers. -/
theorem reachable_invariants (t : trie_t) (h : reachable t) :
    t.root ≠ NULL ∧ count_ok t.root = true ∧ letters_ok t.root = true ∧
      height_le (MAX_WORD_LENGTH - 1) t.root = true := by
  induction h with
  | create =>
    exact ⟨by simp [create_trie, create_node], count_ok_create_node _,
      letters_ok_create_node _, height_le_create_node _ _⟩
  | insert t w _ hw _ hlen ih =>
    obtain ⟨h1, h2, h3, h4⟩ := ih
    exact ⟨insert_loop_ne_null _ _ h1, count_ok_insert_loop w hw _ h2,
      letters_ok_insert_loop w hw _ h3, height_le_insert_loop w hw _ _ h4 (by omega)⟩
  | remove t w _ _ hne _ ih =>
    obtain ⟨h1, h2, h3, h4⟩ := ih
    exact ⟨root_remove_word t w h1, count_ok_remove_word t w hne h1 h2,
      letters_ok_remove_word t w h3, height_le_remove_word t w _ h4⟩

/-- The lines printed by `prepare_autocomplete` are the lines of its steps. -/
theorem prepare_autocomplete_eq_steps (pfx : List Char) (crit_number : Int) (trie : trie_t) :
    prepare_autocomplete pfx crit_number trie =
      (prepare_autocomplete_steps pfx crit_number trie).flatMap
        (run_step pfx (walk trie.root pfx)) := by
  unfold prepare_autocomplete prepare_autocomplete_steps
  simp only
  split
  · simp [run_step]
  · split
    · simp [run_step]
    · split
      · simp [run_step]
      · split
        · simp [run_step]
        · simp [run_step]

/-- A missing edge on the way makes the walk end at `NULL`. -/
theorem walk_missing_edge (nd : trie_node_t) (q r : List Char) (c : Char)
    (hedge : child (walk nd q).children (idx c) = NULL) :
    walk nd (q ++ c :: r) = NULL := by
  rw [walk_append]
  cases hq : walk nd q with
  | NULL => rfl
  | node l e ch n =>
    rw [hq] at hedge
    simp only [children] at hedge
    simp only [walk, hedge, walk_NULL]

/-- C11. For every trie, every prefix and every mode: when a symbol `c` of the
prefix has no edge where the walk from the root meets it, `prepare_autocomplete`
takes one step, the report of not-found, calls none of the three strategies
and prints the not-found line once. -/
theorem autocomplete_missing_edge (t : trie_t) (q r : List Char) (c : Char) (m : Int)
    (hedge : child (walk t.root q).children (idx c) = NULL) :
    prepare_autocomplete_steps (q ++ c :: r) m t = [dispatch_step.report_not_found] ∧
    prepare_autocomplete (q ++ c :: r) m t = [not_found] := by
  have hw := walk_missing_edge t.root q r c hedge
  constructor
  · simp [prepare_autocomplete_steps, hw, is_null]
  · simp [prepare_autocomplete, hw, is_null]

theorem autocomplete_missing_edge_witness :
    child (walk (trie_of ["dog", "cat"]).root "do".toList).children (idx 't') = NULL ∧
    prepare_autocomplete_steps ("do".toList ++ 't' :: "s".toList) 0 (trie_of ["dog", "cat"])
      = [dispatch_step.report_not_found] ∧
    prepare_autocomplete ("do".toList ++ 't' :: "s".toList) 0 (trie_of ["dog", "cat"])
      = [not_found] :=
  ⟨eq_null_of_is_null (by decide),
    autocomplete_missing_edge (trie_of ["dog", "cat"]) "do".toList "s".toList 't' 0
      (eq_null_of_is_null (by decide))⟩

theorem lx_one_foldl {α : Type} (f : lexico_state → α → lexico_state)
    (hf : ∀ s a, lx_one s → lx_one (f s a)) :
    ∀ (L : List α) (s : lexico_state), lx_one s → lx_one (L.foldl f s) := by
  intro L
  induction L with
  | nil => intro s hs; exact hs
  | cons a L ih => intro s hs; exact ih _ (hf s a hs)

/-- The function `autocomplete_first_lexico` keeps the link between `printed`
and the printed lines: it prints at most one line in all. -/
theorem lx_one_node (nd : trie_node_t) :
    ∀ (is_root : Bool) (pl : Int) (st : lexico_state), lx_one st →
      lx_one (autocomplete_first_lexico nd is_root pl st) := by
  induction nd with
  | NULL => intro _ _ st hs; exact hs
  | node l e ch n ih =>
    intro is_root pl st hs
    unfold autocomplete_first_lexico
    simp only
    have hs1 : lx_one (if is_root = true then st else
        { st with first_lexico_word :=
            buf_write (buf_write st.first_lexico_word pl l) (pl + 1) NUL }) := by
      split
      · exact hs
      · exact hs
    generalize (if is_root = true then st else
        { st with first_lexico_word :=
            buf_write (buf_write st.first_lexico_word pl l) (pl + 1) NUL }) = st1 at hs1
    split
    · rename_i hc
      simp only [Bool.and_eq_true, decide_eq_true_eq] at hc
      right
      rcases hs1 with ⟨h1, h2⟩ | ⟨h1, _⟩
      · simp [h2]
      · exact absurd h1 hc.2
    · apply lx_one_foldl _ _ _ _ hs1
      intro s i hsi
      split
      · exact hsi
      · exact ih i _ _ _ hsi

/-- Mode 1 prints exactly one line. -/
theorem length_prepare_autocomplete_1 (pfx : List Char) (curr : trie_node_t) :
    (prepare_autocomplete_1 pfx curr).length = 1 := by
  unfold prepare_autocomplete_1
  split
  · rfl
  · simp only
    have h := lx_one_node curr true ((pfx.length : Int) - 1)
      { first_lexico_word := copy_chars zero_buffer pfx pfx.length, printed := 0, out := [] }
      (Or.inl ⟨rfl, rfl⟩)
    rcases h with ⟨h1, h2⟩ | ⟨h1, h2⟩
    · rw [if_pos h1, h2]; rfl
    · rw [if_neg (by rw [h1]; decide), h2]

/-- Mode 2 prints exactly one line. -/
theorem length_prepare_autocomplete_2 (pfx : List Char) (curr : trie_node_t) :
    (prepare_autocomplete_2 pfx curr).length = 1 := by
  unfold prepare_autocomplete_2
  split
  · rfl
  · simp only
    split <;> rfl

/-- Mode 3 prints exactly one line. -/
theorem length_prepare_autocomplete_3 (pfx : List Char) (curr : trie_node_t) :
    (prepare_autocomplete_3 pfx curr).length = 1 := by
  unfold prepare_autocomplete_3
  simp only
  split <;> rfl

/-- In the modes 1, 2 and 3 the dispatcher prints exactly one line, whether the
path of the prefix exists or not. -/
theorem length_prepare_autocomplete_single (pfx : List Char) (m : Int) (t : trie_t)
    (hm : m = 1 ∨ m = 2 ∨ m = 3) : (prepare_autocomplete pfx m t).length = 1 := by
  unfold prepare_autocomplete
  simp only
  split
  · rfl
  · rcases hm with rfl | rfl | rfl
    · simp [length_prepare_autocomplete_1]
    · simp [length_prepare_autocomplete_2]
    · simp [length_prepare_autocomplete_3]

/-- The line of mode 1 is the not-found line or a stored word with the
prefix. -/
theorem mode_1_line (t : trie_t) (p : List Char)
    (hpath : walk t.root p ≠ NULL) (hl : letters_ok t.root = true)
    (hh : height_le (MAX_WORD_LENGTH - 1) t.root = true) :
    prepare_autocomplete p 1 t = [not_found] ∨
      ∃ w, prepare_autocomplete p 1 t = [w] ∧ p <+: w ∧ stored t w := by
  rw [prepare_autocomplete_1_eq t p hpath hl hh]
  have hmem := mem_entries_walk t p
  generalize hE : (sub_entries (walk t.root p)).map (fun x => (p ++ x.1, x.2)) = E at hmem
  rcases lx_fold_inv E with ⟨h1, _⟩ | ⟨l1, x, l2, h1, h2, _, h4⟩
  · left; rw [h1]; rfl
  · right
    rw [h4]
    have hx : (x.1, x.2) ∈ E := by rw [h1]; simp
    obtain ⟨hp2, _, hc2⟩ := (hmem x.1 x.2).1 hx
    refine ⟨x.1, by simp, hp2, ?_⟩
    unfold stored
    rw [hc2]
    exact h2

/-- The line of mode 2 is the not-found line or a stored word with the
prefix. -/
theorem mode_2_line (t : trie_t) (p : List Char)
    (hpath : walk t.root p ≠ NULL) (hl : letters_ok t.root = true)
    (hh : height_le (MAX_WORD_LENGTH - 1) t.root = true) :
    prepare_autocomplete p 2 t = [not_found] ∨
      ∃ w, prepare_autocomplete p 2 t = [w] ∧ p <+: w ∧ stored t w := by
  rw [prepare_autocomplete_2_eq t p hpath hl hh]
  have hmem := mem_entries_walk t p
  generalize hE : (sub_entries (walk t.root p)).map (fun x => (p ++ x.1, x.2)) = E at hmem
  rcases sh_fold_inv [] E with ⟨h1, _⟩ | ⟨h1, l1, l2, e, h2, he, _, _⟩
  · left; rw [h1]; rfl
  · right
    generalize hr : E.foldl sh_step (-1, []) = r at h1 h2
    have hrE : (r.2, e) ∈ E := by rw [h2]; simp
    obtain ⟨hp2, _, hc2⟩ := (hmem r.2 e).1 hrE
    have hn1 : r.1 ≠ -1 := by omega
    rw [if_neg hn1]
    refine ⟨r.2, rfl, hp2, ?_⟩
    unfold stored
    rw [hc2]
    exact he

/-- The line of mode 3 is the not-found line or a stored word with the
prefix. -/
theorem mode_3_line (t : trie_t) (p : List Char)
    (hpath : walk t.root p ≠ NULL) (hl : letters_ok t.root = true)
    (hh : height_le (MAX_WORD_LENGTH - 1) t.root = true) :
    prepare_autocomplete p 3 t = [not_found] ∨
      ∃ w, prepare_autocomplete p 3 t = [w] ∧ p <+: w ∧ stored t w := by
  rw [prepare_autocomplete_3_eq t p hpath hl hh]
  have hmem := mem_entries_walk t p
  generalize hE : (sub_entries (walk t.root p)).map (fun x => (p ++ x.1, x.2)) = E at hmem
  rcases mf_fold_inv [] E with ⟨h1, _⟩ | ⟨h1, l1, l2, h2, _, _⟩
  · left; rw [h1]; rfl
  · right
    generalize hr : E.foldl mf_step (-1, []) = r at h1 h2
    have hrE : (r.2, r.1) ∈ E := by rw [h2]; simp
    obtain ⟨hp2, _, hc2⟩ := (hmem r.2 r.1).1 hrE
    have hn1 : r.1 ≠ -1 := by omega
    rw [if_neg hn1]
    refine ⟨r.2, rfl, hp2, ?_⟩
    unfold stored
    rw [hc2]
    exact h1

/-- The output of mode 0 on a prefix whose path exists: the outputs of the
modes 1, 2 and 3, in this order. -/
theorem prepare_autocomplete_0_eq (t : trie_t) (p : List Char)
    (hpath : walk t.root p ≠ NULL) :
    prepare_autocomplete p 0 t =
      prepare_autocomplete p 1 t ++ prepare_autocomplete p 2 t ++ prepare_autocomplete p 3 t := by
  simp [prepare_autocomplete, is_null_eq_false hpath]

/-- C12. For every trie and every prefix whose path exists: the output of mode
0 is the output of mode 1, then that of mode 2, then that of mode 3; mode 0
calls the three strategies in this order and each of the modes 1, 2, 3 calls
its own strategy and no other; each of the modes 1, 2, 3 prints exactly one
line, which (for a trie with the letter invariant whose paths fit the word
buffers) is the not-found line or a stored word with the prefix. -/
theorem autocomplete_mode_0_composition (t : trie_t) (p : List Char)
    (hpath : walk t.root p ≠ NULL) :
    prepare_autocomplete p 0 t =
      prepare_autocomplete p 1 t ++ prepare_autocomplete p 2 t ++ prepare_autocomplete p 3 t ∧
    prepare_autocomplete_steps p 0 t =
      [dispatch_step.strategy_1, dispatch_step.strategy_2, dispatch_step.strategy_3] ∧
    (prepare_autocomplete_steps p 1 t = [dispatch_step.strategy_1] ∧
      prepare_autocomplete p 1 t = prepare_autocomplete_1 p (walk t.root p)) ∧
    (prepare_autocomplete_steps p 2 t = [dispatch_step.strategy_2] ∧
      prepare_autocomplete p 2 t = prepare_autocomplete_2 p (walk t.root p)) ∧
    (prepare_autocomplete_steps p 3 t = [dispatch_step.strategy_3] ∧
      prepare_autocomplete p 3 t = prepare_autocomplete_3 p (walk t.root p)) ∧
    (∀ m : Int, m = 1 ∨ m = 2 ∨ m = 3 → (prepare_autocomplete p m t).length = 1) ∧
    (letters_ok t.root = true → height_le (MAX_WORD_LENGTH - 1) t.root = true →
      ∀ m : Int, m = 1 ∨ m = 2 ∨ m = 3 →
        prepare_autocomplete p m t = [not_found] ∨
          ∃ w, prepare_autocomplete p m t = [w] ∧ p <+: w ∧ stored t w) := by
  have hn := is_null_eq_false hpath
  refine ⟨prepare_autocomplete_0_eq t p hpath, ?_, ⟨?_, ?_⟩, ⟨?_, ?_⟩, ⟨?_, ?_⟩,
    fun m hm => length_prepare_autocomplete_single p m t hm, ?_⟩
  · simp [prepare_autocomplete_steps, hn]
  · simp [prepare_autocomplete_steps, hn]
  · simp [prepare_autocomplete, hn]
  · simp [prepare_autocomplete_steps, hn]
  · simp [prepare_autocomplete, hn]
  · simp [prepare_autocomplete_steps, hn]
  · simp [prepare_autocomplete, hn]
  · intro hl hh m hm
    rcases hm with rfl | rfl | rfl
    · exact mode_1_line t p hpath hl hh
    · exact mode_2_line t p hpath hl hh
    · exact mode_3_line t p hpath hl hh

theorem autocomplete_mode_0_composition_witness :
    (walk (trie_of ["dog", "dot", "dodge", "dot"]).root "do".toList).is_null = false ∧
    prepare_autocomplete "do".toList 0 (trie_of ["dog", "dot", "dodge", "dot"])
      = ["dodge".toList, "dog".toList, "dot".toList] ∧
    prepare_autocomplete "do".toList 0 (trie_of ["dog", "dot", "dodge", "dot"]) =
      prepare_autocomplete "do".toList 1 (trie_of ["dog", "dot", "dodge", "dot"]) ++
      prepare_autocomplete "do".toList 2 (trie_of ["dog", "dot", "dodge", "dot"]) ++
      prepare_autocomplete "do".toList 3 (trie_of ["dog", "dot", "dodge", "dot"]) :=
  ⟨by decide, by decide,
    (autocomplete_mode_0_composition (trie_of ["dog", "dot", "dodge", "dot"]) "do".toList
      (ne_null_of_is_null (by decide))).1⟩

/-- C13, as stated, fails: on the trie that stores only `dog`, mode 0 on the
prefix `cat`, whose path is missing, prints one line, not three. -/
theorem autocomplete_mode_0_lines_counterexample :
    prepare_autocomplete "cat".toList 0 (trie_of ["dog"]) = [not_found] ∧
    (prepare_autocomplete "cat".toList 0 (trie_of ["dog"])).length ≠ 3 := by
  decide

/-- C13, amended. For every trie and every prefix: when the path of the prefix
exists, mode 0 prints exactly three lines, each of them (for a trie with the
letter invariant whose paths fit the word buffers) the not-found line or a
stored word with the prefix; and each of the modes 1, 2, 3 prints exactly one
line, whether the path exists or not. -/
theorem autocomplete_result_lines (t : trie_t) (p : List Char) :
    (walk t.root p ≠ NULL →
      (prepare_autocomplete p 0 t).length = 3 ∧
      (letters_ok t.root = true → height_le (MAX_WORD_LENGTH - 1) t.root = true →
        ∀ l ∈ prepare_autocomplete p 0 t, l = not_found ∨ (p <+: l ∧ stored t l))) ∧
    (∀ m : Int, m = 1 ∨ m = 2 ∨ m = 3 → (prepare_autocomplete p m t).length = 1) := by
  refine ⟨fun hpath => ⟨?_, ?_⟩, fun m hm => length_prepare_autocomplete_single p m t hm⟩
  · rw [prepare_autocomplete_0_eq t p hpath]
    simp only [List.length_append]
    rw [length_prepare_autocomplete_single p 1 t (Or.inl rfl),
      length_prepare_autocomplete_single p 2 t (Or.inr (Or.inl rfl)),
      length_prepare_autocomplete_single p 3 t (Or.inr (Or.inr rfl))]
  · intro hl hh l hmem
    rw [prepare_autocomplete_0_eq t p hpath] at hmem
    simp only [List.mem_append] at hmem
    have key : ∀ m : Int, (prepare_autocomplete p m t = [not_found] ∨
        ∃ w, prepare_autocomplete p m t = [w] ∧ p <+: w ∧ stored t w) →
        l ∈ prepare_autocomplete p m t → l = not_found ∨ (p <+: l ∧ stored t l) := by
      intro m h hin
      rcases h with h | ⟨w, h, h1, h2⟩
      · rw [h] at hin
        left
        simpa using hin
      · rw [h] at hin
        right
        have : l = w := by simpa using hin
        rw [this]
        exact ⟨h1, h2⟩
    rcases hmem with (h | h) | h
    · exact key 1 (mode_1_line t p hpath hl hh) h
    · exact key 2 (mode_2_line t p hpath hl hh) h
    · exact key 3 (mode_3_line t p hpath hl hh) h

theorem autocomplete_result_lines_witness :
    (walk (trie_of ["cap", "cap", "car"]).root "ca".toList).is_null = false ∧
    prepare_autocomplete "ca".toList 0 (trie_of ["cap", "cap", "car"])
      = ["cap".toList, "cap".toList, "cap".toList] ∧
    (prepare_autocomplete "ca".toList 0 (trie_of ["cap", "cap", "car"])).length = 3 ∧
    (prepare_autocomplete "cx".toList 2 (trie_of ["cap", "cap", "car"])).length = 1 :=
  ⟨by decide, by decide,
    ((autocomplete_result_lines (trie_of ["cap", "cap", "car"]) "ca".toList).1
      (ne_null_of_is_null (by decide))).1,
    (autocomplete_result_lines (trie_of ["cap", "cap", "car"]) "cx".toList).2 2
      (Or.inr (Or.inl rfl))⟩

theorem lex_lt_irrefl (a : List Char) : ¬ lex_lt a a := by
  induction a with
  | nil => intro h; cases h
  | cons c cs ih =>
    intro h
    cases h with
    | cons h => exact ih h
    | rel h => exact lt_irrefl _ h

/-- C14. For every trie with the letter invariant, every `k` and every query
buffer that holds a non-empty lowercase word `w` shorter than
`MAX_WORD_LENGTH`: the words printed by `autocorrect`, one per line, are in
strictly ascending dictionary order, so no word is printed twice and every
stored word of the length of `w` within `k` mismatches is printed exactly once,
whatever its end-of-word count. -/
theorem autocorrect_ascending (t : trie_t) (k : Int) (w junk : List Char)
    (hw : lowercase w) (hne : w ≠ []) (hlen : w.length < MAX_WORD_LENGTH)
    (hl : letters_ok t.root = true) :
    (run_autocorrect t k (w ++ NUL :: junk)).out.Pairwise lex_lt ∧
    (run_autocorrect t k (w ++ NUL :: junk)).out.Nodup ∧
    (∀ s, stored t s → s.length = w.length → (hamming s w : Int) ≤ k →
      (run_autocorrect t k (w ++ NUL :: junk)).out.countP (fun x => decide (x = s)) = 1) ∧
    ((run_autocorrect t k (w ++ NUL :: junk)).out ≠ [] →
      prepare_autocorrect t k (w ++ NUL :: junk)
        = (run_autocorrect t k (w ++ NUL :: junk)).out) := by
  have hc := cstr_query w junk hw
  have hs : strlen (w ++ NUL :: junk) = w.length := by unfold strlen; rw [hc]
  have hpos : 0 < strlen (w ++ NUL :: junk) := by
    rw [hs]; exact List.length_pos.2 hne
  have hroot := ac_root t k (w ++ NUL :: junk) hl hpos (by rw [hs]; omega)
  rw [hc] at hroot
  have hmem := mem_ac_words t k w
  have hsort : ((sub_entries t.root).filter (ac_qual w k 0 0)).Pairwise
      (fun a b => lex_lt a.1 b.1) :=
    (sub_entries_sorted t.root).sublist (List.filter_sublist _)
  generalize hL : (sub_entries t.root).filter (ac_qual w k 0 0) = L at hroot hmem hsort
  have hout : (run_autocorrect t k (w ++ NUL :: junk)).out = L.map (fun x => x.1) :=
    congrArg Prod.snd hroot
  have hpr : (run_autocorrect t k (w ++ NUL :: junk)).printed = if L = [] then 0 else 1 :=
    congrArg Prod.fst hroot
  have hpw : (L.map (fun x => x.1)).Pairwise lex_lt := by
    rw [List.pairwise_map]; exact hsort
  have hnd : (L.map (fun x => x.1)).Nodup := by
    unfold List.Nodup
    refine hpw.imp ?_
    intro a b h hab
    rw [← hab] at h
    exact lex_lt_irrefl a h
  rw [hout]
  refine ⟨hpw, hnd, ?_, ?_⟩
  · intro s h1 h2 h3
    exact List.count_eq_one_of_mem hnd ((hmem s).2 ⟨h1, h2, h3⟩)
  · intro hne2
    have hLn : L ≠ [] := by
      intro h0
      rw [h0] at hne2
      exact hne2 rfl
    unfold prepare_autocorrect
    simp only [hpr, hout, if_neg hLn]
    rfl

theorem autocorrect_ascending_witness :
    prepare_autocorrect (trie_of ["cat", "bat", "cat", "cab"]) 1
      ("cat".toList ++ NUL :: []) = ["bat".toList, "cab".toList, "cat".toList] ∧
    (run_autocorrect (trie_of ["cat", "bat", "cat", "cab"]) 1
      ("cat".toList ++ NUL :: [])).out.Pairwise lex_lt :=
  ⟨by decide,
    (autocorrect_ascending (trie_of ["cat", "bat", "cat", "cab"]) 1 "cat".toList []
      (by decide) (by decide) (by decide) (by decide)).1⟩

theorem load_loop_eof (fuel : Nat) (f : FILE) (word : List Char) (trie : trie_t)
    (h : f.eof = true) : load_loop fuel f word trie = some trie := by
  cases fuel <;> simp [load_loop, h]

theorem length_dropWhile_le (p : Char → Bool) (l : List Char) :
    (l.dropWhile p).length ≤ l.length := by
  induction l with
  | nil => simp
  | cons c cs ih =>
    simp only [List.dropWhile_cons]
    split
    · simp only [List.length_cons]; omega
    · exact le_refl _

theorem dropWhile_head (p : Char → Bool) (l : List Char) (c : Char) (cs : List Char)
    (h : l.dropWhile p = c :: cs) : p c = false := by
  induction l with
  | nil => simp at h
  | cons d ds ih =>
    simp only [List.dropWhile_cons] at h
    split at h
    · exact ih h
    · rename_i hd
      simp only [List.cons.injEq] at h
      rw [← h.1]
      simpa using hd

/-- One call of `fscanf` sets the end-of-file indicator or leaves fewer
characters to read. -/
theorem fscanf_s_progress (f : FILE) (word : List Char) :
    (fscanf_s f word).1.eof = true ∨ (fscanf_s f word).1.rest.length < f.rest.length := by
  unfold fscanf_s
  simp only
  cases h1 : f.rest.dropWhile is_space with
  | nil => left; rfl
  | cons c cs =>
    right
    have hc := dropWhile_head is_space f.rest c cs h1
    have hle := length_dropWhile_le is_space f.rest
    rw [h1] at hle
    simp only [List.isEmpty_cons, Bool.false_eq_true, if_false, List.dropWhile_cons, hc,
      Bool.not_false, if_true]
    have := length_dropWhile_le (fun c => !is_space c) cs
    simp only [List.length_cons] at hle
    omega

/-- The loop of `load_file` ends: with more iterations allowed than the stream
has characters, `load_loop` returns a trie. -/
theorem load_loop_returns :
    ∀ (fuel : Nat) (f : FILE) (word : List Char) (trie : trie_t),
      f.rest.length < fuel → (load_loop fuel f word trie).isSome = true := by
  intro fuel
  induction fuel with
  | zero => intro f _ _ h; omega
  | succ fuel ih =>
    intro f word trie h
    unfold load_loop
    split
    · rfl
    · simp only
      rcases fscanf_s_progress f word with h1 | h1
      · rw [load_loop_eof _ _ _ _ h1]; rfl
      · exact ih _ _ _ (by omega)

/-- The function `load_file` returns on every file. -/
theorem load_file_returns (trie : trie_t) (file : Option (List Char)) (word : List Char) :
    (load_file trie file word).isSome = true := by
  cases file with
  | none => rfl
  | some contents => exact load_loop_returns _ _ _ _ (Nat.lt_succ_self _)

/-- C15 fails on the code.  On a file that holds the one token `dog` followed by
a newline, `load_file` inserts `dog` twice: after the first `fscanf` the
end-of-file indicator is not set yet, the second `fscanf` finds no token and
leaves `word`, which is inserted again.  On the file with no token, `load_file`
inserts what the array `word` held before.  Without white space after the last
token each token is inserted once. -/
theorem load_file_inserts_last_token_twice :
    (load_file create_trie (some "dog\n".toList) []).map (fun t => count t "dog".toList)
      = some 2 ∧
    (load_file create_trie (some "cat dog \n".toList) []).map
      (fun t => (count t "cat".toList, count t "dog".toList)) = some (1, 2) ∧
    (load_file create_trie (some []) "junk".toList).map (fun t => count t "junk".toList)
      = some 1 ∧
    (load_file create_trie (some "cat dog".toList) []).map
      (fun t => (count t "cat".toList, count t "dog".toList)) = some (1, 1) := by
  decide

theorem live_children_le (ch : Fin 26 → trie_node_t) : live_children ch ≤ 26 := by
  unfold live_children
  have h := List.length_filter_le (fun i => !(ch i).is_null) (List.finRange 26)
  rw [List.length_finRange] at h
  exact h

/-- Under the children-count invariant the node at the end of every path has
as many live edges as its `n_children` says (`0` of both where there is no
node). -/
theorem count_ok_at (nd : trie_node_t) (h : count_ok nd = true) (q : List Char) :
    (walk nd q).n_children = (live_children (walk nd q).children : Int) := by
  have hq := count_ok_walk q nd h
  cases hw : walk nd q with
  | NULL => simp [n_children, children, live_children, is_null]
  | node l e ch n =>
    rw [hw] at hq
    exact count_ok_n hq

/-- Every trie built by `insert_word` and `remove_word` has a root and
satisfies the children-count invariant. -/
theorem built_invariants (t : trie_t) (h : built t) :
    t.root ≠ NULL ∧ count_ok t.root = true := by
  induction h with
  | create => exact ⟨by simp [create_trie, create_node], count_ok_create_node _⟩
  | insert t w _ hw _ ih =>
    exact ⟨insert_loop_ne_null _ _ ih.1, count_ok_insert_loop w hw _ ih.2⟩
  | remove t w _ _ hne ih =>
    exact ⟨root_remove_word t w ih.1, count_ok_remove_word t w hne ih.1 ih.2⟩

/-- C16. In every trie built from the new trie by `insert_word` and
`remove_word` on non-empty lowercase words, the children-count invariant holds:
the node at the end of every path has `n_children` equal to the number of its
non-`NULL` child edges, a number from 0 to 26.  One more `insert_word` or
`remove_word` changes `n_children` at every position by exactly the change of
the number of non-`NULL` edges there. -/
theorem children_count_invariant (t : trie_t) (h : built t) :
    count_ok t.root = true ∧
    (∀ q, (walk t.root q).n_children = (live_children (walk t.root q).children : Int) ∧
      0 ≤ (walk t.root q).n_children ∧ (walk t.root q).n_children ≤ 26) ∧
    (∀ w, lowercase w → w ≠ [] → ∀ q,
      (walk (insert_word t w).root q).n_children - (walk t.root q).n_children =
        (live_children (walk (insert_word t w).root q).children : Int)
          - (live_children (walk t.root q).children : Int)) ∧
    (∀ w, lowercase w → w ≠ [] → ∀ q,
      (walk (remove_word t w).1.root q).n_children - (walk t.root q).n_children =
        (live_children (walk (remove_word t w).1.root q).children : Int)
          - (live_children (walk t.root q).children : Int)) := by
  have hinv := built_invariants t h
  refine ⟨hinv.2, ?_, ?_, ?_⟩
  · intro q
    have h1 := count_ok_at t.root hinv.2 q
    have h2 := live_children_le (walk t.root q).children
    refine ⟨h1, ?_, ?_⟩ <;> omega
  · intro w hw hne q
    have h1 := count_ok_at t.root hinv.2 q
    have h2 := count_ok_at _ (built_invariants _ (built.insert t w h hw hne)).2 q
    rw [h1, h2]
  · intro w hw hne q
    have h1 := count_ok_at t.root hinv.2 q
    have h2 := count_ok_at _ (built_invariants _ (built.remove t w h hw hne)).2 q
    rw [h1, h2]

theorem children_count_invariant_witness :
    built (remove_word (insert_word (insert_word create_trie "car".toList) "cat".toList)
      "car".toList).1 ∧
    count_ok (remove_word (insert_word (insert_word create_trie "car".toList) "cat".toList)
      "car".toList).1.root = true ∧
    (walk (remove_word (insert_word (insert_word create_trie "car".toList) "cat".toList)
      "car".toList).1.root "ca".toList).n_children = 1 ∧
    (walk (insert_word (insert_word create_trie "car".toList) "cat".toList).root
      "ca".toList).n_children = 2 :=
  ⟨built.remove _ _ (built.insert _ _ (built.insert _ _ built.create (by decide) (by decide))
      (by decide) (by decide)) (by decide) (by decide),
    (children_count_invariant _
      (built.remove _ _ (built.insert _ _ (built.insert _ _ built.create (by decide)
        (by decide)) (by decide) (by decide)) (by decide) (by decide))).1,
    by decide, by decide⟩

theorem eow_nonneg_node_iff (l : Char) (e n : Int) (ch : Fin 26 → trie_node_t) :
    eow_nonneg (node l e ch n) = true ↔ 0 ≤ e ∧ ∀ i, eow_nonneg (ch i) = true := by
  simp only [eow_nonneg, List.all_eq_true, Bool.and_eq_true, decide_eq_true_eq,
    List.mem_finRange, true_implies]

theorem eow_nonneg_create_node (c : Char) : eow_nonneg (create_node c) = true := by
  rw [create_node, eow_nonneg_node_iff]
  exact ⟨le_refl _, fun _ => rfl⟩

/-- `insert_word` keeps the end-of-word counts non-negative as long as the
count of the word is below `INT_MAX`. -/
theorem eow_nonneg_insert_loop (w : List Char) (hw : lowercase w) :
    ∀ nd : trie_node_t, eow_nonneg nd = true → (walk nd w).end_of_word < INT_MAX →
      eow_nonneg (insert_loop nd w) = true := by
  induction w with
  | nil =>
    intro nd h hmax
    cases nd with
    | NULL => rfl
    | node l e ch n =>
      rw [eow_nonneg_node_iff] at h
      simp only [walk, end_of_word] at hmax
      simp only [insert_loop]
      rw [eow_nonneg_node_iff, int_incr_of_lt hmax]
      exact ⟨by omega, h.2⟩
  | cons c cs ih =>
    intro nd h hmax
    have hc : is_letter c := hw c (List.mem_cons_self _ _)
    have hcs : lowercase cs := fun d hd => hw d (List.mem_cons_of_mem _ hd)
    obtain ⟨j0, hj0⟩ := exists_fin_of_range (idx_range hc)
    cases nd with
    | NULL => rfl
    | node l e ch n =>
      rw [eow_nonneg_node_iff] at h
      simp only [walk] at hmax
      rw [← hj0, child_coe] at hmax
      unfold insert_loop
      rw [← hj0, child_coe]
      split
      · rw [eow_nonneg_node_iff]
        refine ⟨h.1, fun i => ?_⟩
        rw [set_child_apply]
        split
        · apply ih hcs _ (eow_nonneg_create_node c)
          rw [walk_create_node]
          decide
        · exact h.2 i
      · rw [eow_nonneg_node_iff]
        refine ⟨h.1, fun i => ?_⟩
        rw [set_child_apply]
        split
        · exact ih hcs _ (h.2 j0) hmax
        · exact h.2 i

theorem eow_nonneg_walk (q : List Char) :
    ∀ nd : trie_node_t, eow_nonneg nd = true → eow_nonneg (walk nd q) = true := by
  induction q with
  | nil => intro nd h; cases nd <;> simpa [walk] using h
  | cons c cs ih =>
    intro nd h
    cases nd with
    | NULL => rfl
    | node l e ch n =>
      simp only [walk]
      apply ih
      unfold child
      split
      · exact ((eow_nonneg_node_iff l e n ch).1 h).2 _
      · rfl

theorem end_of_word_modify_at_cons (f : trie_node_t → trie_node_t) (nd : trie_node_t)
    (c : Char) (cs : List Char) :
    (modify_at f nd (c :: cs)).end_of_word = nd.end_of_word := by
  cases nd <;> rfl

theorem end_of_word_modify_at (f : trie_node_t → trie_node_t)
    (hf : ∀ nd, (f nd).end_of_word = nd.end_of_word) (nd : trie_node_t) (p : List Char) :
    (modify_at f nd p).end_of_word = nd.end_of_word := by
  cases p with
  | nil =>
    cases nd with
    | NULL => rfl
    | node l e ch n => exact hf _
  | cons c cs => exact end_of_word_modify_at_cons f nd c cs

theorem end_of_word_detach_child (i : Int) (nd : trie_node_t) :
    (detach_child i nd).end_of_word = nd.end_of_word := by
  cases nd <;> rfl

/-- `insert_word` of a non-empty word leaves the end-of-word count of the root. -/
theorem end_of_word_root_insert_word (t : trie_t) (w : List Char) (hne : w ≠ []) :
    (insert_word t w).root.end_of_word = t.root.end_of_word := by
  cases w with
  | nil => exact absurd rfl hne
  | cons c cs =>
    simp only [insert_word]
    cases t.root with
    | NULL => rfl
    | node l e ch n =>
      unfold insert_loop
      split <;> rfl

/-- `remove_word` of a non-empty word leaves the end-of-word count of the root. -/
theorem end_of_word_root_remove_word (t : trie_t) (w : List Char) (hne : w ≠ []) :
    (remove_word t w).1.root.end_of_word = t.root.end_of_word := by
  cases w with
  | nil => exact absurd rfl hne
  | cons c cs =>
    rcases remove_word_cases t (c :: cs) with h0 | h0 | ⟨lsp, i, h0⟩
    · rw [h0]
    · rw [h0]
      exact end_of_word_modify_at_cons _ _ c cs
    · rw [h0]
      simp only
      rw [end_of_word_modify_at _ (end_of_word_detach_child i)]
      exact end_of_word_modify_at_cons _ _ c cs

/-- The empty string is no input word: `insert_word` on it would make the root
a word end. -/
theorem insert_word_empty_root : (insert_word create_trie []).root.end_of_word = 1 := by
  decide

/-- C18. After any sequence of `insert_word` and `remove_word` on input words
(non-empty, lowercase, shorter than `MAX_WORD_LENGTH`), starting from the new
trie, the root is there and is no word end: its end-of-word count is 0. -/
theorem root_never_word_end (t : trie_t) (h : reachable t) :
    t.root ≠ NULL ∧ t.root.end_of_word = 0 ∧ ¬ stored t [] := by
  have key : t.root ≠ NULL ∧ t.root.end_of_word = 0 := by
    induction h with
    | create => exact ⟨by simp [create_trie, create_node], rfl⟩
    | insert t w _ _ hne _ ih =>
      exact ⟨insert_loop_ne_null _ _ ih.1,
        by rw [end_of_word_root_insert_word t w hne]; exact ih.2⟩
    | remove t w _ _ hne _ ih =>
      exact ⟨root_remove_word t w ih.1,
        by rw [end_of_word_root_remove_word t w hne]; exact ih.2⟩
  refine ⟨key.1, key.2, ?_⟩
  unfold stored count
  cases hr : t.root with
  | NULL => exact absurd hr key.1
  | node l e ch n =>
    have := key.2
    rw [hr] at this
    simp only [end_of_word] at this
    simp only [walk, end_of_word, this]
    decide

theorem root_never_word_end_witness :
    reachable (remove_word (insert_word (insert_word create_trie "a".toList) "ab".toList)
      "a".toList).1 ∧
    (remove_word (insert_word (insert_word create_trie "a".toList) "ab".toList)
      "a".toList).1.root.end_of_word = 0 :=
  ⟨reachable.remove _ _ (reachable.insert _ _ (reachable.insert _ _ reachable.create
      (by decide) (by decide) (by decide)) (by decide) (by decide) (by decide))
      (by decide) (by decide) (by decide),
    (root_never_word_end _ (reachable.remove _ _ (reachable.insert _ _
      (reachable.insert _ _ reachable.create (by decide) (by decide) (by decide))
      (by decide) (by decide) (by decide)) (by decide) (by decide) (by decide))).2.1⟩

/-- A change made in place at the end of a path keeps the end-of-word counts
non-negative when the change itself keeps them so. -/
theorem eow_nonneg_modify_at (f : trie_node_t → trie_node_t)
    (hf : ∀ nd, eow_nonneg nd = true → eow_nonneg (f nd) = true) (p : List Char) :
    ∀ nd : trie_node_t, eow_nonneg nd = true → eow_nonneg (modify_at f nd p) = true := by
  induction p with
  | nil =>
    intro nd h
    cases nd with
    | NULL => rfl
    | node l e ch n => exact hf _ h
  | cons c cs ih =>
    intro nd h
    cases nd with
    | NULL => rfl
    | node l e ch n =>
      simp only [modify_at]
      by_cases hr : 0 ≤ idx c ∧ idx c < 26
      · obtain ⟨j0, hj0⟩ := exists_fin_of_range hr
        rw [← hj0, child_coe]
        rw [eow_nonneg_node_iff] at h ⊢
        refine ⟨h.1, fun i => ?_⟩
        rw [set_child_apply]
        split
        · exact ih _ (h.2 j0)
        · exact h.2 i
      · rw [set_child_out_of_range _ _ _ hr]
        rw [eow_nonneg_node_iff] at h ⊢
        exact h

theorem eow_nonneg_clear_end_of_word (nd : trie_node_t) (h : eow_nonneg nd = true) :
    eow_nonneg (clear_end_of_word nd) = true := by
  cases nd with
  | NULL => rfl
  | node l e ch n =>
    rw [eow_nonneg_node_iff] at h
    simp only [clear_end_of_word]
    rw [eow_nonneg_node_iff]
    exact ⟨le_refl _, h.2⟩

theorem eow_nonneg_detach_child (i : Int) (nd : trie_node_t) (h : eow_nonneg nd = true) :
    eow_nonneg (detach_child i nd) = true := by
  cases nd with
  | NULL => rfl
  | node l e ch n =>
    rw [eow_nonneg_node_iff] at h
    simp only [detach_child]
    rw [eow_nonneg_node_iff]
    refine ⟨h.1, fun j => ?_⟩
    unfold set_child
    split
    · rfl
    · exact h.2 j

/-- `remove_word` keeps the end-of-word counts non-negative. -/
theorem eow_nonneg_remove_word (t : trie_t) (w : List Char) (h : eow_nonneg t.root = true) :
    eow_nonneg (remove_word t w).1.root = true := by
  have h1 : eow_nonneg (modify_at clear_end_of_word t.root w) = true :=
    eow_nonneg_modify_at _ eow_nonneg_clear_end_of_word w _ h
  rcases remove_word_cases t w with h0 | h0 | ⟨lsp, i, h0⟩
  · rw [h0]; exact h
  · rw [h0]; exact h1
  · rw [h0]
    exact eow_nonneg_modify_at _ (eow_nonneg_detach_child i) _ _ h1

/-- The tries of `reachable` are among those of `built`. -/
theorem built_of_reachable (t : trie_t) (h : reachable t) : built t := by
  induction h with
  | create => exact built.create
  | insert t w _ hw hne _ ih => exact built.insert t w ih hw hne
  | remove t w _ hw hne _ ih => exact built.remove t w ih hw hne

theorem walk_nil (nd : trie_node_t) : walk nd [] = nd := by
  cases nd <;> rfl

theorem child_children_walk (nd : trie_node_t) (p : List Char) (c : Char) :
    child (walk nd p).children (idx c) = walk nd (p ++ [c]) := by
  rw [walk_append]
  cases walk nd p with
  | NULL =>
    simp only [children, walk_NULL]
    unfold child
    split <;> rfl
  | node l e ch n => simp only [children, walk, walk_nil]

theorem set_child_set_child (ch : Fin 26 → trie_node_t) (i : Int) (u v : trie_node_t) :
    set_child (set_child ch i u) i v = set_child ch i v := by
  funext j
  unfold set_child
  split <;> rfl

theorem deletion_loop_zero (ch : Fin 26 → trie_node_t) (r : Fin 26 → List trie_node_t)
    (L : List (Fin 26)) : deletion_loop ch r L 0 = [] := by
  cases L <;> simp [deletion_loop]

/-- The deletion of a subtrie whose root has `n_children == 0` frees that one
node. -/
theorem recursive_subtrie_deletion_leaf (l : Char) (e : Int) (ch : Fin 26 → trie_node_t) :
    recursive_subtrie_deletion (node l e ch 0) = [node l e ch 0] := by
  simp [recursive_subtrie_deletion, deletion_loop_zero]

/-- Detaching the edge `c` of the node at `p` undoes whatever was cleared
below that edge. -/
theorem modify_at_detach_clear (c : Char) (p : List Char) :
    ∀ nd : trie_node_t,
      modify_at (detach_child (idx c)) (modify_at clear_end_of_word nd (p ++ [c])) p =
        modify_at (detach_child (idx c)) nd p := by
  induction p with
  | nil =>
    intro nd
    cases nd with
    | NULL => rfl
    | node l e ch n =>
      simp only [List.nil_append, modify_at, detach_child, set_child_set_child]
  | cons d ds ih =>
    intro nd
    cases nd with
    | NULL => rfl
    | node l e ch n =>
      show modify_at (detach_child (idx c))
          (modify_at clear_end_of_word (node l e ch n) (d :: (ds ++ [c]))) (d :: ds) = _
      simp only [modify_at]
      by_cases hr : 0 ≤ idx d ∧ idx d < 26
      · rw [child_set_child_same ch _ _ hr, set_child_set_child, ih]
      · rw [child_out_of_range _ _ hr, set_child_set_child]
        simp only [modify_at_NULL]
        rw [child_out_of_range _ _ hr, modify_at_NULL]

/-- C19. For every trie with the children-count invariant and every non-empty
word `p ++ [c]` whose path exists and whose terminal node has no children: at
the end of the loop of `remove_word`, `last_special_parent` is the node reached
by `p`, the direct parent of the terminal node, and `parent_idx` is the index
of `c`; `remove_word` frees exactly one node, the terminal node; the trie it
leaves is the old one with the edge `c` of the parent cleared and the
`n_children` of the parent decremented by one: the path of the word is cut,
and every node not on or below that edge is in place with its letter, its
end-of-word count and (the parent apart) its `n_children`. -/
theorem remove_word_leaf (t : trie_t) (p : List Char) (c : Char)
    (hok : count_ok t.root = true) (hpath : walk t.root (p ++ [c]) ≠ NULL)
    (hleaf : (walk t.root (p ++ [c])).n_children = 0) :
    remove_loop t.root (p ++ [c]) 0 0 (idx ((p ++ [c]).headD '\x00'))
      = some (p.length, idx c, walk t.root (p ++ [c])) ∧
    (remove_word t (p ++ [c])).2 = [clear_end_of_word (walk t.root (p ++ [c]))] ∧
    (remove_word t (p ++ [c])).1.root = modify_at (detach_child (idx c)) t.root p ∧
    walk (remove_word t (p ++ [c])).1.root (p ++ [c]) = NULL ∧
    fields (walk (remove_word t (p ++ [c])).1.root p)
      = (fields (walk t.root p)).map (fun x => (x.1, x.2.1, x.2.2 - 1)) ∧
    (∀ v, v ≠ p → ¬ (p ++ [c]) <+: v →
      fields (walk (remove_word t (p ++ [c])).1.root v) = fields (walk t.root v)) := by
  have hch : ¬ 0 < (walk t.root (p ++ [c])).n_children := by omega
  have hp : walk t.root p ≠ NULL := walk_prefix_ne_null hpath
  have hroot : (remove_word t (p ++ [c])).1.root
      = modify_at (detach_child (idx c)) t.root p := by
    rw [remove_word_of_count_ok t p c hpath hok, if_neg hch]
    exact modify_at_detach_clear c p t.root
  refine ⟨?_, ?_, hroot, walk_remove_word_leaf t p c hpath hok hch, ?_, ?_⟩
  · rw [remove_loop_count_ok (p ++ [c]) t.root 0 0 _ hpath hok]
    simp
  · rw [remove_word_of_count_ok t p c hpath hok, if_neg hch]
    simp only
    rw [child_children_walk]
    have h1 := walk_modify_at_append clear_end_of_word (p ++ [c]) [] t.root hpath
    rw [List.append_nil, walk_nil] at h1
    rw [h1]
    cases hw : walk t.root (p ++ [c]) with
    | NULL => exact absurd hw hpath
    | node l e ch n =>
      rw [hw] at hleaf
      simp only [n_children] at hleaf
      subst hleaf
      exact recursive_subtrie_deletion_leaf l 0 ch
  · rw [hroot]
    have h1 := walk_modify_at_append (detach_child (idx c)) p [] t.root hp
    rw [List.append_nil, walk_nil] at h1
    rw [h1]
    cases walk t.root p <;> rfl
  · intro v hv hnw
    rw [hroot]
    by_cases hpv : p <+: v
    · obtain ⟨y, rfl⟩ := hpv
      rw [walk_modify_at_append _ _ _ _ hp]
      cases y with
      | nil => exact absurd (List.append_nil p) hv
      | cons d ds =>
        have hd : d ≠ c := by
          intro h0
          subst h0
          apply hnw
          exact ⟨ds, by simp⟩
        rw [walk_detach_child_ne _ _ _ _ hd, ← walk_append]
    · exact fields_walk_modify_at _ _ _ _ hpv

theorem remove_word_leaf_witness :
    (remove_word (trie_of ["cat", "car"]) ("ca".toList ++ ['t'])).2.length = 1 ∧
    (walk (remove_word (trie_of ["cat", "car"]) ("ca".toList ++ ['t'])).1.root
      "ca".toList).n_children = 1 ∧
    (walk (remove_word (trie_of ["cat", "car"]) ("ca".toList ++ ['t'])).1.root
      "car".toList).end_of_word = 1 ∧
    remove_loop (trie_of ["cat", "car"]).root ("ca".toList ++ ['t']) 0 0
        (idx (("ca".toList ++ ['t']).headD '\x00'))
      = some ("ca".toList.length, idx 't',
          walk (trie_of ["cat", "car"]).root ("ca".toList ++ ['t'])) :=
  ⟨by decide, by decide, by decide,
    (remove_word_leaf (trie_of ["cat", "car"]) "ca".toList 't' (by decide)
      (ne_null_of_is_null (by decide)) (by decide)).1⟩

theorem insert_loop_NULL (w : List Char) : insert_loop NULL w = NULL := by
  cases w <;> rfl

/-- One iteration of the loop of `insert_word`, with its two branches written
as one: the node below the edge is the new node or the old child, and
`n_children` is incremented when the node is new. -/
theorem insert_loop_cons (l : Char) (e n : Int) (ch : Fin 26 → trie_node_t) (c : Char)
    (cs : List Char) :
    insert_loop (node l e ch n) (c :: cs) =
      node l e
        (set_child ch (idx c)
          (insert_loop (if (child ch (idx c)).is_null then create_node c
            else child ch (idx c)) cs))
        (if (child ch (idx c)).is_null then n + 1 else n) := by
  by_cases h : (child ch (idx c)).is_null = true
  · simp [insert_loop, h]
  · simp [insert_loop, h]

theorem set_child_comm (ch : Fin 26 → trie_node_t) (i j : Int) (u v : trie_node_t)
    (h : i ≠ j) :
    set_child (set_child ch i u) j v = set_child (set_child ch j v) i u := by
  funext k
  unfold set_child
  by_cases h1 : (k.val : Int) = j
  · have h2 : ¬ (k.val : Int) = i := fun h0 => h (h0.symm.trans h1)
    simp only [h1, h2, if_true, if_false]
    rw [if_neg (fun h0 : j = i => h h0.symm)]
  · simp only [h1, if_false]

/-- The two orders of two insertions leave the same subtrie. -/
theorem insert_loop_comm (a : List Char) :
    ∀ (nd : trie_node_t) (b : List Char), lowercase a → lowercase b →
      insert_loop (insert_loop nd a) b = insert_loop (insert_loop nd b) a := by
  induction a with
  | nil =>
    intro nd b _ _
    cases nd with
    | NULL => simp only [insert_loop_NULL]
    | node l e ch n =>
      cases b with
      | nil => rfl
      | cons d bs =>
        have h1 : insert_loop (node l e ch n) [] = node l (int_incr e) ch n := rfl
        rw [h1, insert_loop_cons, insert_loop_cons]
        rfl
  | cons c as ih =>
    intro nd b ha hb
    cases nd with
    | NULL => simp only [insert_loop_NULL]
    | node l e ch n =>
      cases b with
      | nil =>
        have h1 : insert_loop (node l e ch n) [] = node l (int_incr e) ch n := rfl
        rw [h1, insert_loop_cons, insert_loop_cons]
        rfl
      | cons d bs =>
        have hc : is_letter c := ha c (List.mem_cons_self _ _)
        have has : lowercase as := fun x hx => ha x (List.mem_cons_of_mem _ hx)
        have hbs : lowercase bs := fun x hx => hb x (List.mem_cons_of_mem _ hx)
        have hrc := idx_range hc
        rw [insert_loop_cons l e n ch c as, insert_loop_cons l e n ch d bs,
          insert_loop_cons, insert_loop_cons]
        by_cases hcd : c = d
        · subst hcd
          have hbase : (if (child ch (idx c)).is_null then create_node c
              else child ch (idx c)) ≠ NULL := by
            split
            · simp [create_node]
            · rename_i h
              exact fun h0 => h ((is_null_iff _).2 h0)
          rw [child_set_child_same _ _ _ hrc, child_set_child_same _ _ _ hrc,
            is_null_eq_false (insert_loop_ne_null _ as hbase),
            is_null_eq_false (insert_loop_ne_null _ bs hbase)]
          simp only [Bool.false_eq_true, if_false, set_child_set_child]
          rw [ih _ bs has hbs]
        · have hi : idx d ≠ idx c := fun h0 => hcd (idx_inj h0).symm
          rw [child_set_child_ne _ _ _ _ hi, child_set_child_ne _ _ _ _ (Ne.symm hi),
            set_child_comm _ _ _ _ _ (Ne.symm hi)]
          congr 1
          split <;> split <;> omega

/-- C20. For every trie and all lowercase words `a` and `b`, inserting `a`
then `b` leaves the same trie as inserting `b` then `a`: the same nodes with
the same letters, end-of-word counts, child edges and children counts. -/
theorem insert_word_order_independent (t : trie_t) (a b : List Char)
    (ha : lowercase a) (hb : lowercase b) :
    insert_word (insert_word t a) b = insert_word (insert_word t b) a := by
  simp only [insert_word]
  rw [insert_loop_comm a t.root b ha hb]

theorem insert_word_order_independent_witness :
    lowercase "car".toList ∧ lowercase "carpet".toList ∧
    insert_word (insert_word (trie_of ["cat"]) "car".toList) "carpet".toList =
      insert_word (insert_word (trie_of ["cat"]) "carpet".toList) "car".toList :=
  ⟨by decide, by decide,
    insert_word_order_independent (trie_of ["cat"]) "car".toList "carpet".toList
      (by decide) (by decide)⟩

theorem ac_agree_refl (n : Nat) (s : autocorrect_state) : ac_agree n s s :=
  ⟨rfl, rfl, rfl⟩

theorem ac_agree_symm {n : Nat} {s1 s2 : autocorrect_state} (h : ac_agree n s1 s2) :
    ac_agree n s2 s1 :=
  ⟨h.1.symm, h.2.1.symm, h.2.2.symm⟩

theorem ac_agree_trans {n : Nat} {s1 s2 s3 : autocorrect_state} (h1 : ac_agree n s1 s2)
    (h2 : ac_agree n s2 s3) : ac_agree n s1 s3 :=
  ⟨h1.1.trans h2.1, h1.2.1.trans h2.2.1, h1.2.2.trans h2.2.2⟩

theorem foldl_invariant {σ α : Type} (P : σ → Prop) (f : σ → α → σ)
    (hf : ∀ s a, P s → P (f s a)) : ∀ (L : List α) (s : σ), P s → P (L.foldl f s) := by
  intro L
  induction L with
  | nil => intro s hs; exact hs
  | cons a L ih => intro s hs; exact ih _ (hf s a hs)

theorem foldl_related {σ α : Type} (R : σ → σ → Prop) (f g : σ → α → σ)
    (h : ∀ s1 s2 a, R s1 s2 → R (f s1 a) (g s2 a)) :
    ∀ (L : List α) (s1 s2 : σ), R s1 s2 → R (L.foldl f s1) (L.foldl g s2) := by
  intro L
  induction L with
  | nil => intro s1 s2 hs; exact hs
  | cons a L ih => intro s1 s2 hs; exact ih _ _ (h s1 s2 a hs)

theorem take_set_congr (l1 l2 : List Char) (a : Char) (n i : Nat)
    (h : l1.take n = l2.take n) : (l1.set i a).take n = (l2.set i a).take n := by
  rw [List.set_take, List.set_take, h]

/-- A call of `autocorrect` on a node deeper than the length of the query
prints nothing, leaves the flag `printed` and leaves the characters of
`new_word` that can be printed. -/
theorem autocorrect_below (k : Int) (word : List Char) (nd : trie_node_t) :
    ∀ (diff : Int) (d : Nat) (st : autocorrect_state), strlen word < d →
      ac_agree (strlen word) (autocorrect k word nd false diff d st) st := by
  induction nd with
  | NULL =>
    intro diff d st _
    simp only [autocorrect]
    exact ac_agree_refl _ _
  | node l e ch n ih =>
    intro diff d st hd
    by_cases hdiff : diff > k
    · have hres : autocorrect k word (node l e ch n) false diff d st = st := by
        simp only [autocorrect, Bool.not_false, Bool.true_and, decide_eq_true_eq, if_pos hdiff]
      rw [hres]
      exact ac_agree_refl _ _
    · have hend : ¬ (d = strlen word ∧ e > 0) := fun h0 => by omega
      have hres : autocorrect k word (node l e ch n) false diff d st =
          (List.finRange 26).foldl (fun s i =>
            if (ch i).is_null then s
            else if (ch i).letter ≠ buf_read word d then
              autocorrect k word (ch i) false (diff + 1) (d + 1) s
            else autocorrect k word (ch i) false diff (d + 1) s)
            { st with new_word := st.new_word.set (d - 1) l } := by
        simp only [autocorrect, Bool.not_false, Bool.true_and, decide_eq_true_eq,
          if_neg hdiff, Bool.false_eq_true, if_false, Bool.and_eq_true, if_neg hend]
      rw [hres]
      apply foldl_invariant (fun s => ac_agree (strlen word) s st)
      · intro s i hs
        split
        · exact hs
        · split
          · exact ac_agree_trans (ih i _ _ _ (by omega)) hs
          · exact ac_agree_trans (ih i _ _ _ (by omega)) hs
      · exact ⟨rfl, rfl, take_set_of_le _ _ (by omega)⟩

/-- The loop over the children in `autocorrect`, run on two query buffers that
hold the same string: the two runs stay in agreement. -/
theorem autocorrect_children_agree (k : Int) (b1 b2 : List Char) (N : Nat)
    (h1 : strlen b1 = N) (h2 : strlen b2 = N)
    (hb : ∀ i, i ≤ N → buf_read b1 i = buf_read b2 i)
    (ch : Fin 26 → trie_node_t)
    (ih : ∀ (i : Fin 26) (diff : Int) (d : Nat) (s1 s2 : autocorrect_state),
      d ≤ N → 1 ≤ d → ac_agree N s1 s2 →
      ac_agree N (autocorrect k b1 (ch i) false diff d s1)
        (autocorrect k b2 (ch i) false diff d s2))
    (diff : Int) (d : Nat) (s1 s2 : autocorrect_state) (hd : d ≤ N)
    (hs : ac_agree N s1 s2) :
    ac_agree N
      ((List.finRange 26).foldl (fun s i =>
        if (ch i).is_null then s
        else if (ch i).letter ≠ buf_read b1 d then
          autocorrect k b1 (ch i) false (diff + 1) (d + 1) s
        else autocorrect k b1 (ch i) false diff (d + 1) s) s1)
      ((List.finRange 26).foldl (fun s i =>
        if (ch i).is_null then s
        else if (ch i).letter ≠ buf_read b2 d then
          autocorrect k b2 (ch i) false (diff + 1) (d + 1) s
        else autocorrect k b2 (ch i) false diff (d + 1) s) s2) := by
  have key : ∀ (i : Fin 26) (df : Int) (x1 x2 : autocorrect_state), ac_agree N x1 x2 →
      ac_agree N (autocorrect k b1 (ch i) false df (d + 1) x1)
        (autocorrect k b2 (ch i) false df (d + 1) x2) := by
    intro i df x1 x2 hx
    by_cases hlt : d + 1 ≤ N
    · exact ih i df (d + 1) x1 x2 hlt (by omega) hx
    · have a1 := autocorrect_below k b1 (ch i) df (d + 1) x1 (by omega)
      have a2 := autocorrect_below k b2 (ch i) df (d + 1) x2 (by omega)
      rw [h1] at a1
      rw [h2] at a2
      exact ac_agree_trans a1 (ac_agree_trans hx (ac_agree_symm a2))
  apply foldl_related (ac_agree N)
  · intro x1 x2 i hx
    rw [hb d hd]
    split
    · exact hx
    · split
      · exact key i _ _ _ hx
      · exact key i _ _ _ hx
  · exact hs

/-- A call of `autocorrect` on a node at a depth up to the length of the
query, run on two query buffers that hold the same string: the two runs stay
in agreement. -/
theorem autocorrect_agree (k : Int) (b1 b2 : List Char) (N : Nat)
    (h1 : strlen b1 = N) (h2 : strlen b2 = N)
    (hb : ∀ i, i ≤ N → buf_read b1 i = buf_read b2 i) (nd : trie_node_t) :
    ∀ (diff : Int) (d : Nat) (s1 s2 : autocorrect_state),
      d ≤ N → 1 ≤ d → ac_agree N s1 s2 →
      ac_agree N (autocorrect k b1 nd false diff d s1)
        (autocorrect k b2 nd false diff d s2) := by
  induction nd with
  | NULL =>
    intro diff d s1 s2 _ _ hs
    simp only [autocorrect]
    exact hs
  | node l e ch n ih =>
    intro diff d s1 s2 hd hd1 hs
    by_cases hdiff : diff > k
    · have hres : ∀ (b : List Char) (st : autocorrect_state),
          autocorrect k b (node l e ch n) false diff d st = st := by
        intro b st
        simp only [autocorrect, Bool.not_false, Bool.true_and, decide_eq_true_eq, if_pos hdiff]
      rw [hres, hres]
      exact hs
    · by_cases hend : d = N ∧ e > 0
      · have hres : ∀ (b : List Char) (st : autocorrect_state), strlen b = N →
            autocorrect k b (node l e ch n) false diff d st =
              { new_word := st.new_word.set (d - 1) l, printed := 1,
                out := st.out ++ [(st.new_word.set (d - 1) l).take N] } := by
          intro b st hbN
          simp only [autocorrect, Bool.not_false, Bool.true_and, decide_eq_true_eq,
            if_neg hdiff, Bool.false_eq_true, if_false, Bool.and_eq_true, hbN, if_pos hend]
        rw [hres b1 s1 h1, hres b2 s2 h2]
        have ht := take_set_congr s1.new_word s2.new_word l N (d - 1) hs.2.2
        exact ⟨by simp only [hs.1, ht], rfl, ht⟩
      · have hres : ∀ (b : List Char) (st : autocorrect_state), strlen b = N →
            autocorrect k b (node l e ch n) false diff d st =
              (List.finRange 26).foldl (fun s i =>
                if (ch i).is_null then s
                else if (ch i).letter ≠ buf_read b d then
                  autocorrect k b (ch i) false (diff + 1) (d + 1) s
                else autocorrect k b (ch i) false diff (d + 1) s)
                { st with new_word := st.new_word.set (d - 1) l } := by
          intro b st hbN
          simp only [autocorrect, Bool.not_false, Bool.true_and, decide_eq_true_eq,
            if_neg hdiff, Bool.false_eq_true, if_false, Bool.and_eq_true, hbN, if_neg hend]
        rw [hres b1 s1 h1, hres b2 s2 h2]
        exact autocorrect_children_agree k b1 b2 N h1 h2 hb ch ih diff d _ _ hd
          ⟨hs.1, hs.2.1, take_set_congr _ _ l N (d - 1) hs.2.2⟩

/-- The call of `autocorrect` made by `prepare_autocorrect`, run on two query
buffers that hold the same string: the same lines are printed and the flag
`printed` is the same. -/
theorem run_autocorrect_agree (t : trie_t) (k : Int) (b1 b2 : List Char) (N : Nat)
    (h1 : strlen b1 = N) (h2 : strlen b2 = N)
    (hb : ∀ i, i ≤ N → buf_read b1 i = buf_read b2 i) :
    ac_agree N (run_autocorrect t k b1) (run_autocorrect t k b2) := by
  unfold run_autocorrect
  cases t.root with
  | NULL =>
    simp only [autocorrect]
    exact ac_agree_refl _ _
  | node l e ch n =>
    have hres : ∀ b : List Char, autocorrect k b (node l e ch n) true 0 0
          { new_word := zero_buffer, printed := 0, out := [] } =
        (List.finRange 26).foldl (fun s i =>
          if (ch i).is_null then s
          else if (ch i).letter ≠ buf_read b 0 then
            autocorrect k b (ch i) false (0 + 1) (0 + 1) s
          else autocorrect k b (ch i) false 0 (0 + 1) s)
          { new_word := zero_buffer, printed := 0, out := [] } := by
      intro b
      simp only [autocorrect, Bool.not_true, Bool.false_and, Bool.false_eq_true, if_false,
        if_true]
    rw [hres b1, hres b2]
    exact autocorrect_children_agree k b1 b2 N h1 h2 hb ch
      (fun i => autocorrect_agree k b1 b2 N h1 h2 hb (ch i)) 0 0 _ _ (Nat.zero_le _)
      (ac_agree_refl _ _)

/-- Two query buffers that hold the same word and its terminator read the same
up to the terminator. -/
theorem buf_read_query (w j1 j2 : List Char) :
    ∀ i, i ≤ w.length → buf_read (w ++ NUL :: j1) i = buf_read (w ++ NUL :: j2) i := by
  induction w with
  | nil =>
    intro i hi
    have : i = 0 := by simpa using hi
    subst this
    rfl
  | cons c cs ih =>
    intro i hi
    cases i with
    | zero => rfl
    | succ i =>
      simp only [List.length_cons] at hi
      have := ih i (by omega)
      simpa [buf_read] using this

/-- C21. For every trie, every `k` and any two query buffers that hold the same
non-empty word `w` and its terminator, whatever follows the terminator:
`autocorrect` prints the same lines and `prepare_autocorrect` gives the same
output (the same words, or the not-found line); a call of `autocorrect` on a
node deeper than the length of `w` prints nothing, and (for a trie with the
letter invariant and a word shorter than `MAX_WORD_LENGTH`) every printed line
is a stored word of the length of `w`, the word of a node at that depth.  The
traversal does go below that depth and does read the buffer after the
terminator: on the trie that stores `catsup`, with `k = 1`, the final content
of `new_word` differs between two buffers of `MAX_WORD_LENGTH` characters that
hold `cat` and differ after the terminator. -/
theorem autocorrect_query_up_to_terminator (t : trie_t) (k : Int) (w junk1 junk2 : List Char)
    (hnul : NUL ∉ w) (_hne : w ≠ []) :
    (run_autocorrect t k (w ++ NUL :: junk1)).out
      = (run_autocorrect t k (w ++ NUL :: junk2)).out ∧
    prepare_autocorrect t k (w ++ NUL :: junk1) = prepare_autocorrect t k (w ++ NUL :: junk2) ∧
    (∀ (nd : trie_node_t) (diff : Int) (d : Nat) (st : autocorrect_state), w.length < d →
      (autocorrect k (w ++ NUL :: junk1) nd false diff d st).out = st.out) ∧
    (w.length < MAX_WORD_LENGTH → letters_ok t.root = true →
      ∀ s ∈ (run_autocorrect t k (w ++ NUL :: junk1)).out, s.length = w.length ∧ stored t s) ∧
    (∃ (t0 : trie_t) (k0 : Int) (b1 b2 : List Char),
      b1.length = MAX_WORD_LENGTH ∧ b2.length = MAX_WORD_LENGTH ∧ cstr b1 = cstr b2 ∧
      (run_autocorrect t0 k0 b1).new_word ≠ (run_autocorrect t0 k0 b2).new_word) := by
  have hs : ∀ junk : List Char, strlen (w ++ NUL :: junk) = w.length := by
    intro junk
    unfold strlen
    rw [cstr_append_NUL w junk hnul]
  have hag := run_autocorrect_agree t k (w ++ NUL :: junk1) (w ++ NUL :: junk2) w.length
    (hs junk1) (hs junk2) (buf_read_query w junk1 junk2)
  refine ⟨hag.1, ?_, ?_, ?_, ?_⟩
  · unfold prepare_autocorrect
    simp only [hag.1, hag.2.1]
  · intro nd diff d st hd
    exact (autocorrect_below k (w ++ NUL :: junk1) nd diff d st (by rw [hs]; exact hd)).1
  · intro hlen hl s hmem
    have hpos : 0 < strlen (w ++ NUL :: junk1) := by
      rw [hs]; exact List.length_pos.2 _hne
    have hroot := ac_root t k (w ++ NUL :: junk1) hl hpos (by rw [hs]; omega)
    rw [cstr_append_NUL w junk1 hnul] at hroot
    have hout : (run_autocorrect t k (w ++ NUL :: junk1)).out
        = ((sub_entries t.root).filter (ac_qual w k 0 0)).map (fun x => x.1) :=
      congrArg Prod.snd hroot
    rw [hout] at hmem
    have := (mem_ac_words t k w s).1 hmem
    exact ⟨this.2.1, this.1⟩
  · refine ⟨trie_of ["catsup"], 1,
      "cat".toList ++ NUL :: 'u' :: List.replicate 45 NUL,
      "cat".toList ++ NUL :: 'x' :: List.replicate 45 NUL, ?_, ?_, ?_, ?_⟩
    · decide
    · decide
    · decide
    · decide

theorem autocorrect_query_up_to_terminator_witness :
    NUL ∉ "cat".toList ∧
    prepare_autocorrect (trie_of ["bat", "cot", "cats", "at"]) 1
      ("cat".toList ++ NUL :: List.replicate 46 'a') = ["bat".toList, "cot".toList] ∧
    prepare_autocorrect (trie_of ["bat", "cot", "cats", "at"]) 1
      ("cat".toList ++ NUL :: List.replicate 46 'a') =
    prepare_autocorrect (trie_of ["bat", "cot", "cats", "at"]) 1
      ("cat".toList ++ NUL :: List.replicate 46 's') :=
  ⟨by decide, by decide,
    (autocorrect_query_up_to_terminator (trie_of ["bat", "cot", "cats", "at"]) 1
      "cat".toList (List.replicate 46 'a') (List.replicate 46 's') (by decide)
      (by decide)).2.1⟩

end MK
